import Mathlib

/-!
Verification of the boxtree FMM expansion-wrangler code
(`boxtree/pyfmmlib_integration.py` and the reference constant-kernel wrangler in
`test/test_fmm.py`) against its natural-language specification.

Numpy arrays indexed by box id or particle id are modelled as total functions
`ℕ → _`; Python lists are modelled as `List ℕ`; real/complex scalars are
modelled over `ℚ` (complex values as real/imaginary pairs); a Python `raise`
is modelled with `Except`.
-/

set_option linter.unusedVariables false

namespace Boxtree

/-! ## Generic array/slice helpers -/

/-- Python list slice `l[start:stop]`. -/
def pySlice (l : List ℕ) (start stop : ℕ) : List ℕ := (l.take stop).drop start

/-- Membership of flat index `i` in the numpy slice `slice(start, start + cnt)`. -/
def inSlice (start cnt i : ℕ) : Prop := start ≤ i ∧ i < start + cnt

instance (start cnt i : ℕ) : Decidable (inSlice start cnt i) :=
  inferInstanceAs (Decidable (start ≤ i ∧ i < start + cnt))

/-- numpy in-place scalar update `a[k] += v` on an array modelled as a function. -/
def addAt (a : ℕ → ℚ) (k : ℕ) (v : ℚ) : ℕ → ℚ :=
  fun i => if i = k then a k + v else a i

/-- numpy slice assignment `pot[start:start+cnt] = v` (broadcast scalar). -/
def setSlice (pot : ℕ → ℚ) (start cnt : ℕ) (v : ℚ) : ℕ → ℚ :=
  fun i => if inSlice start cnt i then v else pot i

/-- numpy slice accumulation `pot[start:start+cnt] += v` (broadcast scalar). -/
def addSlice (pot : ℕ → ℚ) (start cnt : ℕ) (v : ℚ) : ℕ → ℚ :=
  fun i => if inSlice start cnt i then pot i + v else pot i

/-! ## The box tree consumed by the wranglers

The tree is an external collaborator (spec section 2); the fields below are
exactly the ones the two source files read.  Per-box arrays are total
functions from box ids, per-particle arrays total functions from particle
indices. -/

structure BTree where
  nlevels : ℕ
  nboxes : ℕ
  nsources : ℕ
  ntargets : ℕ
  level_start_box_nrs : ℕ → ℕ
  box_parent_ids : ℕ → ℕ
  box_child_ids : ℕ → List ℕ
  box_source_starts : ℕ → ℕ
  box_source_counts_nonchild : ℕ → ℕ
  box_target_starts : ℕ → ℕ
  box_target_counts_nonchild : ℕ → ℕ
  user_source_ids : ℕ → ℕ
  sorted_target_ids : ℕ → ℕ

/-- CSR interaction-list pair (`ssn.starts`, `ssn.lists`) used by
`eval_multipoles`. -/
structure SSN where
  starts : ℕ → ℕ
  lists : List ℕ

/-- The traversal data consumed by the nine wrangler operations (an external
collaborator, spec section 2). -/
structure Traversal where
  level_start_source_box_nrs : ℕ → ℕ
  source_boxes : List ℕ
  level_start_source_parent_box_nrs : ℕ → ℕ
  source_parent_boxes : List ℕ
  target_boxes : List ℕ
  neighbor_source_boxes_starts : ℕ → ℕ
  neighbor_source_boxes_lists : List ℕ
  level_start_target_or_target_parent_box_nrs : ℕ → ℕ
  target_or_target_parent_boxes : List ℕ
  from_sep_siblings_starts : ℕ → ℕ
  from_sep_siblings_lists : List ℕ
  target_boxes_by_source_level : ℕ → List ℕ
  from_sep_smaller_by_level : List SSN
  from_sep_bigger_starts : ℕ → ℕ
  from_sep_bigger_lists : List ℕ
  level_start_target_box_nrs : ℕ → ℕ

/-! ## The constant-kernel reference wrangler (`ConstantOneExpansionWrangler`)

Shallow embedding of the class in `test/test_fmm.py`.  Its expansions are one
scalar per box; `src_weights` is a per-particle array. -/

namespace ConstantOne

/-- `np.sum(src_weights[pslice])` for the source slice of box `ibox`
(`_get_source_slice`). -/
def sourceSum (t : BTree) (w : ℕ → ℚ) (ibox : ℕ) : ℚ :=
  ((List.range (t.box_source_counts_nonchild ibox)).map
    (fun k => w (t.box_source_starts ibox + k))).sum

/-- `form_multipoles`: `mpoles[ibox] += np.sum(src_weights[pslice])` for every
box in `source_boxes`, starting from a zero buffer.  (The
`level_start_source_box_nrs` argument is accepted and ignored, as in the
source.) -/
def form_multipoles (t : BTree) (level_start_source_box_nrs : ℕ → ℕ)
    (source_boxes : List ℕ) (src_weights : ℕ → ℚ) : ℕ → ℚ :=
  source_boxes.foldl
    (fun mpoles ibox => addAt mpoles ibox (sourceSum t src_weights ibox))
    (fun _ => 0)

/-- Inner loop of `coarsen_multipoles` for one parent box:
`for child in tree.box_child_ids[:, ibox]: if child: mpoles[ibox] += mpoles[child]`. -/
def coarsenStep (t : BTree) (mpoles : ℕ → ℚ) (ibox : ℕ) : ℕ → ℚ :=
  (t.box_child_ids ibox).foldl
    (fun mp child => if child ≠ 0 then addAt mp ibox (mp child) else mp)
    mpoles

/-- Source levels iterated by `coarsen_multipoles`:
`range(tree.nlevels-1, 2, -1)`, i.e. `nlevels-1, nlevels-2, ..., 3`. -/
def coarsenSourceLevels (nlevels : ℕ) : List ℕ :=
  (List.range' 3 (nlevels - 3)).reverse

/-- `coarsen_multipoles`: walks source levels from the deepest down to 3; for
each box in the target level's slice of `source_parent_boxes` accumulates all
nonzero children's multipoles into the parent. -/
def coarsen_multipoles (t : BTree) (level_start_source_parent_box_nrs : ℕ → ℕ)
    (source_parent_boxes : List ℕ) (mpoles : ℕ → ℚ) : ℕ → ℚ :=
  (coarsenSourceLevels t.nlevels).foldl
    (fun mp source_level =>
      let target_level := source_level - 1
      (pySlice source_parent_boxes
          (level_start_source_parent_box_nrs target_level)
          (level_start_source_parent_box_nrs (target_level + 1))).foldl
        (fun mp ibox => coarsenStep t mp ibox) mp)
    mpoles

/-- `eval_direct`: for each listed target box, sums the source-slice weights of
every neighbor source box and *assigns* the sum onto the box's target slice of
a fresh zero potential. -/
def eval_direct (t : BTree) (target_boxes : List ℕ)
    (neighbor_sources_starts : ℕ → ℕ) (neighbor_sources_lists : List ℕ)
    (src_weights : ℕ → ℚ) : ℕ → ℚ :=
  target_boxes.enum.foldl
    (fun pot p =>
      let src_sum := ((pySlice neighbor_sources_lists
          (neighbor_sources_starts p.1) (neighbor_sources_starts (p.1 + 1))).map
          (sourceSum t src_weights)).sum
      setSlice pot (t.box_target_starts p.2) (t.box_target_counts_nonchild p.2)
        src_sum)
    (fun _ => 0)

/-- `multipole_to_local`: for each position in
`target_or_target_parent_boxes`, accumulates the multipoles of its CSR list
slice into the target box's local expansion (starting from zeros).  (The
`level_start_target_or_target_parent_box_nrs` argument is accepted and
ignored, as in the source.) -/
def multipole_to_local (t : BTree)
    (level_start_target_or_target_parent_box_nrs : ℕ → ℕ)
    (target_or_target_parent_boxes : List ℕ)
    (starts : ℕ → ℕ) (lists : List ℕ) (mpole_exps : ℕ → ℚ) : ℕ → ℚ :=
  target_or_target_parent_boxes.enum.foldl
    (fun local_exps p =>
      let contrib :=
        ((pySlice lists (starts p.1) (starts (p.1 + 1))).map mpole_exps).sum
      addAt local_exps p.2 contrib)
    (fun _ => 0)

/-- `eval_multipoles`: for each source level's CSR structure and each listed
target box, accumulates the listed source boxes' multipoles onto the box's
target slice. -/
def eval_multipoles (t : BTree) (target_boxes_by_source_level : ℕ → List ℕ)
    (from_sep_smaller_by_level : List SSN) (mpole_exps : ℕ → ℚ) : ℕ → ℚ :=
  from_sep_smaller_by_level.enum.foldl
    (fun pot lp =>
      (target_boxes_by_source_level lp.1).enum.foldl
        (fun pot p =>
          let contrib := ((pySlice lp.2.lists (lp.2.starts p.1)
              (lp.2.starts (p.1 + 1))).map mpole_exps).sum
          addSlice pot (t.box_target_starts p.2)
            (t.box_target_counts_nonchild p.2) contrib)
        pot)
    (fun _ => 0)

/-- `form_locals`: for each position in `target_or_target_parent_boxes`,
accumulates the source-slice weight sums of its CSR list slice into the
target box's local expansion.  (An empty source box contributes `0`, matching
the `continue` in the source.) -/
def form_locals (t : BTree)
    (level_start_target_or_target_parent_box_nrs : ℕ → ℕ)
    (target_or_target_parent_boxes : List ℕ)
    (starts : ℕ → ℕ) (lists : List ℕ) (src_weights : ℕ → ℚ) : ℕ → ℚ :=
  target_or_target_parent_boxes.enum.foldl
    (fun local_exps p =>
      let contrib := ((pySlice lists (starts p.1) (starts (p.1 + 1))).map
        (sourceSum t src_weights)).sum
      addAt local_exps p.2 contrib)
    (fun _ => 0)

/-- Target levels iterated by `refine_locals`: `range(1, tree.nlevels)`. -/
def refineTargetLevels (nlevels : ℕ) : List ℕ :=
  List.range' 1 (nlevels - 1)

/-- `refine_locals`: for each target level `1, 2, ...` in increasing order and
each box in that level's slice of `target_or_target_parent_boxes`, adds the
parent's (already refined) local expansion into the box's entry. -/
def refine_locals (t : BTree)
    (level_start_target_or_target_parent_box_nrs : ℕ → ℕ)
    (target_or_target_parent_boxes : List ℕ) (local_exps : ℕ → ℚ) : ℕ → ℚ :=
  (refineTargetLevels t.nlevels).foldl
    (fun le target_lev =>
      (pySlice target_or_target_parent_boxes
          (level_start_target_or_target_parent_box_nrs target_lev)
          (level_start_target_or_target_parent_box_nrs (target_lev + 1))).foldl
        (fun le ibox => addAt le ibox (le (t.box_parent_ids ibox)))
        le)
    local_exps

/-- `eval_locals`: adds each listed target box's local expansion onto its
target slice of a fresh zero potential.  (The `level_start_target_box_nrs`
argument is accepted and ignored, as in the source.) -/
def eval_locals (t : BTree) (level_start_target_box_nrs : ℕ → ℕ)
    (target_boxes : List ℕ) (local_exps : ℕ → ℚ) : ℕ → ℚ :=
  target_boxes.foldl
    (fun pot ibox =>
      addSlice pot (t.box_target_starts ibox) (t.box_target_counts_nonchild ibox)
        (local_exps ibox))
    (fun _ => 0)

/-- `finalize_potentials` of the constant-kernel wrangler: the identity. -/
def finalize_potentials (potentials : ℕ → ℚ) : ℕ → ℚ := potentials

/-- `reorder_sources`: `source_array[self.tree.user_source_ids]`. -/
def reorder_sources (t : BTree) (source_array : ℕ → ℚ) : ℕ → ℚ :=
  fun i => source_array (t.user_source_ids i)

/-- `reorder_potentials`: `potentials[self.tree.sorted_target_ids]`. -/
def reorder_potentials (t : BTree) (potentials : ℕ → ℚ) : ℕ → ℚ :=
  fun i => potentials (t.sorted_target_ids i)

/-- Modelled from the spec: the FMM driver (`boxtree.fmm.drive_fmm`) is not
among the two source files of this repository; the spec (section 6,
"Exposed to Driver") states that the nine wrangler operations are invoked in
the fixed order `form_multipoles`, `coarsen_multipoles`, `multipole_to_local`,
`form_locals`, `refine_locals`, `eval_multipoles`, `eval_locals`,
`eval_direct`, `finalize_potentials`, threading expansion buffers and a
running output accumulator between them. -/
def drive_fmm (t : BTree) (trav : Traversal) (src_weights : ℕ → ℚ) : ℕ → ℚ :=
  let mpole_exps := coarsen_multipoles t
    trav.level_start_source_parent_box_nrs trav.source_parent_boxes
    (form_multipoles t trav.level_start_source_box_nrs trav.source_boxes
      src_weights)
  let local_exps_m2l := multipole_to_local t
    trav.level_start_target_or_target_parent_box_nrs
    trav.target_or_target_parent_boxes
    trav.from_sep_siblings_starts trav.from_sep_siblings_lists mpole_exps
  let local_exps_p2l := form_locals t
    trav.level_start_target_or_target_parent_box_nrs
    trav.target_or_target_parent_boxes
    trav.from_sep_bigger_starts trav.from_sep_bigger_lists src_weights
  let local_exps := refine_locals t
    trav.level_start_target_or_target_parent_box_nrs
    trav.target_or_target_parent_boxes
    (fun b => local_exps_m2l b + local_exps_p2l b)
  let pot := fun i =>
    eval_multipoles t trav.target_boxes_by_source_level
        trav.from_sep_smaller_by_level mpole_exps i
      + eval_locals t trav.level_start_target_box_nrs trav.target_boxes
          local_exps i
      + eval_direct t trav.target_boxes trav.neighbor_source_boxes_starts
          trav.neighbor_source_boxes_lists src_weights i
  finalize_potentials pot

end ConstantOne

/-! ## Generic fold lemmas -/

theorem addAt_self (a : ℕ → ℚ) (k : ℕ) (v : ℚ) : addAt a k v k = a k + v := by
  simp [addAt]

theorem addAt_other (a : ℕ → ℚ) (k : ℕ) (v : ℚ) {b : ℕ} (h : b ≠ k) :
    addAt a k v b = a b := by
  simp [addAt, h]

/-- Workhorse: a fold whose step is pointwise additive at index `i` computes,
at `i`, the initial value plus the sum of the per-entry increments. -/
theorem foldl_pointwise_add {α : Type} (step : (ℕ → ℚ) → α → (ℕ → ℚ))
    (g : α → ℚ) (i : ℕ) (h : ∀ pot p, step pot p i = pot i + g p) :
    ∀ (l : List α) (init : ℕ → ℚ), (l.foldl step init) i = init i + (l.map g).sum
  | [], init => by simp
  | p :: ps, init => by
    rw [List.foldl_cons, foldl_pointwise_add step g i h ps (step init p)]
    simp [h init p, add_assoc]

theorem addSlice_apply (pot : ℕ → ℚ) (start cnt : ℕ) (v : ℚ) (i : ℕ) :
    addSlice pot start cnt v i
      = pot i + if inSlice start cnt i then v else 0 := by
  by_cases h : inSlice start cnt i <;> simp [addSlice, h]

theorem setSlice_not_mem (pot : ℕ → ℚ) (start cnt : ℕ) (v : ℚ) {i : ℕ}
    (h : ¬ inSlice start cnt i) : setSlice pot start cnt v i = pot i := by
  simp [setSlice, h]

theorem setSlice_mem (pot : ℕ → ℚ) (start cnt : ℕ) (v : ℚ) {i : ℕ}
    (h : inSlice start cnt i) : setSlice pot start cnt v i = v := by
  simp [setSlice, h]

/-- A fold of slice assignments leaves an index outside every written slice
unchanged. -/
theorem foldl_setSlice_not_mem {α : Type} (sl : α → ℕ × ℕ) (val : α → ℚ)
    (i : ℕ) :
    ∀ (l : List α) (init : ℕ → ℚ),
      (∀ p ∈ l, ¬ inSlice (sl p).1 (sl p).2 i) →
      (l.foldl (fun pot p => setSlice pot (sl p).1 (sl p).2 (val p)) init) i
        = init i
  | [], init, _ => by simp
  | p :: ps, init, h => by
    rw [List.foldl_cons,
      foldl_setSlice_not_mem sl val i ps _ (fun q hq => h q (List.mem_cons_of_mem _ hq)),
      setSlice_not_mem _ _ _ _ (h p (List.mem_cons_self _ _))]

/-- A fold of slice assignments onto a zero array, where at most one written
slice contains `i`, computes at `i` the same thing an accumulating fold
would: the sum of the values whose slice contains `i`. -/
theorem foldl_setSlice_apply {α : Type} (sl : α → ℕ × ℕ) (val : α → ℚ) (i : ℕ) :
    ∀ (l : List α) (init : ℕ → ℚ),
      ((l.map (fun p => if inSlice (sl p).1 (sl p).2 i then (1:ℕ) else 0)).sum ≤ 1) →
      init i = 0 →
      (l.foldl (fun pot p => setSlice pot (sl p).1 (sl p).2 (val p)) init) i
        = (l.map (fun p => if inSlice (sl p).1 (sl p).2 i then val p else 0)).sum
  | [], init, _, hinit => by simpa using hinit
  | p :: ps, init, huniq, hinit => by
    rw [List.foldl_cons, List.map_cons, List.sum_cons]
    by_cases hp : inSlice (sl p).1 (sl p).2 i
    · have hrest : ∀ q ∈ ps, ¬ inSlice (sl q).1 (sl q).2 i := by
        intro q hq hqin
        have h1 : (1:ℕ) ≤ (ps.map (fun p => if inSlice (sl p).1 (sl p).2 i then (1:ℕ) else 0)).sum := by
          have : (fun p => if inSlice (sl p).1 (sl p).2 i then (1:ℕ) else 0) q = 1 := by
            simp [hqin]
          calc (1:ℕ) = (fun p => if inSlice (sl p).1 (sl p).2 i then (1:ℕ) else 0) q := this.symm
            _ ≤ _ := List.single_le_sum (by intro x hx; positivity) _
                (List.mem_map_of_mem (fun p => if inSlice (sl p).1 (sl p).2 i then (1:ℕ) else 0) hq)
        simp only [List.map_cons, List.sum_cons, hp, if_true] at huniq
        omega
      rw [foldl_setSlice_not_mem sl val i ps _ hrest, setSlice_mem _ _ _ _ hp]
      have : (ps.map (fun p => if inSlice (sl p).1 (sl p).2 i then val p else 0)).sum = 0 := by
        apply List.sum_eq_zero
        intro x hx
        obtain ⟨q, hq, rfl⟩ := List.mem_map.mp hx
        simp [hrest q hq]
      simp [hp, this]
    · rw [foldl_setSlice_apply sl val i ps _ (by
          simp only [List.map_cons, List.sum_cons, hp, if_false] at huniq
          simpa using huniq)
        (by rw [setSlice_not_mem _ _ _ _ hp]; exact hinit)]
      simp [hp]

/-! ## Tree and traversal validity

The spec's data-model invariants (section 3) phrased over the modelled
structures.  Box ids at level `ℓ` occupy `[level_start_box_nrs ℓ,
level_start_box_nrs (ℓ+1))`. -/

/-- Box `b` lies in the box-id range of level `ℓ`. -/
def inLevelRange (t : BTree) (ℓ b : ℕ) : Prop :=
  t.level_start_box_nrs ℓ ≤ b ∧ b < t.level_start_box_nrs (ℓ + 1)

instance (t : BTree) (ℓ b : ℕ) : Decidable (inLevelRange t ℓ b) :=
  inferInstanceAs (Decidable (_ ∧ _))

/-- The slice of `source_parent_boxes` processed by `coarsen_multipoles` at
target level `ℓ`. -/
def coarsenSlice (trav : Traversal) (ℓ : ℕ) : List ℕ :=
  pySlice trav.source_parent_boxes
    (trav.level_start_source_parent_box_nrs ℓ)
    (trav.level_start_source_parent_box_nrs (ℓ + 1))

/-- The slice of `target_or_target_parent_boxes` processed by `refine_locals`
at target level `ℓ`. -/
def refineSlice (trav : Traversal) (ℓ : ℕ) : List ℕ :=
  pySlice trav.target_or_target_parent_boxes
    (trav.level_start_target_or_target_parent_box_nrs ℓ)
    (trav.level_start_target_or_target_parent_box_nrs (ℓ + 1))

/-- Structural validity of the tree (spec section 3: level ranges partition
the box ids, children live one level down, parents one level up, the
per-box nonchild particle ranges partition the particle index space). -/
structure ValidTree (t : BTree) : Prop where
  nlevels_pos : 1 ≤ t.nlevels
  lsb_zero : t.level_start_box_nrs 0 = 0
  lsb_top : t.level_start_box_nrs t.nlevels = t.nboxes
  lsb_mono : ∀ ℓ < t.nlevels,
    t.level_start_box_nrs ℓ ≤ t.level_start_box_nrs (ℓ + 1)
  child_valid : ∀ b < t.nboxes, ∀ ℓ < t.nlevels, inLevelRange t ℓ b →
    ∀ c ∈ t.box_child_ids b, c ≠ 0 →
      ℓ + 1 < t.nlevels ∧ c < t.nboxes ∧ inLevelRange t (ℓ + 1) c
  parent_valid : ∀ b < t.nboxes, ∀ ℓ < t.nlevels, 1 ≤ ℓ → inLevelRange t ℓ b →
    t.box_parent_ids b < t.nboxes ∧ inLevelRange t (ℓ - 1) (t.box_parent_ids b)
  source_total :
    ∑ b in Finset.range t.nboxes, t.box_source_counts_nonchild b = t.nsources
  target_disjoint : ∀ b < t.nboxes, ∀ b2 < t.nboxes, b ≠ b2 →
    t.box_target_counts_nonchild b = 0 ∨ t.box_target_counts_nonchild b2 = 0 ∨
    t.box_target_starts b + t.box_target_counts_nonchild b ≤ t.box_target_starts b2 ∨
    t.box_target_starts b2 + t.box_target_counts_nonchild b2 ≤ t.box_target_starts b

/-- Validity of the traversal relative to the tree: listed box ids are in
range, per-level slices list boxes of that level without duplicates. -/
structure ValidTrav (t : BTree) (trav : Traversal) : Prop where
  source_boxes_nodup : trav.source_boxes.Nodup
  source_boxes_range : ∀ b ∈ trav.source_boxes, b < t.nboxes
  coarsen_nodup : ∀ ℓ < t.nlevels, 2 ≤ ℓ → ℓ + 2 ≤ t.nlevels →
    (coarsenSlice trav ℓ).Nodup
  coarsen_level : ∀ ℓ < t.nlevels, 2 ≤ ℓ → ℓ + 2 ≤ t.nlevels →
    ∀ b ∈ coarsenSlice trav ℓ, b < t.nboxes ∧ inLevelRange t ℓ b
  refine_nodup : ∀ ℓ < t.nlevels, 1 ≤ ℓ → (refineSlice trav ℓ).Nodup
  refine_level : ∀ ℓ < t.nlevels, 1 ≤ ℓ →
    ∀ b ∈ refineSlice trav ℓ, b < t.nboxes ∧ inLevelRange t ℓ b
  target_boxes_nodup : trav.target_boxes.Nodup
  target_boxes_range : ∀ b ∈ trav.target_boxes, b < t.nboxes
  sep_siblings_range : ∀ s ∈ trav.from_sep_siblings_lists, s < t.nboxes
  sep_smaller_range : ∀ ssn ∈ trav.from_sep_smaller_by_level,
    ∀ s ∈ ssn.lists, s < t.nboxes
  sep_bigger_range : ∀ s ∈ trav.from_sep_bigger_lists, s < t.nboxes
  neighbor_range : ∀ s ∈ trav.neighbor_source_boxes_lists, s < t.nboxes

/-- Box `b` is processed by `coarsen_multipoles` (it lies at some target level
between 2 and `nlevels - 2` and is listed in that level's slice of
`source_parent_boxes`). -/
def coarsenListed (t : BTree) (trav : Traversal) (b : ℕ) : Prop :=
  ∃ ℓ, ℓ < t.nlevels ∧ 2 ≤ ℓ ∧ ℓ + 2 ≤ t.nlevels ∧ inLevelRange t ℓ b ∧
    b ∈ coarsenSlice trav ℓ

instance (t : BTree) (trav : Traversal) (b : ℕ) :
    Decidable (coarsenListed t trav b) :=
  decidable_of_iff (∃ ℓ ∈ List.range t.nlevels, 2 ≤ ℓ ∧ ℓ + 2 ≤ t.nlevels ∧
      inLevelRange t ℓ b ∧ b ∈ coarsenSlice trav ℓ)
    (by simp [coarsenListed, List.mem_range, and_assoc])

/-- Box `b` is processed by `refine_locals` (it lies at some target level
`≥ 1` and is listed in that level's slice of
`target_or_target_parent_boxes`). -/
def refListed (t : BTree) (trav : Traversal) (b : ℕ) : Prop :=
  ∃ ℓ, ℓ < t.nlevels ∧ 1 ≤ ℓ ∧ inLevelRange t ℓ b ∧ b ∈ refineSlice trav ℓ

instance (t : BTree) (trav : Traversal) (b : ℕ) :
    Decidable (refListed t trav b) :=
  decidable_of_iff (∃ ℓ ∈ List.range t.nlevels, 1 ≤ ℓ ∧
      inLevelRange t ℓ b ∧ b ∈ refineSlice trav ℓ)
    (by simp [refListed, List.mem_range, and_assoc])

/-! ## Denotational description of the upward and downward passes -/

/-- Multipole value of box `b` right after `form_multipoles` (under a
duplicate-free `source_boxes`). -/
def mp0w (t : BTree) (trav : Traversal) (w : ℕ → ℚ) (b : ℕ) : ℚ :=
  if b ∈ trav.source_boxes then ConstantOne.sourceSum t w b else 0

/-- Multipole value of box `b` after the upward pass: its own formed value
plus, if the box is processed by coarsening, the aggregated values of its
nonzero children. -/
def mpAgg (t : BTree) (trav : Traversal) (w : ℕ → ℚ) : ℕ → ℕ → ℚ
  | 0, b => mp0w t trav w b
  | fuel + 1, b =>
    mp0w t trav w b +
      if coarsenListed t trav b then
        (((t.box_child_ids b).filter (fun c => c ≠ 0)).map
          (mpAgg t trav w fuel)).sum
      else 0

/-- Multiplicity (as a rational) with which source box `sb`'s own sources are
counted in box `s`'s aggregated multipole. -/
def mpCov (t : BTree) (trav : Traversal) : ℕ → ℕ → ℕ → ℚ
  | 0, s, sb => if s = sb ∧ s ∈ trav.source_boxes then 1 else 0
  | fuel + 1, s, sb =>
    (if s = sb ∧ s ∈ trav.source_boxes then 1 else 0) +
      if coarsenListed t trav s then
        (((t.box_child_ids s).filter (fun c => c ≠ 0)).map
          (fun c => mpCov t trav fuel c sb)).sum
      else 0

/-- Local value of box `b` after `refine_locals` applied to initial locals
`loc0`: its own initial value plus, if the box is processed by refinement,
the refined value of its parent. -/
def locAgg (t : BTree) (trav : Traversal) (loc0 : ℕ → ℚ) : ℕ → ℕ → ℚ
  | 0, b => loc0 b
  | fuel + 1, b =>
    loc0 b +
      if refListed t trav b then
        locAgg t trav loc0 fuel (t.box_parent_ids b)
      else 0

/-- Contribution accumulated by `multipole_to_local` for list position
`itgt`. -/
def m2lContrib (trav : Traversal) (mp : ℕ → ℚ) (itgt : ℕ) : ℚ :=
  ((pySlice trav.from_sep_siblings_lists (trav.from_sep_siblings_starts itgt)
    (trav.from_sep_siblings_starts (itgt + 1))).map mp).sum

/-- Contribution accumulated by `form_locals` for list position `itgt`. -/
def p2lContrib (t : BTree) (trav : Traversal) (w : ℕ → ℚ) (itgt : ℕ) : ℚ :=
  ((pySlice trav.from_sep_bigger_lists (trav.from_sep_bigger_starts itgt)
    (trav.from_sep_bigger_starts (itgt + 1))).map
    (ConstantOne.sourceSum t w)).sum

/-- Local expansion of box `b` before refinement (multipole-to-local plus
direct local formation). -/
def loc0w (t : BTree) (trav : Traversal) (w : ℕ → ℚ) (b : ℕ) : ℚ :=
  (trav.target_or_target_parent_boxes.enum.map
    (fun p => if p.2 = b then
        m2lContrib trav (mpAgg t trav w t.nlevels) p.1 + p2lContrib t trav w p.1
      else 0)).sum

/-- Multiplicity with which source box `sb` is counted in box `b`'s local
expansion before refinement. -/
def loc0Cov (t : BTree) (trav : Traversal) (b sb : ℕ) : ℚ :=
  (trav.target_or_target_parent_boxes.enum.map
    (fun p => if p.2 = b then
        ((pySlice trav.from_sep_siblings_lists
            (trav.from_sep_siblings_starts p.1)
            (trav.from_sep_siblings_starts (p.1 + 1))).map
          (fun s => mpCov t trav t.nlevels s sb)).sum
          + ((pySlice trav.from_sep_bigger_lists
              (trav.from_sep_bigger_starts p.1)
              (trav.from_sep_bigger_starts (p.1 + 1))).map
            (fun s => if s = sb then (1:ℚ) else 0)).sum
      else 0)).sum

/-- Multiplicity with which source box `sb` is counted in box `b`'s refined
local expansion. -/
def locCov (t : BTree) (trav : Traversal) : ℕ → ℕ → ℕ → ℚ
  | 0, b, sb => loc0Cov t trav b sb
  | fuel + 1, b, sb =>
    loc0Cov t trav b sb +
      if refListed t trav b then
        locCov t trav fuel (t.box_parent_ids b) sb
      else 0

/-- Particle index `i` lies in the (nonchild) target slice of box `b`. -/
def inTargetSlice (t : BTree) (b i : ℕ) : Prop :=
  inSlice (t.box_target_starts b) (t.box_target_counts_nonchild b) i

instance (t : BTree) (b i : ℕ) : Decidable (inTargetSlice t b i) :=
  inferInstanceAs (Decidable (inSlice _ _ _))

/-- Multiplicity with which source box `sb` is routed to target index `i` via
`eval_direct`. -/
def covDirect (t : BTree) (trav : Traversal) (i sb : ℕ) : ℚ :=
  (trav.target_boxes.enum.map (fun p =>
    if inTargetSlice t p.2 i then
      ((pySlice trav.neighbor_source_boxes_lists
          (trav.neighbor_source_boxes_starts p.1)
          (trav.neighbor_source_boxes_starts (p.1 + 1))).map
        (fun s => if s = sb then (1:ℚ) else 0)).sum
    else 0)).sum

/-- Multiplicity with which source box `sb` is routed to target index `i` via
`eval_multipoles`. -/
def covEvalMp (t : BTree) (trav : Traversal) (i sb : ℕ) : ℚ :=
  (trav.from_sep_smaller_by_level.enum.map (fun lp =>
    ((trav.target_boxes_by_source_level lp.1).enum.map (fun p =>
      if inTargetSlice t p.2 i then
        ((pySlice lp.2.lists (lp.2.starts p.1) (lp.2.starts (p.1 + 1))).map
          (fun s => mpCov t trav t.nlevels s sb)).sum
      else 0)).sum)).sum

/-- Multiplicity with which source box `sb` is routed to target index `i` via
`eval_locals` (through refined local expansions). -/
def covEvalLoc (t : BTree) (trav : Traversal) (i sb : ℕ) : ℚ :=
  (trav.target_boxes.map (fun b =>
    if inTargetSlice t b i then locCov t trav t.nlevels b sb else 0)).sum

/-- Total multiplicity with which source box `sb`'s own sources are counted
at target index `i` by the whole pipeline. -/
def covIdx (t : BTree) (trav : Traversal) (i sb : ℕ) : ℚ :=
  covDirect t trav i sb + covEvalMp t trav i sb + covEvalLoc t trav i sb

/-- The traversal is complete: the interaction lists jointly cover each
(source box, target index) pair exactly once. -/
def CompleteTrav (t : BTree) (trav : Traversal) : Prop :=
  ∀ i < t.ntargets, ∀ sb < t.nboxes, covIdx t trav i sb = 1

instance (t : BTree) (trav : Traversal) : Decidable (CompleteTrav t trav) :=
  inferInstanceAs (Decidable (∀ i < t.ntargets, ∀ sb < t.nboxes, _ = _))

/-- Conversion of a sum over a list of box ids into a sum over all box ids
weighted by multiplicity. -/
theorem sum_map_eq_count_sum (f : ℕ → ℚ) (n : ℕ) :
    ∀ (l : List ℕ), (∀ x ∈ l, x < n) →
      (l.map f).sum = ∑ sb in Finset.range n, (l.count sb : ℚ) * f sb
  | [], _ => by simp
  | x :: xs, h => by
    have IH := sum_map_eq_count_sum f n xs (fun y hy => h y (List.mem_cons_of_mem _ hy))
    have hx : x ∈ Finset.range n := Finset.mem_range.mpr (h x (List.mem_cons_self _ _))
    rw [List.map_cons, List.sum_cons, IH]
    have hsplit : ∑ sb in Finset.range n, (List.count sb (x :: xs) : ℚ) * f sb
        = ∑ sb in Finset.range n,
            ((List.count sb xs : ℚ) * f sb + if sb = x then f sb else 0) := by
      apply Finset.sum_congr rfl
      intro sb _
      by_cases hsb : sb = x
      · subst hsb
        rw [List.count_cons_self]
        push_cast
        simp
        ring
      · rw [List.count_cons_of_ne hsb]
        simp [hsb]
    rw [hsplit, Finset.sum_add_distrib, Finset.sum_ite_eq' (Finset.range n) x f,
      if_pos hx]
    ring

/-- Indicator-weighted conversion of a list sum into a sum over all box ids. -/
theorem sum_map_eq_indicator_sum (f : ℕ → ℚ) (n : ℕ) :
    ∀ (l : List ℕ), (∀ x ∈ l, x < n) →
      (l.map f).sum
        = ∑ sb in Finset.range n,
            (l.map (fun x => if x = sb then (1:ℚ) else 0)).sum * f sb
  | [], _ => by simp
  | x :: xs, h => by
    have IH := sum_map_eq_indicator_sum f n xs
      (fun y hy => h y (List.mem_cons_of_mem _ hy))
    have hx : x ∈ Finset.range n := Finset.mem_range.mpr (h x (List.mem_cons_self _ _))
    rw [List.map_cons, List.sum_cons, IH]
    have hsplit : ∀ sb ∈ Finset.range n,
        ((x :: xs).map (fun y => if y = sb then (1:ℚ) else 0)).sum * f sb
          = (xs.map (fun y => if y = sb then (1:ℚ) else 0)).sum * f sb
              + (if sb = x then f sb else 0) := by
      intro sb _
      rw [List.map_cons, List.sum_cons]
      by_cases hsb : sb = x
      · subst hsb
        simp [add_mul]
        ring
      · have : ¬ (x = sb) := fun hc => hsb hc.symm
        simp [this, hsb]
    rw [Finset.sum_congr rfl hsplit, Finset.sum_add_distrib,
      Finset.sum_ite_eq' (Finset.range n) x f, if_pos hx]
    ring

/-! ## Level-range arithmetic -/

theorem lsb_mono_le (t : BTree) (hT : ValidTree t) {a b : ℕ} (hab : a ≤ b)
    (hb : b ≤ t.nlevels) :
    t.level_start_box_nrs a ≤ t.level_start_box_nrs b := by
  induction b with
  | zero =>
    have : a = 0 := by omega
    rw [this]
  | succ n ih =>
    rcases Nat.eq_or_lt_of_le hab with h | h
    · rw [h]
    · exact le_trans (ih (by omega) (by omega)) (hT.lsb_mono n (by omega))

theorem inLevelRange_unique (t : BTree) (hT : ValidTree t) {a ℓ ℓ2 : ℕ}
    (ha : ℓ < t.nlevels) (hb : ℓ2 < t.nlevels)
    (h1 : inLevelRange t ℓ a) (h2 : inLevelRange t ℓ2 a) : ℓ = ℓ2 := by
  rcases lt_trichotomy ℓ ℓ2 with h | h | h
  · exfalso
    have : t.level_start_box_nrs (ℓ + 1) ≤ t.level_start_box_nrs ℓ2 :=
      lsb_mono_le t hT (by omega) (by omega)
    have := h1.2
    have := h2.1
    omega
  · exact h
  · exfalso
    have : t.level_start_box_nrs (ℓ2 + 1) ≤ t.level_start_box_nrs ℓ :=
      lsb_mono_le t hT (by omega) (by omega)
    have := h2.2
    have := h1.1
    omega

/-- A box id at or above `level_start_box_nrs u` is in no level range `ℓ` with
`ℓ + 1 ≤ u`. -/
theorem not_inLevelRange_of_ge (t : BTree) (hT : ValidTree t) {u ℓ b : ℕ}
    (hu : u ≤ t.nlevels) (hℓ : ℓ + 1 ≤ u) (hb : t.level_start_box_nrs u ≤ b) :
    ¬ inLevelRange t ℓ b := by
  intro h
  have : t.level_start_box_nrs (ℓ + 1) ≤ t.level_start_box_nrs u :=
    lsb_mono_le t hT hℓ hu
  have := h.2
  omega

/-- A box id below `level_start_box_nrs u` is in no level range `ℓ ≥ u`. -/
theorem not_inLevelRange_of_lt (t : BTree) (hT : ValidTree t) {u ℓ b : ℕ}
    (hu : ℓ ≤ t.nlevels) (hℓ : u ≤ ℓ) (hb : b < t.level_start_box_nrs u) :
    ¬ inLevelRange t ℓ b := by
  intro h
  have : t.level_start_box_nrs u ≤ t.level_start_box_nrs ℓ :=
    lsb_mono_le t hT hℓ hu
  have := h.1
  omega

/-! ## Upward pass: `form_multipoles` then `coarsen_multipoles` -/

theorem mpAgg_not_listed (t : BTree) (trav : Traversal) (w : ℕ → ℚ) {b : ℕ}
    (h : ¬ coarsenListed t trav b) :
    ∀ fuel, mpAgg t trav w fuel b = mp0w t trav w b
  | 0 => rfl
  | fuel + 1 => by simp [mpAgg, h]

theorem mpCov_not_listed (t : BTree) (trav : Traversal) {s : ℕ}
    (h : ¬ coarsenListed t trav s) :
    ∀ fuel sb, mpCov t trav fuel s sb
      = if s = sb ∧ s ∈ trav.source_boxes then 1 else 0
  | 0, sb => rfl
  | fuel + 1, sb => by simp [mpCov, h]

/-- Fuel stability: beyond the depth remaining below a box's level, the
aggregated multipole no longer depends on the fuel. -/
theorem mpAgg_stable (t : BTree) (trav : Traversal) (hT : ValidTree t)
    (hV : ValidTrav t trav) (w : ℕ → ℚ) :
    ∀ fuel1 fuel2 ℓ b, inLevelRange t ℓ b → ℓ < t.nlevels →
      t.nlevels ≤ ℓ + fuel1 + 1 → t.nlevels ≤ ℓ + fuel2 + 1 →
      mpAgg t trav w fuel1 b = mpAgg t trav w fuel2 b := by
  intro fuel1
  induction fuel1 with
  | zero =>
    intro fuel2 ℓ b hr hℓ hb1 hb2
    have hnl : ¬ coarsenListed t trav b := by
      rintro ⟨ℓ2, hℓ2, h2, hup, hr2, hmem⟩
      have : ℓ2 = ℓ := inLevelRange_unique t hT hℓ2 hℓ hr2 hr
      omega
    rw [mpAgg_not_listed t trav w hnl, mpAgg_not_listed t trav w hnl]
  | succ f ih =>
    intro fuel2 ℓ b hr hℓ hb1 hb2
    by_cases hl : coarsenListed t trav b
    · obtain ⟨ℓ2, hℓ2, h2, hup, hr2, hmem⟩ := hl
      have hℓeq : ℓ2 = ℓ := inLevelRange_unique t hT hℓ2 hℓ hr2 hr
      subst hℓeq
      have hfuel2 : 1 ≤ fuel2 := by omega
      obtain ⟨g, rfl⟩ : ∃ g, fuel2 = g + 1 := ⟨fuel2 - 1, by omega⟩
      have hlb : coarsenListed t trav b := ⟨ℓ2, hℓ2, h2, hup, hr2, hmem⟩
      simp only [mpAgg, if_pos hlb]
      congr 1
      have hbn : b < t.nboxes := (hV.coarsen_level ℓ2 hℓ2 h2 hup b hmem).1
      apply congrArg
      apply List.map_congr_left
      intro c hc
      have hc2 := List.mem_filter.mp hc
      have hcne : c ≠ 0 := by simpa using hc2.2
      obtain ⟨hlt, hcn, hcr⟩ :=
        hT.child_valid b hbn ℓ2 hℓ2 hr2 c hc2.1 hcne
      exact ih g (ℓ2 + 1) c hcr hlt (by omega) (by omega)
    · rw [mpAgg_not_listed t trav w hl, mpAgg_not_listed t trav w hl]

/-- Fuel stability for the coverage multiplicities. -/
theorem mpCov_stable (t : BTree) (trav : Traversal) (hT : ValidTree t)
    (hV : ValidTrav t trav) :
    ∀ fuel1 fuel2 ℓ s, inLevelRange t ℓ s → ℓ < t.nlevels →
      t.nlevels ≤ ℓ + fuel1 + 1 → t.nlevels ≤ ℓ + fuel2 + 1 →
      ∀ sb, mpCov t trav fuel1 s sb = mpCov t trav fuel2 s sb := by
  intro fuel1
  induction fuel1 with
  | zero =>
    intro fuel2 ℓ s hr hℓ hb1 hb2 sb
    have hnl : ¬ coarsenListed t trav s := by
      rintro ⟨ℓ2, hℓ2, h2, hup, hr2, hmem⟩
      have : ℓ2 = ℓ := inLevelRange_unique t hT hℓ2 hℓ hr2 hr
      omega
    rw [mpCov_not_listed t trav hnl, mpCov_not_listed t trav hnl]
  | succ f ih =>
    intro fuel2 ℓ s hr hℓ hb1 hb2 sb
    by_cases hl : coarsenListed t trav s
    · obtain ⟨ℓ2, hℓ2, h2, hup, hr2, hmem⟩ := hl
      have hℓeq : ℓ2 = ℓ := inLevelRange_unique t hT hℓ2 hℓ hr2 hr
      subst hℓeq
      obtain ⟨g, rfl⟩ : ∃ g, fuel2 = g + 1 := ⟨fuel2 - 1, by omega⟩
      have hlb : coarsenListed t trav s := ⟨ℓ2, hℓ2, h2, hup, hr2, hmem⟩
      simp only [mpCov, if_pos hlb]
      congr 1
      have hbn : s < t.nboxes := (hV.coarsen_level ℓ2 hℓ2 h2 hup s hmem).1
      apply congrArg
      apply List.map_congr_left
      intro c hc
      have hc2 := List.mem_filter.mp hc
      have hcne : c ≠ 0 := by simpa using hc2.2
      obtain ⟨hlt, hcn, hcr⟩ :=
        hT.child_valid s hbn ℓ2 hℓ2 hr2 c hc2.1 hcne
      exact ih g (ℓ2 + 1) c hcr hlt (by omega) (by omega) sb
    · rw [mpCov_not_listed t trav hl, mpCov_not_listed t trav hl]

/-- Under a duplicate-free list, summing per-element indicator contributions
collapses to a membership test. -/
theorem sum_ite_eq_of_nodup (f : ℕ → ℚ) (b : ℕ) :
    ∀ (l : List ℕ), l.Nodup →
      (l.map (fun x => if b = x then f x else 0)).sum
        = if b ∈ l then f b else 0
  | [], _ => by simp
  | x :: xs, h => by
    rw [List.map_cons, List.sum_cons,
      sum_ite_eq_of_nodup f b xs (List.Nodup.of_cons h)]
    by_cases hbx : b = x
    · subst hbx
      have : b ∉ xs := (List.nodup_cons.mp h).1
      simp [this]
    · simp [hbx, List.mem_cons]

/-- Characterization of `form_multipoles`. -/
theorem form_multipoles_eq_mp0w (t : BTree) (trav : Traversal)
    (hV : ValidTrav t trav) (lssb : ℕ → ℕ) (w : ℕ → ℚ) (b : ℕ) :
    ConstantOne.form_multipoles t lssb trav.source_boxes w b
      = mp0w t trav w b := by
  have h := foldl_pointwise_add
    (fun mpoles ibox => addAt mpoles ibox (ConstantOne.sourceSum t w ibox))
    (fun ibox => if b = ibox then ConstantOne.sourceSum t w ibox else 0) b
    (by
      intro pot p
      by_cases hbp : b = p
      · subst hbp; simp [addAt]
      · simp [addAt, hbp])
    trav.source_boxes (fun _ => 0)
  rw [ConstantOne.form_multipoles, h,
    sum_ite_eq_of_nodup _ b trav.source_boxes hV.source_boxes_nodup]
  simp [mp0w]

theorem foldl_child_other {ibox b : ℕ} (h : b ≠ ibox) :
    ∀ (cs : List ℕ) (mp : ℕ → ℚ),
      (cs.foldl (fun mp child => if child ≠ 0 then addAt mp ibox (mp child) else mp) mp) b
        = mp b
  | [], mp => rfl
  | c :: cs, mp => by
    rw [List.foldl_cons, foldl_child_other h cs _]
    by_cases hc : c ≠ 0
    · rw [if_pos hc, addAt_other _ _ _ h]
    · rw [if_neg hc]

theorem foldl_child_self {ibox : ℕ} :
    ∀ (cs : List ℕ) (mp : ℕ → ℚ), (∀ c ∈ cs, c ≠ 0 → c ≠ ibox) →
      (cs.foldl (fun mp child => if child ≠ 0 then addAt mp ibox (mp child) else mp) mp) ibox
        = mp ibox + ((cs.filter (fun c => c ≠ 0)).map mp).sum
  | [], mp, _ => by simp
  | c :: cs, mp, h => by
    rw [List.foldl_cons]
    by_cases hc : c ≠ 0
    · rw [if_pos hc,
        foldl_child_self cs _ (fun x hx hx0 => h x (List.mem_cons_of_mem _ hx) hx0)]
      have hstep : ∀ x ∈ cs.filter (fun c => c ≠ 0),
          addAt mp ibox (mp c) x = mp x := by
        intro x hx
        have hx2 := List.mem_filter.mp hx
        have hx0 : x ≠ 0 := by simpa using hx2.2
        exact addAt_other _ _ _ (h x (List.mem_cons_of_mem _ hx2.1) hx0)
      rw [List.map_congr_left hstep, addAt_self]
      have hfil : (c :: cs).filter (fun c => c ≠ 0) = c :: cs.filter (fun c => c ≠ 0) := by
        simp [List.filter_cons, hc]
      rw [hfil, List.map_cons, List.sum_cons]
      ring
    · rw [if_neg hc,
        foldl_child_self cs _ (fun x hx hx0 => h x (List.mem_cons_of_mem _ hx) hx0)]
      have hfil : (c :: cs).filter (fun c => c ≠ 0) = cs.filter (fun c => c ≠ 0) := by
        simp only [List.filter_cons]
        simp at hc
        simp [hc]
      rw [hfil]

theorem coarsenStep_other (t : BTree) (mp : ℕ → ℚ) {b ibox : ℕ} (h : b ≠ ibox) :
    ConstantOne.coarsenStep t mp ibox b = mp b :=
  foldl_child_other h _ mp

theorem coarsenStep_self (t : BTree) (mp : ℕ → ℚ) (ibox : ℕ)
    (h : ∀ c ∈ t.box_child_ids ibox, c ≠ 0 → c ≠ ibox) :
    ConstantOne.coarsenStep t mp ibox ibox
      = mp ibox + (((t.box_child_ids ibox).filter (fun c => c ≠ 0)).map mp).sum :=
  foldl_child_self _ mp h

theorem foldl_coarsen_not_mem (t : BTree) :
    ∀ (S : List ℕ) (mp : ℕ → ℚ) {b : ℕ}, b ∉ S →
      (S.foldl (fun mp ibox => ConstantOne.coarsenStep t mp ibox) mp) b = mp b
  | [], mp, b, _ => rfl
  | a :: S, mp, b, h => by
    rw [List.foldl_cons,
      foldl_coarsen_not_mem t S _ (fun hb => h (List.mem_cons_of_mem _ hb))]
    exact coarsenStep_other t mp (fun hba => h (hba ▸ List.mem_cons_self _ _))

theorem foldl_coarsen_mem (t : BTree) :
    ∀ (S : List ℕ) (mp : ℕ → ℚ) {b : ℕ}, S.Nodup → b ∈ S →
      (∀ a ∈ S, ∀ c ∈ t.box_child_ids a, c ≠ 0 → c ∉ S) →
      (S.foldl (fun mp ibox => ConstantOne.coarsenStep t mp ibox) mp) b
        = mp b + (((t.box_child_ids b).filter (fun c => c ≠ 0)).map mp).sum
  | [], mp, b, _, hb, _ => absurd hb (List.not_mem_nil b)
  | a :: S, mp, b, hnd, hb, hchild => by
    rcases List.mem_cons.mp hb with rfl | hbS
    · rw [List.foldl_cons,
        foldl_coarsen_not_mem t S _ (List.nodup_cons.mp hnd).1]
      exact coarsenStep_self t mp b
        (fun c hc hc0 hcb =>
          hchild b (List.mem_cons_self _ _) c hc hc0 (hcb ▸ List.mem_cons_self _ _))
    · rw [List.foldl_cons,
        foldl_coarsen_mem t S _ (List.nodup_cons.mp hnd).2 hbS
          (fun x hx c hc hc0 hcS =>
            hchild x (List.mem_cons_of_mem _ hx) c hc hc0 (List.mem_cons_of_mem _ hcS))]
      have hba : b ≠ a := fun hba => (List.nodup_cons.mp hnd).1 (hba ▸ hbS)
      rw [coarsenStep_other t mp hba]
      congr 1
      apply congrArg
      apply List.map_congr_left
      intro c hc
      have hc2 := List.mem_filter.mp hc
      have hc0 : c ≠ 0 := by simpa using hc2.2
      have hcS : c ∉ a :: S :=
        hchild b (List.mem_cons_of_mem _ hbS) c hc2.1 hc0
      exact coarsenStep_other t mp
        (fun hca => hcS (hca ▸ List.mem_cons_self _ _))

/-- One target level of coarsening preserves the aggregation invariant,
moving the "fully aggregated" id threshold one level start down. -/
theorem coarsen_level_step (t : BTree) (trav : Traversal) (hT : ValidTree t)
    (hV : ValidTrav t trav) (w : ℕ → ℚ) (ℓ : ℕ) (h2 : 2 ≤ ℓ)
    (hup : ℓ + 2 ≤ t.nlevels) (mp : ℕ → ℚ)
    (hhigh : ∀ b, t.level_start_box_nrs (ℓ + 1) ≤ b →
      mp b = mpAgg t trav w t.nlevels b)
    (hlow : ∀ b, b < t.level_start_box_nrs (ℓ + 1) → mp b = mp0w t trav w b) :
    (∀ b, t.level_start_box_nrs ℓ ≤ b →
      ((coarsenSlice trav ℓ).foldl
          (fun mp ibox => ConstantOne.coarsenStep t mp ibox) mp) b
        = mpAgg t trav w t.nlevels b) ∧
    (∀ b, b < t.level_start_box_nrs ℓ →
      ((coarsenSlice trav ℓ).foldl
          (fun mp ibox => ConstantOne.coarsenStep t mp ibox) mp) b
        = mp0w t trav w b) := by
  have hℓn : ℓ < t.nlevels := by omega
  have hchild : ∀ a ∈ coarsenSlice trav ℓ, ∀ c ∈ t.box_child_ids a, c ≠ 0 →
      c ∉ coarsenSlice trav ℓ := by
    intro a haS c hc hc0 hcS
    obtain ⟨han, har⟩ := hV.coarsen_level ℓ hℓn h2 hup a haS
    obtain ⟨hl1, hcn, hcr⟩ := hT.child_valid a han ℓ hℓn har c hc hc0
    obtain ⟨hcn2, hcr2⟩ := hV.coarsen_level ℓ hℓn h2 hup c hcS
    have := inLevelRange_unique t hT hl1 hℓn hcr hcr2
    omega
  constructor
  · intro b hbge
    by_cases hbS : b ∈ coarsenSlice trav ℓ
    · obtain ⟨hbn, hbr⟩ := hV.coarsen_level ℓ hℓn h2 hup b hbS
      rw [foldl_coarsen_mem t _ mp (hV.coarsen_nodup ℓ hℓn h2 hup) hbS hchild]
      have hmpb : mp b = mp0w t trav w b := hlow b hbr.2
      have hsum : ∀ c ∈ (t.box_child_ids b).filter (fun c => c ≠ 0),
          mp c = mpAgg t trav w t.nlevels c := by
        intro c hc
        have hc2 := List.mem_filter.mp hc
        have hc0 : c ≠ 0 := by simpa using hc2.2
        obtain ⟨hl1, hcn, hcr⟩ := hT.child_valid b hbn ℓ hℓn hbr c hc2.1 hc0
        exact hhigh c hcr.1
      rw [hmpb, List.map_congr_left hsum]
      have hlst : coarsenListed t trav b := ⟨ℓ, hℓn, h2, hup, hbr, hbS⟩
      obtain ⟨N, hN⟩ : ∃ N, t.nlevels = N + 1 := ⟨t.nlevels - 1, by omega⟩
      have hunfold : mpAgg t trav w t.nlevels b
          = mp0w t trav w b
            + (((t.box_child_ids b).filter (fun c => c ≠ 0)).map
                (mpAgg t trav w N)).sum := by
        rw [hN]
        simp [mpAgg, if_pos hlst]
      rw [hunfold]
      congr 1
      apply congrArg
      apply List.map_congr_left
      intro c hc
      have hc2 := List.mem_filter.mp hc
      have hc0 : c ≠ 0 := by simpa using hc2.2
      obtain ⟨hl1, hcn, hcr⟩ := hT.child_valid b hbn ℓ hℓn hbr c hc2.1 hc0
      exact mpAgg_stable t trav hT hV w t.nlevels N (ℓ + 1) c hcr hl1
        (by omega) (by omega)
    · rw [foldl_coarsen_not_mem t _ mp hbS]
      by_cases hhi : t.level_start_box_nrs (ℓ + 1) ≤ b
      · exact hhigh b hhi
      · have hbr : inLevelRange t ℓ b := ⟨hbge, by omega⟩
        have hnl : ¬ coarsenListed t trav b := by
          rintro ⟨ℓ2, hℓ2, h22, hup2, hr2, hmem2⟩
          have : ℓ2 = ℓ := inLevelRange_unique t hT hℓ2 hℓn hr2 hbr
          subst this
          exact hbS hmem2
        rw [hlow b (by omega), mpAgg_not_listed t trav w hnl]
  · intro b hblt
    have hbS : b ∉ coarsenSlice trav ℓ := fun hb => by
      have := (hV.coarsen_level ℓ hℓn h2 hup b hb).2.1
      omega
    have hmono : t.level_start_box_nrs ℓ ≤ t.level_start_box_nrs (ℓ + 1) :=
      hT.lsb_mono ℓ hℓn
    rw [foldl_coarsen_not_mem t _ mp hbS, hlow b (by omega)]

/-- The descending level loop of `coarsen_multipoles` maintains the
invariant from the deepest level down to level 2. -/
theorem coarsen_levels_invariant (t : BTree) (trav : Traversal)
    (hT : ValidTree t) (hV : ValidTrav t trav) (w : ℕ → ℚ) :
    ∀ k, k + 3 ≤ t.nlevels →
    ∀ mp : ℕ → ℚ,
      (∀ b, t.level_start_box_nrs (k + 2) ≤ b →
        mp b = mpAgg t trav w t.nlevels b) →
      (∀ b, b < t.level_start_box_nrs (k + 2) → mp b = mp0w t trav w b) →
      (∀ b, t.level_start_box_nrs 2 ≤ b →
        (((List.range' 3 k).reverse).foldl
          (fun mp source_level =>
            (pySlice trav.source_parent_boxes
              (trav.level_start_source_parent_box_nrs (source_level - 1))
              (trav.level_start_source_parent_box_nrs (source_level - 1 + 1))).foldl
              (fun mp ibox => ConstantOne.coarsenStep t mp ibox) mp) mp) b
          = mpAgg t trav w t.nlevels b) ∧
      (∀ b, b < t.level_start_box_nrs 2 →
        (((List.range' 3 k).reverse).foldl
          (fun mp source_level =>
            (pySlice trav.source_parent_boxes
              (trav.level_start_source_parent_box_nrs (source_level - 1))
              (trav.level_start_source_parent_box_nrs (source_level - 1 + 1))).foldl
              (fun mp ibox => ConstantOne.coarsenStep t mp ibox) mp) mp) b
          = mp0w t trav w b) := by
  intro k
  induction k with
  | zero =>
    intro hk mp hhigh hlow
    simp only [List.range', List.reverse_nil, List.foldl_nil]
    exact ⟨fun b hb => hhigh b hb, fun b hb => hlow b hb⟩
  | succ k ih =>
    intro hk mp hhigh hlow
    have hdecomp : (List.range' 3 (k + 1)).reverse
        = (3 + k) :: (List.range' 3 k).reverse := by
      rw [List.range'_concat]
      simp
    rw [hdecomp, List.foldl_cons]
    have hstep := coarsen_level_step t trav hT hV w (k + 2) (by omega) (by omega)
      mp (by
        intro b hb
        exact hhigh b (by simpa using hb))
      (by
        intro b hb
        exact hlow b (by simpa using hb))
    have h32 : 3 + k - 1 = k + 2 := by omega
    rw [show ((pySlice trav.source_parent_boxes
          (trav.level_start_source_parent_box_nrs (3 + k - 1))
          (trav.level_start_source_parent_box_nrs (3 + k - 1 + 1))).foldl
          (fun mp ibox => ConstantOne.coarsenStep t mp ibox) mp)
        = ((coarsenSlice trav (k + 2)).foldl
          (fun mp ibox => ConstantOne.coarsenStep t mp ibox) mp) by
      rw [h32]
      rfl]
    exact ih (by omega) _ hstep.1 hstep.2

/-- The upward pass (`form_multipoles` then `coarsen_multipoles`) computes
exactly the denotational aggregated multipoles. -/
theorem upward_eq_mpAgg (t : BTree) (trav : Traversal) (hT : ValidTree t)
    (hV : ValidTrav t trav) (w : ℕ → ℚ) (b : ℕ) :
    ConstantOne.coarsen_multipoles t trav.level_start_source_parent_box_nrs
      trav.source_parent_boxes
      (ConstantOne.form_multipoles t trav.level_start_source_box_nrs
        trav.source_boxes w) b
      = mpAgg t trav w t.nlevels b := by
  have hform : ∀ b, ConstantOne.form_multipoles t trav.level_start_source_box_nrs
      trav.source_boxes w b = mp0w t trav w b :=
    form_multipoles_eq_mp0w t trav hV trav.level_start_source_box_nrs w
  by_cases h3 : 3 ≤ t.nlevels
  · have hinv := coarsen_levels_invariant t trav hT hV w (t.nlevels - 3)
      (by omega)
      (ConstantOne.form_multipoles t trav.level_start_source_box_nrs
        trav.source_boxes w)
      (by
        intro b hb
        rw [hform b]
        have hnl : ¬ coarsenListed t trav b := by
          rintro ⟨ℓ, hℓ, h2, hup, hr, hmem⟩
          exact not_inLevelRange_of_ge t hT (u := t.nlevels - 3 + 2)
            (by omega) (by omega) hb hr
        rw [mpAgg_not_listed t trav w hnl])
      (fun b hb => hform b)
    have hml : ConstantOne.coarsen_multipoles t
        trav.level_start_source_parent_box_nrs trav.source_parent_boxes
        (ConstantOne.form_multipoles t trav.level_start_source_box_nrs
          trav.source_boxes w)
        = ((List.range' 3 (t.nlevels - 3)).reverse).foldl
          (fun mp source_level =>
            (pySlice trav.source_parent_boxes
              (trav.level_start_source_parent_box_nrs (source_level - 1))
              (trav.level_start_source_parent_box_nrs (source_level - 1 + 1))).foldl
              (fun mp ibox => ConstantOne.coarsenStep t mp ibox)
              mp)
          (ConstantOne.form_multipoles t trav.level_start_source_box_nrs
            trav.source_boxes w) := rfl
    rw [hml]
    by_cases hb2 : t.level_start_box_nrs 2 ≤ b
    · exact hinv.1 b hb2
    · rw [hinv.2 b (by omega)]
      have hnl : ¬ coarsenListed t trav b := by
        rintro ⟨ℓ, hℓ, h2, hup, hr, hmem⟩
        exact not_inLevelRange_of_lt t hT (u := 2) (by omega) h2 (by omega) hr
      rw [mpAgg_not_listed t trav w hnl]
  · have hempty : ConstantOne.coarsenSourceLevels t.nlevels = [] := by
      unfold ConstantOne.coarsenSourceLevels
      have : t.nlevels - 3 = 0 := by omega
      rw [this]
      rfl
    have hcm : ConstantOne.coarsen_multipoles t
        trav.level_start_source_parent_box_nrs trav.source_parent_boxes
        (ConstantOne.form_multipoles t trav.level_start_source_box_nrs
          trav.source_boxes w) b
        = ConstantOne.form_multipoles t trav.level_start_source_box_nrs
          trav.source_boxes w b := by
      unfold ConstantOne.coarsen_multipoles
      rw [hempty]
      rfl
    rw [hcm, hform b]
    have hnl : ¬ coarsenListed t trav b := by
      rintro ⟨ℓ, hℓ, h2, hup, hr, hmem⟩
      omega
    rw [mpAgg_not_listed t trav w hnl]

/-! ## Downward pass: `refine_locals` -/

theorem locAgg_not_listed (t : BTree) (trav : Traversal) (loc0 : ℕ → ℚ) {b : ℕ}
    (h : ¬ refListed t trav b) :
    ∀ fuel, locAgg t trav loc0 fuel b = loc0 b
  | 0 => rfl
  | fuel + 1 => by simp [locAgg, h]

theorem locCov_not_listed (t : BTree) (trav : Traversal) {b : ℕ}
    (h : ¬ refListed t trav b) :
    ∀ fuel sb, locCov t trav fuel b sb = loc0Cov t trav b sb
  | 0, sb => rfl
  | fuel + 1, sb => by simp [locCov, h]

/-- Fuel stability for refined locals: fuel at least the box's level is
enough. -/
theorem locAgg_stable (t : BTree) (trav : Traversal) (hT : ValidTree t)
    (hV : ValidTrav t trav) (loc0 : ℕ → ℚ) :
    ∀ ℓ fuel1 fuel2 b, inLevelRange t ℓ b → ℓ < t.nlevels →
      ℓ ≤ fuel1 → ℓ ≤ fuel2 →
      locAgg t trav loc0 fuel1 b = locAgg t trav loc0 fuel2 b := by
  intro ℓ
  induction ℓ using Nat.strong_induction_on with
  | _ ℓ ih =>
    intro fuel1 fuel2 b hr hℓ h1 h2
    by_cases hl : refListed t trav b
    · obtain ⟨ℓ2, hℓ2, h12, hr2, hmem⟩ := hl
      have hℓeq : ℓ2 = ℓ := inLevelRange_unique t hT hℓ2 hℓ hr2 hr
      subst hℓeq
      obtain ⟨g1, rfl⟩ : ∃ g, fuel1 = g + 1 := ⟨fuel1 - 1, by omega⟩
      obtain ⟨g2, rfl⟩ : ∃ g, fuel2 = g + 1 := ⟨fuel2 - 1, by omega⟩
      have hlb : refListed t trav b := ⟨ℓ2, hℓ2, h12, hr2, hmem⟩
      simp only [locAgg, if_pos hlb]
      congr 1
      have hbn : b < t.nboxes := (hV.refine_level ℓ2 hℓ2 h12 b hmem).1
      obtain ⟨hpn, hpr⟩ := hT.parent_valid b hbn ℓ2 hℓ2 h12 hr2
      exact ih (ℓ2 - 1) (by omega) g1 g2 (t.box_parent_ids b) hpr (by omega)
        (by omega) (by omega)
    · rw [locAgg_not_listed t trav loc0 hl, locAgg_not_listed t trav loc0 hl]

theorem locCov_stable (t : BTree) (trav : Traversal) (hT : ValidTree t)
    (hV : ValidTrav t trav) :
    ∀ ℓ fuel1 fuel2 b, inLevelRange t ℓ b → ℓ < t.nlevels →
      ℓ ≤ fuel1 → ℓ ≤ fuel2 →
      ∀ sb, locCov t trav fuel1 b sb = locCov t trav fuel2 b sb := by
  intro ℓ
  induction ℓ using Nat.strong_induction_on with
  | _ ℓ ih =>
    intro fuel1 fuel2 b hr hℓ h1 h2 sb
    by_cases hl : refListed t trav b
    · obtain ⟨ℓ2, hℓ2, h12, hr2, hmem⟩ := hl
      have hℓeq : ℓ2 = ℓ := inLevelRange_unique t hT hℓ2 hℓ hr2 hr
      subst hℓeq
      obtain ⟨g1, rfl⟩ : ∃ g, fuel1 = g + 1 := ⟨fuel1 - 1, by omega⟩
      obtain ⟨g2, rfl⟩ : ∃ g, fuel2 = g + 1 := ⟨fuel2 - 1, by omega⟩
      have hlb : refListed t trav b := ⟨ℓ2, hℓ2, h12, hr2, hmem⟩
      simp only [locCov, if_pos hlb]
      congr 1
      have hbn : b < t.nboxes := (hV.refine_level ℓ2 hℓ2 h12 b hmem).1
      obtain ⟨hpn, hpr⟩ := hT.parent_valid b hbn ℓ2 hℓ2 h12 hr2
      exact ih (ℓ2 - 1) (by omega) g1 g2 (t.box_parent_ids b) hpr (by omega)
        (by omega) (by omega) sb
    · rw [locCov_not_listed t trav hl, locCov_not_listed t trav hl]

theorem foldl_refine_not_mem (t : BTree) :
    ∀ (S : List ℕ) (le : ℕ → ℚ) {b : ℕ}, b ∉ S →
      (S.foldl (fun le ibox => addAt le ibox (le (t.box_parent_ids ibox))) le) b
        = le b
  | [], le, b, _ => rfl
  | a :: S, le, b, h => by
    rw [List.foldl_cons,
      foldl_refine_not_mem t S _ (fun hb => h (List.mem_cons_of_mem _ hb))]
    exact addAt_other _ _ _ (fun hba => h (hba ▸ List.mem_cons_self _ _))

theorem foldl_refine_mem (t : BTree) :
    ∀ (S : List ℕ) (le : ℕ → ℚ) {b : ℕ}, S.Nodup → b ∈ S →
      (∀ a ∈ S, t.box_parent_ids a ∉ S) →
      (S.foldl (fun le ibox => addAt le ibox (le (t.box_parent_ids ibox))) le) b
        = le b + le (t.box_parent_ids b)
  | [], le, b, _, hb, _ => absurd hb (List.not_mem_nil b)
  | a :: S, le, b, hnd, hb, hpar => by
    rcases List.mem_cons.mp hb with rfl | hbS
    · rw [List.foldl_cons,
        foldl_refine_not_mem t S _ (List.nodup_cons.mp hnd).1]
      exact addAt_self _ _ _
    · rw [List.foldl_cons,
        foldl_refine_mem t S _ (List.nodup_cons.mp hnd).2 hbS
          (fun x hx hpx =>
            hpar x (List.mem_cons_of_mem _ hx) (List.mem_cons_of_mem _ hpx))]
      have hba : b ≠ a := fun hba => (List.nodup_cons.mp hnd).1 (hba ▸ hbS)
      have hpb : t.box_parent_ids b ≠ a := fun hpa =>
        hpar b (List.mem_cons_of_mem _ hbS) (hpa ▸ List.mem_cons_self _ _)
      rw [addAt_other _ _ _ hba, addAt_other _ _ _ hpb]

/-- One target level of refinement preserves the refinement invariant,
moving the "fully refined" id threshold one level start up. -/
theorem refine_level_step (t : BTree) (trav : Traversal) (hT : ValidTree t)
    (hV : ValidTrav t trav) (loc0 : ℕ → ℚ) (ℓ : ℕ) (h1 : 1 ≤ ℓ)
    (hℓn : ℓ < t.nlevels) (le : ℕ → ℚ)
    (hlowdone : ∀ b, b < t.level_start_box_nrs ℓ →
      le b = locAgg t trav loc0 t.nlevels b)
    (hhi : ∀ b, t.level_start_box_nrs ℓ ≤ b → le b = loc0 b) :
    (∀ b, b < t.level_start_box_nrs (ℓ + 1) →
      ((refineSlice trav ℓ).foldl
          (fun le ibox => addAt le ibox (le (t.box_parent_ids ibox))) le) b
        = locAgg t trav loc0 t.nlevels b) ∧
    (∀ b, t.level_start_box_nrs (ℓ + 1) ≤ b →
      ((refineSlice trav ℓ).foldl
          (fun le ibox => addAt le ibox (le (t.box_parent_ids ibox))) le) b
        = loc0 b) := by
  have hpar : ∀ a ∈ refineSlice trav ℓ,
      t.box_parent_ids a ∉ refineSlice trav ℓ := by
    intro a haS hpS
    obtain ⟨han, har⟩ := hV.refine_level ℓ hℓn h1 a haS
    obtain ⟨hpn, hpr⟩ := hT.parent_valid a han ℓ hℓn h1 har
    obtain ⟨hpn2, hpr2⟩ := hV.refine_level ℓ hℓn h1 _ hpS
    have := inLevelRange_unique t hT (show ℓ - 1 < t.nlevels by omega) hℓn hpr hpr2
    omega
  constructor
  · intro b hblt
    by_cases hbS : b ∈ refineSlice trav ℓ
    · obtain ⟨hbn, hbr⟩ := hV.refine_level ℓ hℓn h1 b hbS
      rw [foldl_refine_mem t _ le (hV.refine_nodup ℓ hℓn h1) hbS hpar]
      obtain ⟨hpn, hpr⟩ := hT.parent_valid b hbn ℓ hℓn h1 hbr
      have hple : le (t.box_parent_ids b)
          = locAgg t trav loc0 t.nlevels (t.box_parent_ids b) := by
        apply hlowdone
        have := hpr.2
        have hmono : t.level_start_box_nrs (ℓ - 1 + 1) ≤ t.level_start_box_nrs ℓ := by
          have : ℓ - 1 + 1 = ℓ := by omega
          rw [this]
        omega
      rw [hhi b hbr.1, hple]
      have hlst : refListed t trav b := ⟨ℓ, hℓn, h1, hbr, hbS⟩
      obtain ⟨N, hN⟩ : ∃ N, t.nlevels = N + 1 := ⟨t.nlevels - 1, by omega⟩
      have hunfold : locAgg t trav loc0 t.nlevels b
          = loc0 b + locAgg t trav loc0 N (t.box_parent_ids b) := by
        rw [hN]
        simp [locAgg, if_pos hlst]
      rw [hunfold]
      congr 1
      exact locAgg_stable t trav hT hV loc0 (ℓ - 1) t.nlevels N _ hpr
        (by omega) (by omega) (by omega)
    · rw [foldl_refine_not_mem t _ le hbS]
      by_cases hlo : b < t.level_start_box_nrs ℓ
      · exact hlowdone b hlo
      · have hbr : inLevelRange t ℓ b := ⟨by omega, hblt⟩
        have hnl : ¬ refListed t trav b := by
          rintro ⟨ℓ2, hℓ2, h12, hr2, hmem2⟩
          have : ℓ2 = ℓ := inLevelRange_unique t hT hℓ2 hℓn hr2 hbr
          subst this
          exact hbS hmem2
        rw [hhi b (by omega), locAgg_not_listed t trav loc0 hnl]
  · intro b hbge
    have hbS : b ∉ refineSlice trav ℓ := fun hb => by
      have := (hV.refine_level ℓ hℓn h1 b hb).2.2
      omega
    have hmono : t.level_start_box_nrs ℓ ≤ t.level_start_box_nrs (ℓ + 1) :=
      hT.lsb_mono ℓ hℓn
    rw [foldl_refine_not_mem t _ le hbS]
    exact hhi b (by omega)

/-- The ascending level loop of `refine_locals` maintains the refinement
invariant. -/
theorem refine_levels_invariant (t : BTree) (trav : Traversal)
    (hT : ValidTree t) (hV : ValidTrav t trav) (loc0 : ℕ → ℚ) :
    ∀ k j, 1 ≤ j → j + k ≤ t.nlevels →
    ∀ le : ℕ → ℚ,
      (∀ b, b < t.level_start_box_nrs j →
        le b = locAgg t trav loc0 t.nlevels b) →
      (∀ b, t.level_start_box_nrs j ≤ b → le b = loc0 b) →
      (∀ b, b < t.level_start_box_nrs (j + k) →
        ((List.range' j k).foldl
          (fun le target_lev =>
            (pySlice trav.target_or_target_parent_boxes
              (trav.level_start_target_or_target_parent_box_nrs target_lev)
              (trav.level_start_target_or_target_parent_box_nrs (target_lev + 1))).foldl
              (fun le ibox => addAt le ibox (le (t.box_parent_ids ibox))) le) le) b
          = locAgg t trav loc0 t.nlevels b) ∧
      (∀ b, t.level_start_box_nrs (j + k) ≤ b →
        ((List.range' j k).foldl
          (fun le target_lev =>
            (pySlice trav.target_or_target_parent_boxes
              (trav.level_start_target_or_target_parent_box_nrs target_lev)
              (trav.level_start_target_or_target_parent_box_nrs (target_lev + 1))).foldl
              (fun le ibox => addAt le ibox (le (t.box_parent_ids ibox))) le) le) b
          = loc0 b) := by
  intro k
  induction k with
  | zero =>
    intro j hj hjk le hlow hhi
    simp only [List.range', List.foldl_nil]
    exact ⟨fun b hb => hlow b (by simpa using hb), fun b hb => hhi b (by simpa using hb)⟩
  | succ k ih =>
    intro j hj hjk le hlow hhi
    rw [List.range'_succ, List.foldl_cons]
    have hstep := refine_level_step t trav hT hV loc0 j hj (by omega) le hlow hhi
    have hrest := ih (j + 1) (by omega) (by omega) _ hstep.1 hstep.2
    have hidx : j + 1 + k = j + (k + 1) := by omega
    constructor
    · intro b hb
      exact hrest.1 b (by rw [hidx]; exact hb)
    · intro b hb
      exact hrest.2 b (by rw [hidx]; exact hb)

/-- `refine_locals` computes exactly the denotational refined locals. -/
theorem refine_eq_locAgg (t : BTree) (trav : Traversal) (hT : ValidTree t)
    (hV : ValidTrav t trav) (loc0 : ℕ → ℚ) (b : ℕ) :
    ConstantOne.refine_locals t
      trav.level_start_target_or_target_parent_box_nrs
      trav.target_or_target_parent_boxes loc0 b
      = locAgg t trav loc0 t.nlevels b := by
  have hinv := refine_levels_invariant t trav hT hV loc0 (t.nlevels - 1) 1
    (by omega) (by have := hT.nlevels_pos; omega) loc0
    (by
      intro b hb
      have hnl : ¬ refListed t trav b := by
        rintro ⟨ℓ, hℓ, h1, hr, hmem⟩
        exact not_inLevelRange_of_lt t hT (u := 1) (by omega) h1 hb hr
      rw [locAgg_not_listed t trav loc0 hnl])
    (fun b hb => rfl)
  have hml : ConstantOne.refine_locals t
      trav.level_start_target_or_target_parent_box_nrs
      trav.target_or_target_parent_boxes loc0
      = (List.range' 1 (t.nlevels - 1)).foldl
        (fun le target_lev =>
          (pySlice trav.target_or_target_parent_boxes
            (trav.level_start_target_or_target_parent_box_nrs target_lev)
            (trav.level_start_target_or_target_parent_box_nrs (target_lev + 1))).foldl
            (fun le ibox => addAt le ibox (le (t.box_parent_ids ibox))) le) loc0 := rfl
  rw [hml]
  have hnl1 : 1 + (t.nlevels - 1) = t.nlevels := by
    have := hT.nlevels_pos
    omega
  by_cases hb : b < t.level_start_box_nrs t.nlevels
  · exact hinv.1 b (by rw [hnl1]; exact hb)
  · rw [hinv.2 b (by rw [hnl1]; omega)]
    have hnl : ¬ refListed t trav b := by
      rintro ⟨ℓ, hℓ, h1, hr, hmem⟩
      exact not_inLevelRange_of_ge t hT (u := t.nlevels) (by omega) (by omega)
        (by omega) hr
    rw [locAgg_not_listed t trav loc0 hnl]

/-! ## Coverage bookkeeping -/

theorem finset_sum_list_sum_comm {α β : Type} (s : Finset β) (F : α → β → ℚ) :
    ∀ (l : List α),
      ∑ sb in s, (l.map (fun c => F c sb)).sum
        = (l.map (fun c => ∑ sb in s, F c sb)).sum
  | [] => by simp
  | c :: cs => by
    simp [List.map_cons, List.sum_cons, Finset.sum_add_distrib,
      finset_sum_list_sum_comm s F cs]

/-- Decomposition of a list sum whose entries are coverage-weighted sums. -/
theorem list_sum_entry_cov {α : Type} (l : List α) (n : ℕ) (val : α → ℚ)
    (cov : α → ℕ → ℚ) (f : ℕ → ℚ)
    (h : ∀ p ∈ l, val p = ∑ sb in Finset.range n, cov p sb * f sb) :
    (l.map val).sum
      = ∑ sb in Finset.range n, (l.map (fun p => cov p sb)).sum * f sb := by
  rw [List.map_congr_left h,
    ← finset_sum_list_sum_comm (Finset.range n) (fun p sb => cov p sb * f sb) l]
  apply Finset.sum_congr rfl
  intro sb _
  rw [← List.sum_map_mul_right]

theorem snd_mem_of_mem_enum {α : Type} {l : List α} {p : ℕ × α}
    (h : p ∈ l.enum) : p.2 ∈ l := by
  have := List.mem_map_of_mem Prod.snd h
  rwa [List.enum_map_snd] at this

theorem mem_of_mem_pySlice {l : List ℕ} {a start stop : ℕ}
    (h : a ∈ pySlice l start stop) : a ∈ l :=
  List.mem_of_mem_take (List.mem_of_mem_drop h)

/-- Base case: the formed multipole is the coverage-weighted sum. -/
theorem mp0w_eq_cov0 (t : BTree) (trav : Traversal) (w : ℕ → ℚ) {s : ℕ}
    (hs : s < t.nboxes) :
    mp0w t trav w s
      = ∑ sb in Finset.range t.nboxes,
          (if s = sb ∧ s ∈ trav.source_boxes then (1:ℚ) else 0)
            * ConstantOne.sourceSum t w sb := by
  by_cases hm : s ∈ trav.source_boxes
  · have hcongr : ∀ sb ∈ Finset.range t.nboxes,
        (if s = sb ∧ s ∈ trav.source_boxes then (1:ℚ) else 0)
          * ConstantOne.sourceSum t w sb
        = if sb = s then ConstantOne.sourceSum t w sb else 0 := by
      intro sb _
      by_cases hsb : sb = s
      · subst hsb; simp [hm]
      · have : ¬ (s = sb) := fun hc => hsb hc.symm
        simp [this, hsb]
    rw [Finset.sum_congr rfl hcongr,
      Finset.sum_ite_eq' (Finset.range t.nboxes) s _,
      if_pos (Finset.mem_range.mpr hs)]
    simp [mp0w, hm]
  · simp [mp0w, hm]

/-- The aggregated multipole of a box equals the coverage-weighted sum of all
boxes' own source-slice weights. -/
theorem mpAgg_eq_cov (t : BTree) (trav : Traversal) (hT : ValidTree t)
    (hV : ValidTrav t trav) (w : ℕ → ℚ) :
    ∀ fuel s, s < t.nboxes →
      mpAgg t trav w fuel s
        = ∑ sb in Finset.range t.nboxes,
            mpCov t trav fuel s sb * ConstantOne.sourceSum t w sb := by
  intro fuel
  induction fuel with
  | zero =>
    intro s hs
    exact mp0w_eq_cov0 t trav w hs
  | succ f ih =>
    intro s hs
    have hsplit : ∀ sb ∈ Finset.range t.nboxes,
        mpCov t trav (f + 1) s sb * ConstantOne.sourceSum t w sb
          = (if s = sb ∧ s ∈ trav.source_boxes then (1:ℚ) else 0)
              * ConstantOne.sourceSum t w sb
            + (if coarsenListed t trav s then
                (((t.box_child_ids s).filter (fun c => c ≠ 0)).map
                  (fun c => mpCov t trav f c sb)).sum
              else 0) * ConstantOne.sourceSum t w sb := by
      intro sb _
      rw [show mpCov t trav (f + 1) s sb
          = (if s = sb ∧ s ∈ trav.source_boxes then (1:ℚ) else 0)
            + (if coarsenListed t trav s then
                (((t.box_child_ids s).filter (fun c => c ≠ 0)).map
                  (fun c => mpCov t trav f c sb)).sum
              else 0) from rfl]
      ring
    rw [Finset.sum_congr rfl hsplit, Finset.sum_add_distrib]
    rw [show mpAgg t trav w (f + 1) s
        = mp0w t trav w s
          + (if coarsenListed t trav s then
              (((t.box_child_ids s).filter (fun c => c ≠ 0)).map
                (mpAgg t trav w f)).sum
            else 0) from rfl]
    rw [mp0w_eq_cov0 t trav w hs]
    congr 1
    by_cases hl : coarsenListed t trav s
    · rw [if_pos hl]
      obtain ⟨ℓ, hℓ, h2, hup, hr, hmem⟩ := id hl
      have hsn : s < t.nboxes := (hV.coarsen_level ℓ hℓ h2 hup s hmem).1
      have hchild : ∀ c ∈ (t.box_child_ids s).filter (fun c => c ≠ 0),
          mpAgg t trav w f c
            = ∑ sb in Finset.range t.nboxes,
                mpCov t trav f c sb * ConstantOne.sourceSum t w sb := by
        intro c hc
        have hc2 := List.mem_filter.mp hc
        have hc0 : c ≠ 0 := by simpa using hc2.2
        obtain ⟨hl1, hcn, hcr⟩ := hT.child_valid s hsn ℓ hℓ hr c hc2.1 hc0
        exact ih c hcn
      rw [list_sum_entry_cov _ t.nboxes _ (fun c sb => mpCov t trav f c sb)
        (ConstantOne.sourceSum t w) hchild]
      apply Finset.sum_congr rfl
      intro sb _
      rw [if_pos hl]
    · rw [if_neg hl]
      symm
      apply Finset.sum_eq_zero
      intro sb _
      rw [if_neg hl, zero_mul]

/-- Helper: distributing a condition over a coverage-weighted sum. -/
theorem ite_cov_sum (c : Prop) [Decidable c] (n : ℕ) (X : ℕ → ℚ) (f : ℕ → ℚ) :
    (if c then ∑ sb in Finset.range n, X sb * f sb else 0)
      = ∑ sb in Finset.range n, (if c then X sb else 0) * f sb := by
  by_cases hc : c
  · simp [hc]
  · simp [hc]

/-- The pre-refinement local value equals the coverage-weighted sum. -/
theorem loc0w_eq_cov (t : BTree) (trav : Traversal) (hT : ValidTree t)
    (hV : ValidTrav t trav) (w : ℕ → ℚ) (b : ℕ) :
    loc0w t trav w b
      = ∑ sb in Finset.range t.nboxes,
          loc0Cov t trav b sb * ConstantOne.sourceSum t w sb := by
  unfold loc0w loc0Cov
  apply list_sum_entry_cov
  intro p hp
  by_cases hpb : p.2 = b
  · rw [if_pos hpb]
    have hm2l : m2lContrib trav (mpAgg t trav w t.nlevels) p.1
        = ∑ sb in Finset.range t.nboxes,
            ((pySlice trav.from_sep_siblings_lists
                (trav.from_sep_siblings_starts p.1)
                (trav.from_sep_siblings_starts (p.1 + 1))).map
              (fun s => mpCov t trav t.nlevels s sb)).sum
              * ConstantOne.sourceSum t w sb := by
      unfold m2lContrib
      apply list_sum_entry_cov
      intro s hs
      have hsn : s < t.nboxes := hV.sep_siblings_range s (mem_of_mem_pySlice hs)
      exact mpAgg_eq_cov t trav hT hV w t.nlevels s hsn
    have hp2l : p2lContrib t trav w p.1
        = ∑ sb in Finset.range t.nboxes,
            ((pySlice trav.from_sep_bigger_lists
                (trav.from_sep_bigger_starts p.1)
                (trav.from_sep_bigger_starts (p.1 + 1))).map
              (fun s => if s = sb then (1:ℚ) else 0)).sum
              * ConstantOne.sourceSum t w sb := by
      unfold p2lContrib
      rw [sum_map_eq_indicator_sum (ConstantOne.sourceSum t w) t.nboxes _
        (fun x hx => hV.sep_bigger_range x (mem_of_mem_pySlice hx))]
    rw [hm2l, hp2l, ← Finset.sum_add_distrib]
    apply Finset.sum_congr rfl
    intro sb _
    rw [if_pos hpb]
    ring
  · rw [if_neg hpb]
    symm
    apply Finset.sum_eq_zero
    intro sb _
    rw [if_neg hpb, zero_mul]

/-- The refined local of a box equals the coverage-weighted sum. -/
theorem locAgg_eq_cov (t : BTree) (trav : Traversal) (hT : ValidTree t)
    (hV : ValidTrav t trav) (w : ℕ → ℚ) :
    ∀ fuel b, locAgg t trav (loc0w t trav w) fuel b
      = ∑ sb in Finset.range t.nboxes,
          locCov t trav fuel b sb * ConstantOne.sourceSum t w sb := by
  intro fuel
  induction fuel with
  | zero =>
    intro b
    exact loc0w_eq_cov t trav hT hV w b
  | succ f ih =>
    intro b
    have hsplit : ∀ sb ∈ Finset.range t.nboxes,
        locCov t trav (f + 1) b sb * ConstantOne.sourceSum t w sb
          = loc0Cov t trav b sb * ConstantOne.sourceSum t w sb
            + (if refListed t trav b then
                locCov t trav f (t.box_parent_ids b) sb
              else 0) * ConstantOne.sourceSum t w sb := by
      intro sb _
      rw [show locCov t trav (f + 1) b sb
          = loc0Cov t trav b sb
            + (if refListed t trav b then
                locCov t trav f (t.box_parent_ids b) sb
              else 0) from rfl]
      ring
    rw [Finset.sum_congr rfl hsplit, Finset.sum_add_distrib]
    rw [show locAgg t trav (loc0w t trav w) (f + 1) b
        = loc0w t trav w b
          + (if refListed t trav b then
              locAgg t trav (loc0w t trav w) f (t.box_parent_ids b)
            else 0) from rfl]
    rw [loc0w_eq_cov t trav hT hV w b]
    congr 1
    by_cases hl : refListed t trav b
    · rw [if_pos hl, ih (t.box_parent_ids b)]
      apply Finset.sum_congr rfl
      intro sb _
      rw [if_pos hl]
    · rw [if_neg hl]
      symm
      apply Finset.sum_eq_zero
      intro sb _
      rw [if_neg hl, zero_mul]

/-! ## Characterizations of the evaluation passes -/

theorem list_sum_map_add {α : Type} (f g : α → ℚ) :
    ∀ (l : List α), (l.map (fun x => f x + g x)).sum = (l.map f).sum + (l.map g).sum
  | [] => by simp
  | x :: xs => by
    simp [List.map_cons, List.sum_cons, list_sum_map_add f g xs]
    ring

theorem sum_indicator_le_one (P : ℕ → Prop) [DecidablePred P] :
    ∀ (l : List ℕ), l.Nodup → (∀ b ∈ l, ∀ b2 ∈ l, P b → P b2 → b = b2) →
      (l.map (fun b => if P b then (1:ℕ) else 0)).sum ≤ 1
  | [], _, _ => by simp
  | x :: xs, hnd, h => by
    rw [List.map_cons, List.sum_cons]
    by_cases hx : P x
    · have hrest : ∀ b ∈ xs, ¬ P b := by
        intro b hb hPb
        have : x = b := h x (List.mem_cons_self _ _) b (List.mem_cons_of_mem _ hb) hx hPb
        exact (List.nodup_cons.mp hnd).1 (this ▸ hb)
      have : (xs.map (fun b => if P b then (1:ℕ) else 0)).sum = 0 := by
        apply List.sum_eq_zero
        intro y hy
        obtain ⟨b, hb, rfl⟩ := List.mem_map.mp hy
        simp [hrest b hb]
      simp [hx, this]
    · simp only [hx, if_false, Nat.zero_add]
      exact sum_indicator_le_one P xs (List.nodup_cons.mp hnd).2
        (fun b hb b2 hb2 => h b (List.mem_cons_of_mem _ hb) b2 (List.mem_cons_of_mem _ hb2))

theorem multipole_to_local_apply (t : BTree) (lst : ℕ → ℕ) (tpb : List ℕ)
    (starts : ℕ → ℕ) (lists : List ℕ) (mp : ℕ → ℚ) (b : ℕ) :
    ConstantOne.multipole_to_local t lst tpb starts lists mp b
      = (tpb.enum.map (fun p => if p.2 = b then
          ((pySlice lists (starts p.1) (starts (p.1 + 1))).map mp).sum
        else 0)).sum := by
  have h := foldl_pointwise_add
    (fun (local_exps : ℕ → ℚ) (p : ℕ × ℕ) =>
      addAt local_exps p.2
        ((pySlice lists (starts p.1) (starts (p.1 + 1))).map mp).sum)
    (fun p => if p.2 = b then
      ((pySlice lists (starts p.1) (starts (p.1 + 1))).map mp).sum else 0) b
    (by
      intro pot p
      dsimp only
      by_cases hp : p.2 = b
      · rw [if_pos hp, ← hp]
        exact addAt_self pot p.2 _
      · rw [if_neg hp, addAt_other _ _ _ (fun hbp => hp hbp.symm), add_zero])
    tpb.enum (fun _ => 0)
  exact h.trans (by simp)

theorem form_locals_apply (t : BTree) (lst : ℕ → ℕ) (tpb : List ℕ)
    (starts : ℕ → ℕ) (lists : List ℕ) (w : ℕ → ℚ) (b : ℕ) :
    ConstantOne.form_locals t lst tpb starts lists w b
      = (tpb.enum.map (fun p => if p.2 = b then
          ((pySlice lists (starts p.1) (starts (p.1 + 1))).map
            (ConstantOne.sourceSum t w)).sum
        else 0)).sum := by
  have h := foldl_pointwise_add
    (fun (local_exps : ℕ → ℚ) (p : ℕ × ℕ) =>
      addAt local_exps p.2
        ((pySlice lists (starts p.1) (starts (p.1 + 1))).map
          (ConstantOne.sourceSum t w)).sum)
    (fun p => if p.2 = b then
      ((pySlice lists (starts p.1) (starts (p.1 + 1))).map
        (ConstantOne.sourceSum t w)).sum else 0) b
    (by
      intro pot p
      dsimp only
      by_cases hp : p.2 = b
      · rw [if_pos hp, ← hp]
        exact addAt_self pot p.2 _
      · rw [if_neg hp, addAt_other _ _ _ (fun hbp => hp hbp.symm), add_zero])
    tpb.enum (fun _ => 0)
  exact h.trans (by simp)

theorem eval_locals_apply (t : BTree) (lst : ℕ → ℕ) (target_boxes : List ℕ)
    (le : ℕ → ℚ) (i : ℕ) :
    ConstantOne.eval_locals t lst target_boxes le i
      = (target_boxes.map (fun ibox =>
          if inTargetSlice t ibox i then le ibox else 0)).sum := by
  have h := foldl_pointwise_add
    (fun (pot : ℕ → ℚ) (ibox : ℕ) =>
      addSlice pot (t.box_target_starts ibox)
        (t.box_target_counts_nonchild ibox) (le ibox))
    (fun ibox => if inTargetSlice t ibox i then le ibox else 0) i
    (by
      intro pot p
      dsimp only
      rw [addSlice_apply]
      rfl)
    target_boxes (fun _ => 0)
  exact h.trans (by simp)

theorem eval_multipoles_apply (t : BTree) (tbsl : ℕ → List ℕ)
    (ssns : List SSN) (mp : ℕ → ℚ) (i : ℕ) :
    ConstantOne.eval_multipoles t tbsl ssns mp i
      = (ssns.enum.map (fun lp =>
          ((tbsl lp.1).enum.map (fun p =>
            if inTargetSlice t p.2 i then
              ((pySlice lp.2.lists (lp.2.starts p.1)
                (lp.2.starts (p.1 + 1))).map mp).sum
            else 0)).sum)).sum := by
  have h := foldl_pointwise_add
    (fun (pot : ℕ → ℚ) (lp : ℕ × SSN) =>
      (tbsl lp.1).enum.foldl
        (fun pot p =>
          addSlice pot (t.box_target_starts p.2)
            (t.box_target_counts_nonchild p.2)
            ((pySlice lp.2.lists (lp.2.starts p.1)
              (lp.2.starts (p.1 + 1))).map mp).sum)
        pot)
    (fun lp =>
      ((tbsl lp.1).enum.map (fun p =>
        if inTargetSlice t p.2 i then
          ((pySlice lp.2.lists (lp.2.starts p.1)
            (lp.2.starts (p.1 + 1))).map mp).sum
        else 0)).sum) i
    (by
      intro pot lp
      exact foldl_pointwise_add _ _ i
        (by
          intro pot2 p
          rw [addSlice_apply]
          rfl)
        (tbsl lp.1).enum pot)
    ssns.enum (fun _ => 0)
  exact h.trans (by simp)

theorem eval_direct_apply (t : BTree) (target_boxes : List ℕ)
    (nstarts : ℕ → ℕ) (nlists : List ℕ) (w : ℕ → ℚ) (i : ℕ)
    (huniq : ((target_boxes.enum).map (fun p =>
        if inSlice (t.box_target_starts p.2)
          (t.box_target_counts_nonchild p.2) i then (1:ℕ) else 0)).sum ≤ 1) :
    ConstantOne.eval_direct t target_boxes nstarts nlists w i
      = (target_boxes.enum.map (fun p =>
          if inTargetSlice t p.2 i then
            ((pySlice nlists (nstarts p.1) (nstarts (p.1 + 1))).map
              (ConstantOne.sourceSum t w)).sum
          else 0)).sum := by
  exact foldl_setSlice_apply
    (fun p : ℕ × ℕ =>
      (t.box_target_starts p.2, t.box_target_counts_nonchild p.2))
    (fun p => ((pySlice nlists (nstarts p.1) (nstarts (p.1 + 1))).map
      (ConstantOne.sourceSum t w)).sum)
    i target_boxes.enum (fun _ => 0) huniq rfl

/-- At most one listed target box's slice contains any given index. -/
theorem target_indicator_le_one (t : BTree) (trav : Traversal)
    (hT : ValidTree t) (hV : ValidTrav t trav) (i : ℕ) :
    ((trav.target_boxes.enum).map (fun p =>
      if inSlice (t.box_target_starts p.2)
        (t.box_target_counts_nonchild p.2) i then (1:ℕ) else 0)).sum ≤ 1 := by
  have hmap : (trav.target_boxes.enum).map (fun p =>
        if inSlice (t.box_target_starts p.2)
          (t.box_target_counts_nonchild p.2) i then (1:ℕ) else 0)
      = trav.target_boxes.map (fun b =>
        if inSlice (t.box_target_starts b)
          (t.box_target_counts_nonchild b) i then (1:ℕ) else 0) := by
    rw [show (fun p : ℕ × ℕ =>
        if inSlice (t.box_target_starts p.2)
          (t.box_target_counts_nonchild p.2) i then (1:ℕ) else 0)
      = (fun b => if inSlice (t.box_target_starts b)
          (t.box_target_counts_nonchild b) i then (1:ℕ) else 0) ∘ Prod.snd from rfl]
    rw [← List.map_map, List.enum_map_snd]
  rw [hmap]
  apply sum_indicator_le_one _ _ hV.target_boxes_nodup
  intro b hb b2 hb2 hPb hPb2
  by_contra hne
  have h1 := hV.target_boxes_range b hb
  have h2 := hV.target_boxes_range b2 hb2
  rcases hT.target_disjoint b h1 b2 h2 hne with h | h | h | h
  all_goals (unfold inSlice at hPb hPb2; omega)

/-! ## Conservation: assembly -/

/-- The full pipeline value at index `i` is the coverage-weighted sum of the
source-slice weight totals of all boxes. -/
theorem drive_fmm_cov (t : BTree) (trav : Traversal) (hT : ValidTree t)
    (hV : ValidTrav t trav) (w : ℕ → ℚ) (i : ℕ) :
    ConstantOne.drive_fmm t trav w i
      = ∑ sb in Finset.range t.nboxes,
          covIdx t trav i sb * ConstantOne.sourceSum t w sb := by
  have hMP : ConstantOne.coarsen_multipoles t
      trav.level_start_source_parent_box_nrs trav.source_parent_boxes
      (ConstantOne.form_multipoles t trav.level_start_source_box_nrs
        trav.source_boxes w)
      = mpAgg t trav w t.nlevels :=
    funext (upward_eq_mpAgg t trav hT hV w)
  have hloc0 : (fun b => ConstantOne.multipole_to_local t
        trav.level_start_target_or_target_parent_box_nrs
        trav.target_or_target_parent_boxes
        trav.from_sep_siblings_starts trav.from_sep_siblings_lists
        (ConstantOne.coarsen_multipoles t
          trav.level_start_source_parent_box_nrs trav.source_parent_boxes
          (ConstantOne.form_multipoles t trav.level_start_source_box_nrs
            trav.source_boxes w)) b
      + ConstantOne.form_locals t
          trav.level_start_target_or_target_parent_box_nrs
          trav.target_or_target_parent_boxes
          trav.from_sep_bigger_starts trav.from_sep_bigger_lists w b)
      = loc0w t trav w := by
    funext b
    rw [multipole_to_local_apply, form_locals_apply, hMP, ← list_sum_map_add]
    unfold loc0w m2lContrib p2lContrib
    apply congrArg
    apply List.map_congr_left
    intro p hp
    by_cases hpb : p.2 = b
    · simp [hpb]
    · simp [hpb]
  have hEM : ConstantOne.eval_multipoles t trav.target_boxes_by_source_level
      trav.from_sep_smaller_by_level
      (ConstantOne.coarsen_multipoles t
        trav.level_start_source_parent_box_nrs trav.source_parent_boxes
        (ConstantOne.form_multipoles t trav.level_start_source_box_nrs
          trav.source_boxes w)) i
      = ∑ sb in Finset.range t.nboxes,
          covEvalMp t trav i sb * ConstantOne.sourceSum t w sb := by
    rw [eval_multipoles_apply, hMP]
    unfold covEvalMp
    apply list_sum_entry_cov
    intro lp hlp
    apply list_sum_entry_cov
    intro p hp
    by_cases htg : inTargetSlice t p.2 i
    · rw [if_pos htg]
      rw [list_sum_entry_cov _ t.nboxes (mpAgg t trav w t.nlevels)
        (fun s sb => mpCov t trav t.nlevels s sb) (ConstantOne.sourceSum t w)
        (by
          intro s hs
          have hsn : s < t.nboxes :=
            hV.sep_smaller_range lp.2 (snd_mem_of_mem_enum hlp) s
              (mem_of_mem_pySlice hs)
          exact mpAgg_eq_cov t trav hT hV w t.nlevels s hsn)]
      apply Finset.sum_congr rfl
      intro sb _
      rw [if_pos htg]
    · rw [if_neg htg]
      symm
      apply Finset.sum_eq_zero
      intro sb _
      rw [if_neg htg, zero_mul]
  have hEL : ConstantOne.eval_locals t trav.level_start_target_box_nrs
      trav.target_boxes
      (ConstantOne.refine_locals t
        trav.level_start_target_or_target_parent_box_nrs
        trav.target_or_target_parent_boxes
        (fun b => ConstantOne.multipole_to_local t
          trav.level_start_target_or_target_parent_box_nrs
          trav.target_or_target_parent_boxes
          trav.from_sep_siblings_starts trav.from_sep_siblings_lists
          (ConstantOne.coarsen_multipoles t
            trav.level_start_source_parent_box_nrs trav.source_parent_boxes
            (ConstantOne.form_multipoles t trav.level_start_source_box_nrs
              trav.source_boxes w)) b
        + ConstantOne.form_locals t
            trav.level_start_target_or_target_parent_box_nrs
            trav.target_or_target_parent_boxes
            trav.from_sep_bigger_starts trav.from_sep_bigger_lists w b)) i
      = ∑ sb in Finset.range t.nboxes,
          covEvalLoc t trav i sb * ConstantOne.sourceSum t w sb := by
    rw [eval_locals_apply]
    unfold covEvalLoc
    apply list_sum_entry_cov
    intro b hb
    by_cases htg : inTargetSlice t b i
    · rw [if_pos htg, hloc0, refine_eq_locAgg t trav hT hV _ b,
        locAgg_eq_cov t trav hT hV w t.nlevels b]
      apply Finset.sum_congr rfl
      intro sb _
      rw [if_pos htg]
    · rw [if_neg htg]
      symm
      apply Finset.sum_eq_zero
      intro sb _
      rw [if_neg htg, zero_mul]
  have hED : ConstantOne.eval_direct t trav.target_boxes
      trav.neighbor_source_boxes_starts trav.neighbor_source_boxes_lists w i
      = ∑ sb in Finset.range t.nboxes,
          covDirect t trav i sb * ConstantOne.sourceSum t w sb := by
    rw [eval_direct_apply t trav.target_boxes trav.neighbor_source_boxes_starts
      trav.neighbor_source_boxes_lists w i
      (target_indicator_le_one t trav hT hV i)]
    unfold covDirect
    apply list_sum_entry_cov
    intro p hp
    by_cases htg : inTargetSlice t p.2 i
    · rw [if_pos htg,
        sum_map_eq_indicator_sum (ConstantOne.sourceSum t w) t.nboxes _
          (fun x hx => hV.neighbor_range x (mem_of_mem_pySlice hx))]
      apply Finset.sum_congr rfl
      intro sb _
      rw [if_pos htg]
    · rw [if_neg htg]
      symm
      apply Finset.sum_eq_zero
      intro sb _
      rw [if_neg htg, zero_mul]
  show ConstantOne.eval_multipoles t trav.target_boxes_by_source_level
      trav.from_sep_smaller_by_level _ i
    + ConstantOne.eval_locals t trav.level_start_target_box_nrs
        trav.target_boxes _ i
    + ConstantOne.eval_direct t trav.target_boxes
        trav.neighbor_source_boxes_starts trav.neighbor_source_boxes_lists w i
    = _
  rw [hEM, hEL, hED, ← Finset.sum_add_distrib, ← Finset.sum_add_distrib]
  apply Finset.sum_congr rfl
  intro sb _
  unfold covIdx
  ring

/-- C1: For every valid tree and every complete traversal (interaction lists
that jointly cover each source box / target pair exactly once), running the
nine wrangler operations of the constant-kernel reference wrangler in the
fixed driver order (`form_multipoles`, `coarsen_multipoles`,
`multipole_to_local`, `form_locals`, `refine_locals`, `eval_multipoles`,
`eval_locals`, `eval_direct`, `finalize_potentials`) with all source weights
equal to 1 yields, at every target index, a potential exactly equal to the
total number of sources. -/
theorem C1_constant_kernel_conservation (t : BTree) (trav : Traversal)
    (hT : ValidTree t) (hV : ValidTrav t trav) (hC : CompleteTrav t trav) :
    ∀ i < t.ntargets,
      ConstantOne.drive_fmm t trav (fun _ => (1:ℚ)) i = (t.nsources : ℚ) := by
  intro i hi
  rw [drive_fmm_cov t trav hT hV _ i]
  have hcongr : ∀ sb ∈ Finset.range t.nboxes,
      covIdx t trav i sb * ConstantOne.sourceSum t (fun _ => (1:ℚ)) sb
        = (t.box_source_counts_nonchild sb : ℚ) := by
    intro sb hsb
    rw [hC i hi sb (Finset.mem_range.mp hsb), one_mul]
    unfold ConstantOne.sourceSum
    simp
  rw [Finset.sum_congr rfl hcongr, ← Nat.cast_sum, hT.source_total]

/-- Concrete single-box tree (one level, two sources that are also the two
targets) used to instantiate the conservation theorem. -/
def wTree : BTree where
  nlevels := 1
  nboxes := 1
  nsources := 2
  ntargets := 2
  level_start_box_nrs := fun ℓ => if ℓ = 0 then 0 else 1
  box_parent_ids := fun _ => 0
  box_child_ids := fun _ => []
  box_source_starts := fun _ => 0
  box_source_counts_nonchild := fun b => if b = 0 then 2 else 0
  box_target_starts := fun _ => 0
  box_target_counts_nonchild := fun b => if b = 0 then 2 else 0
  user_source_ids := fun i => i
  sorted_target_ids := fun i => i

/-- Concrete traversal for `wTree`: the root box interacts with itself only
through the near-neighbor (direct) list. -/
def wTrav : Traversal where
  level_start_source_box_nrs := fun ℓ => if ℓ = 0 then 0 else 1
  source_boxes := [0]
  level_start_source_parent_box_nrs := fun _ => 0
  source_parent_boxes := []
  target_boxes := [0]
  neighbor_source_boxes_starts := fun i => if i = 0 then 0 else 1
  neighbor_source_boxes_lists := [0]
  level_start_target_or_target_parent_box_nrs := fun _ => 0
  target_or_target_parent_boxes := []
  from_sep_siblings_starts := fun _ => 0
  from_sep_siblings_lists := []
  target_boxes_by_source_level := fun _ => []
  from_sep_smaller_by_level := []
  from_sep_bigger_starts := fun _ => 0
  from_sep_bigger_lists := []
  level_start_target_box_nrs := fun ℓ => if ℓ = 0 then 0 else 1

theorem C1_witness :
    ConstantOne.drive_fmm wTree wTrav (fun _ => (1:ℚ)) 0
      = (wTree.nsources : ℚ) :=
  C1_constant_kernel_conservation wTree wTrav
    (by
      have hnl : wTree.nlevels = 1 := rfl
      have hnb : wTree.nboxes = 1 := rfl
      refine ⟨by decide, by decide, by decide, by decide, ?_, ?_, by decide, ?_⟩
      · intro b hb ℓ hℓ hr c hc hc0
        exact absurd hc (List.not_mem_nil c)
      · intro b hb ℓ hℓ h1 hr
        exfalso
        omega
      · intro b hb b2 hb2 hne
        exfalso
        omega)
    (by
      have hnl : wTree.nlevels = 1 := rfl
      refine ⟨by decide, by decide, ?_, ?_, ?_, ?_, by decide, by decide,
        by decide, by decide, by decide, by decide⟩
      · intro ℓ hℓ h2 h22
        exfalso
        omega
      · intro ℓ hℓ h2 h22
        exfalso
        omega
      · intro ℓ hℓ h1
        exfalso
        omega
      · intro ℓ hℓ h1
        exfalso
        omega)
    (by
      intro i hi sb hsb
      have hi2 : i = 0 ∨ i = 1 := by
        have hnt : wTree.ntargets = 2 := rfl
        omega
      have hsb0 : sb = 0 := by
        have hnb : wTree.nboxes = 1 := rfl
        omega
      subst hsb0
      rcases hi2 with rfl | rfl <;>
        norm_num [covIdx, covDirect, covEvalMp, covEvalLoc, locCov, loc0Cov,
          wTree, wTrav, List.enum, List.enumFrom, pySlice, inTargetSlice,
          inSlice])
    0 (by decide)

/-! ## C3: refine_locals ancestor sums -/

/-- Iterated parent: `parentIter k b` is `b`'s `k`-th ancestor. -/
def parentIter (t : BTree) : ℕ → ℕ → ℕ
  | 0, b => b
  | k + 1, b => parentIter t k (t.box_parent_ids b)

/-- The whole ancestor chain of a level-`ℓ` box (itself included, down to
level 1) is listed in the per-level ranges of
`target_or_target_parent_boxes`. -/
def ancChainListed (t : BTree) (trav : Traversal) : ℕ → ℕ → Prop
  | 0, _ => True
  | ℓ + 1, b => b ∈ refineSlice trav (ℓ + 1)
      ∧ ancChainListed t trav ℓ (t.box_parent_ids b)

/-- The refined local of a box whose whole ancestor chain is listed is the
sum of the initial locals along the chain. -/
theorem locAgg_ancestor_sum (t : BTree) (trav : Traversal) (hT : ValidTree t)
    (hV : ValidTrav t trav) (loc0 : ℕ → ℚ) :
    ∀ ℓ b, ℓ < t.nlevels → inLevelRange t ℓ b → ancChainListed t trav ℓ b →
      ∀ fuel, ℓ ≤ fuel →
      locAgg t trav loc0 fuel b
        = ((List.range (ℓ + 1)).map (fun k => loc0 (parentIter t k b))).sum := by
  intro ℓ
  induction ℓ with
  | zero =>
    intro b hℓ hr hch fuel hf
    have hnl : ¬ refListed t trav b := by
      rintro ⟨ℓ2, hℓ2, h12, hr2, hmem⟩
      have := inLevelRange_unique t hT hℓ2 hℓ hr2 hr
      omega
    rw [locAgg_not_listed t trav loc0 hnl]
    rw [show List.range 1 = [0] from rfl]
    simp [parentIter]
  | succ ℓp ih =>
    intro b hℓ hr hch fuel hf
    obtain ⟨hmem, hchp⟩ := hch
    have hlst : refListed t trav b := ⟨ℓp + 1, hℓ, by omega, hr, hmem⟩
    obtain ⟨g, rfl⟩ : ∃ g, fuel = g + 1 := ⟨fuel - 1, by omega⟩
    show loc0 b + (if refListed t trav b then
      locAgg t trav loc0 g (t.box_parent_ids b) else 0) = _
    rw [if_pos hlst]
    have hbn : b < t.nboxes := (hV.refine_level (ℓp + 1) hℓ (by omega) b hmem).1
    obtain ⟨hpn, hpr⟩ := hT.parent_valid b hbn (ℓp + 1) hℓ (by omega) hr
    have hpr2 : inLevelRange t ℓp (t.box_parent_ids b) := by simpa using hpr
    rw [ih (t.box_parent_ids b) (by omega) hpr2 hchp g (by omega)]
    conv_rhs => rw [List.range_succ_eq_map, List.map_cons, List.sum_cons,
      List.map_map]
    rfl

/-- C3: `refine_locals` processes target levels in strictly increasing order
from 1 to the deepest level, each time adding the parent's already-refined
local expansion into the listed box's entry; consequently, for the
constant-kernel reference wrangler, when every listed box's ancestors (down
to level 1) are themselves listed in their level ranges, each box's final
local value equals the sum of the initial local values of itself and all of
its ancestors. -/
theorem C3_refine_locals_ancestor_sum (t : BTree) (trav : Traversal)
    (hT : ValidTree t) (hV : ValidTrav t trav) (loc0 : ℕ → ℚ) :
    (List.Pairwise (· < ·) (ConstantOne.refineTargetLevels t.nlevels)
      ∧ ∀ ℓ ∈ ConstantOne.refineTargetLevels t.nlevels, 1 ≤ ℓ ∧ ℓ < t.nlevels)
    ∧ (∀ ℓ b, ℓ < t.nlevels → inLevelRange t ℓ b →
        ancChainListed t trav ℓ b →
        ConstantOne.refine_locals t
          trav.level_start_target_or_target_parent_box_nrs
          trav.target_or_target_parent_boxes loc0 b
          = ((List.range (ℓ + 1)).map (fun k => loc0 (parentIter t k b))).sum) := by
  constructor
  · constructor
    · exact List.pairwise_lt_range' 1 (t.nlevels - 1)
    · intro ℓ hℓ
      unfold ConstantOne.refineTargetLevels at hℓ
      rw [List.mem_range'_1] at hℓ
      omega
  · intro ℓ b hℓ hr hch
    rw [refine_eq_locAgg t trav hT hV loc0 b]
    exact locAgg_ancestor_sum t trav hT hV loc0 ℓ b hℓ hr hch t.nlevels
      (by omega)

/-- Concrete two-level tree (root box 0 with one child box 1) for the
refinement witness. -/
def wTree2 : BTree where
  nlevels := 2
  nboxes := 2
  nsources := 1
  ntargets := 1
  level_start_box_nrs := fun ℓ => if ℓ = 0 then 0 else if ℓ = 1 then 1 else 2
  box_parent_ids := fun _ => 0
  box_child_ids := fun b => if b = 0 then [1] else []
  box_source_starts := fun _ => 0
  box_source_counts_nonchild := fun b => if b = 1 then 1 else 0
  box_target_starts := fun _ => 0
  box_target_counts_nonchild := fun b => if b = 1 then 1 else 0
  user_source_ids := fun i => i
  sorted_target_ids := fun i => i

/-- Concrete traversal for `wTree2` whose refinement slice at level 1 lists
box 1. -/
def wTrav2 : Traversal where
  level_start_source_box_nrs := fun _ => 0
  source_boxes := []
  level_start_source_parent_box_nrs := fun _ => 0
  source_parent_boxes := []
  target_boxes := []
  neighbor_source_boxes_starts := fun _ => 0
  neighbor_source_boxes_lists := []
  level_start_target_or_target_parent_box_nrs := fun ℓ =>
    if ℓ = 0 then 0 else if ℓ = 1 then 1 else 2
  target_or_target_parent_boxes := [0, 1]
  from_sep_siblings_starts := fun _ => 0
  from_sep_siblings_lists := []
  target_boxes_by_source_level := fun _ => []
  from_sep_smaller_by_level := []
  from_sep_bigger_starts := fun _ => 0
  from_sep_bigger_lists := []
  level_start_target_box_nrs := fun _ => 0

theorem wTree2_valid : ValidTree wTree2 := by
  have hnl : wTree2.nlevels = 2 := rfl
  have hnb : wTree2.nboxes = 2 := rfl
  refine ⟨by decide, by decide, by decide, by decide, ?_, ?_, by decide, ?_⟩
  · intro b hb ℓ hℓ hr c hc hc0
    by_cases hb0 : b = 0
    · subst hb0
      have hc2 : c ∈ ([1] : List ℕ) := hc
      have hc1 : c = 1 := by simpa using hc2
      subst hc1
      have hℓ2 : ℓ < 2 := hℓ
      interval_cases ℓ
      · exact ⟨by decide, by decide, by decide⟩
      · exact absurd hr (by decide)
    · have hb1 : b = 1 := by omega
      subst hb1
      have hcn : wTree2.box_child_ids 1 = [] := rfl
      rw [hcn] at hc
      exact absurd hc (List.not_mem_nil c)
  · intro b hb ℓ hℓ h1 hr
    have hℓ2 : ℓ < 2 := hℓ
    have hℓ1 : ℓ = 1 := by omega
    subst hℓ1
    by_cases hb0 : b = 0
    · subst hb0
      exact absurd hr (by decide)
    · have hb1 : b = 1 := by omega
      subst hb1
      exact ⟨by decide, by decide⟩
  · intro b hb b2 hb2 hne
    have hb' : b < 2 := hb
    have hb2' : b2 < 2 := hb2
    interval_cases b <;> interval_cases b2 <;> simp_all <;> decide

theorem wTrav2_valid : ValidTrav wTree2 wTrav2 := by
  have hnl : wTree2.nlevels = 2 := rfl
  refine ⟨by decide, by decide, ?_, ?_, ?_, ?_, by decide, by decide,
    by decide, by decide, by decide, by decide⟩
  · intro ℓ hℓ h2 h22
    exfalso
    omega
  · intro ℓ hℓ h2 h22
    exfalso
    omega
  · intro ℓ hℓ h1
    have hℓ2 : ℓ < 2 := hℓ
    have hℓ1 : ℓ = 1 := by omega
    subst hℓ1
    decide
  · intro ℓ hℓ h1 b hb
    have hℓ2 : ℓ < 2 := hℓ
    have hℓ1 : ℓ = 1 := by omega
    subst hℓ1
    have hb2 : b ∈ ([1] : List ℕ) := hb
    have hb1 : b = 1 := by simpa using hb2
    subst hb1
    exact ⟨by decide, by decide⟩

theorem C3_witness :
    ConstantOne.refine_locals wTree2
      wTrav2.level_start_target_or_target_parent_box_nrs
      wTrav2.target_or_target_parent_boxes
      (fun b => if b = 0 then (3:ℚ) else 5) 1
      = ((List.range 2).map (fun k =>
          (fun b => if b = 0 then (3:ℚ) else 5) (parentIter wTree2 k 1))).sum :=
  (C3_refine_locals_ancestor_sum wTree2 wTrav2 wTree2_valid wTrav2_valid
    (fun b => if b = 0 then (3:ℚ) else 5)).2 1 1 (by decide) (by decide)
    ⟨by decide, trivial⟩

/-! ## C5: reorder round trip -/

/-- C5: composing the wrangler's reorder-to-tree-order function
(`reorder_sources`, indexing by `user_source_ids`) with its
reorder-to-user-order function (`reorder_potentials`, indexing by
`sorted_target_ids`) is the identity on every particle index, given the tree
invariant that the two index arrays are mutually inverse (which holds when
the targets coincide with the sources, the setting in which the test asserts
this property). -/
theorem C5_reorder_round_trip (t : BTree)
    (hinv : ∀ i < t.ntargets, t.user_source_ids (t.sorted_target_ids i) = i) :
    ∀ (x : ℕ → ℚ), ∀ i < t.ntargets,
      ConstantOne.reorder_potentials t (ConstantOne.reorder_sources t x) i
        = x i := by
  intro x i hi
  unfold ConstantOne.reorder_potentials ConstantOne.reorder_sources
  rw [hinv i hi]

theorem C5_witness :
    ConstantOne.reorder_potentials wTree
      (ConstantOne.reorder_sources wTree (fun n => (n : ℚ) + 7)) 0
      = (fun n => (n : ℚ) + 7) 0 :=
  C5_reorder_round_trip wTree (by decide) (fun n => (n : ℚ) + 7) 0 (by decide)

/-! ## The pyfmmlib wrangler (`FMMLibExpansionWrangler`)

Shallow embedding of `boxtree/pyfmmlib_integration.py`.  Scalars are `ℚ`;
complex values are real/imaginary pairs `ℚ × ℚ`; `np.pi` is modelled by a
parameter `piV`; a Python `raise` is `Except.error`. -/

namespace FMMLib

/-- The `eqn_letter` selected from `helmholtz_k` ("l" = Laplace,
"h" = Helmholtz). -/
inductive EqnLetter where
  | l
  | h
deriving DecidableEq

/-- Numpy dtypes that appear in the wrangler. -/
inductive DType where
  | complex128
  | float64
deriving DecidableEq

/-- The constructed wrangler state (the attributes `__init__` assigns that
the modelled methods read).  `dp_suffix` records whether the dipole variants
of the kernel routines are selected. -/
structure WranglerConfig where
  eqn_letter : EqnLetter
  helmholtz_k : ℚ
  level_nterms : List ℕ
  dtype : DType
  ifgrad : Bool
  dim : ℕ
  dp_suffix : String

/-- `FMMLibExpansionWrangler.__init__`.  `raise TypeError` (and the
`TypeError` Python itself raises when `fmm_level_to_nterms` is left `None`
and then called) are modelled as `Except.error`; the deprecation warning on
the legacy `nterms` path does not affect the result.  The dipole-vector
shape `assert` is a property of the array type and is not modelled; a
supplied dipole vector selects the `_dp` routine suffix. -/
def wranglerInit (dimensions nlevels : ℕ) (helmholtz_k : ℚ)
    (fmm_level_to_nterms : Option (ℕ → ℕ)) (ifgrad : Bool)
    (dipole_vec : Option (ℕ → ℕ → ℚ)) (nterms : Option ℕ) :
    Except String WranglerConfig :=
  match nterms, fmm_level_to_nterms with
  | some _, some _ =>
    Except.error "may specify either fmm_level_to_nterms or nterms, but not both"
  | none, none =>
    Except.error "TypeError: NoneType object is not callable"
  | some n, none =>
    Except.ok
      { eqn_letter := if helmholtz_k = 0 then EqnLetter.l else EqnLetter.h
        helmholtz_k := helmholtz_k
        level_nterms := (List.range nlevels).map (fun _ => n)
        dtype := DType.complex128
        ifgrad := ifgrad
        dim := dimensions
        dp_suffix := if dipole_vec.isSome then "_dp" else "" }
  | none, some f =>
    Except.ok
      { eqn_letter := if helmholtz_k = 0 then EqnLetter.l else EqnLetter.h
        helmholtz_k := helmholtz_k
        level_nterms := (List.range nlevels).map (fun lev => f lev)
        dtype := DType.complex128
        ifgrad := ifgrad
        dim := dimensions
        dp_suffix := if dipole_vec.isSome then "_dp" else "" }

/-- `expansion_shape`. -/
def expansion_shape (cfg : WranglerConfig) (nterms : ℕ) :
    Except String (List ℕ) :=
  if cfg.dim = 2 ∧ cfg.eqn_letter = EqnLetter.l then
    Except.ok [nterms + 1]
  else if cfg.dim = 2 ∧ cfg.eqn_letter = EqnLetter.h then
    Except.ok [2 * nterms + 1]
  else if cfg.dim = 3 then
    Except.ok [2 * nterms + 1, nterms + 1]
  else
    Except.error "unsupported dimensionality"

/-- `_expansions_level_starts(order_to_size)`: starts from `[0]` and, for
every level, appends the running total plus
`order_to_size(level_nterms[lev]) * (level_start_box_nrs[lev+1] -
level_start_box_nrs[lev])`. -/
def expansions_level_starts (nlevels : ℕ) (level_start_box_nrs : ℕ → ℕ)
    (order_to_size : ℕ → ℕ) (level_nterms : ℕ → ℕ) : List ℕ :=
  (List.range nlevels).foldl
    (fun result lev =>
      result ++ [result.getLastD 0
        + order_to_size (level_nterms lev)
          * (level_start_box_nrs (lev + 1) - level_start_box_nrs lev)])
    [0]

/-- Closed form of the cumulative per-level offsets. -/
def levelStartFun (level_start_box_nrs : ℕ → ℕ) (order_to_size : ℕ → ℕ)
    (level_nterms : ℕ → ℕ) : ℕ → ℕ
  | 0 => 0
  | ℓ + 1 =>
    levelStartFun level_start_box_nrs order_to_size level_nterms ℓ
      + order_to_size (level_nterms ℓ)
        * (level_start_box_nrs (ℓ + 1) - level_start_box_nrs ℓ)

/-- The per-coefficient size of one box's expansion: the product of
`expansion_shape` (Python computes it as `product(self.expansion_shape(
nterms))`; for an unsupported dimensionality the Python raises there — the
model returns 0 and the theorems about sized buffers restrict to
dimensionality 2 or 3). -/
def expansion_size (cfg : WranglerConfig) (nterms : ℕ) : ℕ :=
  match expansion_shape cfg nterms with
  | Except.ok shape => shape.prod
  | Except.error _ => 0

/-- `multipole_expansions_level_starts`. -/
def multipole_expansions_level_starts (cfg : WranglerConfig) (nlevels : ℕ)
    (level_start_box_nrs : ℕ → ℕ) : List ℕ :=
  expansions_level_starts nlevels level_start_box_nrs
    (fun nterms => expansion_size cfg nterms)
    (fun lev => cfg.level_nterms.getD lev 0)

/-- `local_expansions_level_starts` (identical computation in the source). -/
def local_expansions_level_starts (cfg : WranglerConfig) (nlevels : ℕ)
    (level_start_box_nrs : ℕ → ℕ) : List ℕ :=
  expansions_level_starts nlevels level_start_box_nrs
    (fun nterms => expansion_size cfg nterms)
    (fun lev => cfg.level_nterms.getD lev 0)

/-- The flat-buffer bounds `(expn_start, expn_stop)` sliced out by
`multipole_expansions_view` at a level. -/
def multipole_expansions_view_bounds (cfg : WranglerConfig) (nlevels : ℕ)
    (level_start_box_nrs : ℕ → ℕ) (level : ℕ) : ℕ × ℕ :=
  ((multipole_expansions_level_starts cfg nlevels level_start_box_nrs).getD
      level 0,
   (multipole_expansions_level_starts cfg nlevels level_start_box_nrs).getD
      (level + 1) 0)

/-- The flat-buffer bounds `(expn_start, expn_stop)` sliced out by
`local_expansions_view` at a level. -/
def local_expansions_view_bounds (cfg : WranglerConfig) (nlevels : ℕ)
    (level_start_box_nrs : ℕ → ℕ) (level : ℕ) : ℕ × ℕ :=
  ((local_expansions_level_starts cfg nlevels level_start_box_nrs).getD
      level 0,
   (local_expansions_level_starts cfg nlevels level_start_box_nrs).getD
      (level + 1) 0)

/-- A flat numpy buffer with its dtype. -/
structure ExpnBuffer where
  size : ℕ
  dtype : DType
  data : ℕ → ℚ × ℚ

/-- `multipole_expansion_zeros`:
`np.zeros(self.multipole_expansions_level_starts()[-1], dtype=self.dtype)`. -/
def multipole_expansion_zeros (cfg : WranglerConfig) (nlevels : ℕ)
    (level_start_box_nrs : ℕ → ℕ) : ExpnBuffer :=
  { size := (multipole_expansions_level_starts cfg nlevels
      level_start_box_nrs).getLastD 0
    dtype := cfg.dtype
    data := fun _ => (0, 0) }

/-- `local_expansion_zeros`. -/
def local_expansion_zeros (cfg : WranglerConfig) (nlevels : ℕ)
    (level_start_box_nrs : ℕ → ℕ) : ExpnBuffer :=
  { size := (local_expansions_level_starts cfg nlevels
      level_start_box_nrs).getLastD 0
    dtype := cfg.dtype
    data := fun _ => (0, 0) }

end FMMLib

/-- The loop of `_expansions_level_starts` computes the closed-form running
sums. -/
theorem expansions_level_starts_eq_map (level_start_box_nrs : ℕ → ℕ)
    (order_to_size : ℕ → ℕ) (level_nterms : ℕ → ℕ) :
    ∀ nlevels,
      FMMLib.expansions_level_starts nlevels level_start_box_nrs order_to_size
        level_nterms
      = (List.range (nlevels + 1)).map
          (FMMLib.levelStartFun level_start_box_nrs order_to_size level_nterms)
  | 0 => rfl
  | n + 1 => by
    have hin := expansions_level_starts_eq_map level_start_box_nrs
      order_to_size level_nterms n
    have hstep : FMMLib.expansions_level_starts (n + 1) level_start_box_nrs
        order_to_size level_nterms
        = FMMLib.expansions_level_starts n level_start_box_nrs order_to_size
            level_nterms
          ++ [(FMMLib.expansions_level_starts n level_start_box_nrs
                order_to_size level_nterms).getLastD 0
              + order_to_size (level_nterms n)
                * (level_start_box_nrs (n + 1) - level_start_box_nrs n)] := by
      unfold FMMLib.expansions_level_starts
      rw [List.range_succ, List.foldl_append, List.foldl_cons, List.foldl_nil]
    rw [hstep, hin]
    have hlast : ((List.range (n + 1)).map
        (FMMLib.levelStartFun level_start_box_nrs order_to_size
          level_nterms)).getLastD 0
        = FMMLib.levelStartFun level_start_box_nrs order_to_size level_nterms
            n := by
      rw [List.range_succ]
      simp
    rw [hlast]
    conv_rhs => rw [List.range_succ]
    rw [List.map_append]
    rfl

theorem levelStartFun_mono (level_start_box_nrs : ℕ → ℕ)
    (order_to_size : ℕ → ℕ) (level_nterms : ℕ → ℕ) {i j : ℕ} (hij : i ≤ j) :
    FMMLib.levelStartFun level_start_box_nrs order_to_size level_nterms i
      ≤ FMMLib.levelStartFun level_start_box_nrs order_to_size level_nterms j := by
  induction j with
  | zero =>
    have : i = 0 := by omega
    rw [this]
  | succ n ih =>
    rcases Nat.eq_or_lt_of_le hij with h | h
    · rw [h]
    · exact le_trans (ih (by omega)) (Nat.le_add_right _ _)

theorem levelStartFun_eq_sum (level_start_box_nrs : ℕ → ℕ)
    (order_to_size : ℕ → ℕ) (level_nterms : ℕ → ℕ) :
    ∀ k, FMMLib.levelStartFun level_start_box_nrs order_to_size level_nterms k
      = ∑ ℓ in Finset.range k,
          order_to_size (level_nterms ℓ)
            * (level_start_box_nrs (ℓ + 1) - level_start_box_nrs ℓ)
  | 0 => by simp [FMMLib.levelStartFun]
  | k + 1 => by
    rw [Finset.sum_range_succ,
      ← levelStartFun_eq_sum level_start_box_nrs order_to_size level_nterms k]
    rfl

theorem expansions_level_starts_getD (level_start_box_nrs : ℕ → ℕ)
    (order_to_size : ℕ → ℕ) (level_nterms : ℕ → ℕ) (nlevels ℓ : ℕ)
    (hℓ : ℓ ≤ nlevels) :
    (FMMLib.expansions_level_starts nlevels level_start_box_nrs order_to_size
      level_nterms).getD ℓ 0
    = FMMLib.levelStartFun level_start_box_nrs order_to_size level_nterms ℓ := by
  rw [expansions_level_starts_eq_map]
  rw [List.getD_eq_getElem?_getD, List.getElem?_map,
    List.getElem?_range (by omega : ℓ < nlevels + 1)]
  rfl

/-- C2: for every (valid, monotone) tree and every per-level order table,
the cumulative per-level offsets returned by `_expansions_level_starts`
start at 0, are non-decreasing, each successive difference equals
(coefficient count at that level's order) × (number of boxes at that level),
the final entry equals the sum of all per-level region sizes, and the
per-level regions `[starts[ℓ], starts[ℓ+1])` used by
`multipole_expansions_view` and `local_expansions_view` partition the flat
buffer exactly: distinct levels' regions never overlap and every flat index
below the final entry lies in exactly one level's region. -/
theorem C2_level_starts_partition (nlevels : ℕ) (level_start_box_nrs : ℕ → ℕ)
    (order_to_size : ℕ → ℕ) (level_nterms : ℕ → ℕ)
    (hmono : ∀ ℓ < nlevels,
      level_start_box_nrs ℓ ≤ level_start_box_nrs (ℓ + 1)) :
    (FMMLib.expansions_level_starts nlevels level_start_box_nrs order_to_size
        level_nterms).length = nlevels + 1
    ∧ (FMMLib.expansions_level_starts nlevels level_start_box_nrs order_to_size
        level_nterms).getD 0 0 = 0
    ∧ (∀ ℓ < nlevels,
        (FMMLib.expansions_level_starts nlevels level_start_box_nrs
          order_to_size level_nterms).getD (ℓ + 1) 0
        = (FMMLib.expansions_level_starts nlevels level_start_box_nrs
            order_to_size level_nterms).getD ℓ 0
          + order_to_size (level_nterms ℓ)
            * (level_start_box_nrs (ℓ + 1) - level_start_box_nrs ℓ))
    ∧ (∀ ℓ < nlevels,
        (FMMLib.expansions_level_starts nlevels level_start_box_nrs
          order_to_size level_nterms).getD ℓ 0
        ≤ (FMMLib.expansions_level_starts nlevels level_start_box_nrs
            order_to_size level_nterms).getD (ℓ + 1) 0)
    ∧ (FMMLib.expansions_level_starts nlevels level_start_box_nrs
        order_to_size level_nterms).getD nlevels 0
      = ∑ ℓ in Finset.range nlevels,
          order_to_size (level_nterms ℓ)
            * (level_start_box_nrs (ℓ + 1) - level_start_box_nrs ℓ)
    ∧ (∀ ℓ1 ℓ2, ℓ1 < ℓ2 → ℓ2 < nlevels → ∀ k,
        ¬ ((FMMLib.expansions_level_starts nlevels level_start_box_nrs
              order_to_size level_nterms).getD ℓ1 0 ≤ k
          ∧ k < (FMMLib.expansions_level_starts nlevels level_start_box_nrs
              order_to_size level_nterms).getD (ℓ1 + 1) 0
          ∧ (FMMLib.expansions_level_starts nlevels level_start_box_nrs
              order_to_size level_nterms).getD ℓ2 0 ≤ k
          ∧ k < (FMMLib.expansions_level_starts nlevels level_start_box_nrs
              order_to_size level_nterms).getD (ℓ2 + 1) 0))
    ∧ (∀ k < (FMMLib.expansions_level_starts nlevels level_start_box_nrs
          order_to_size level_nterms).getD nlevels 0,
        ∃ ℓ, ℓ < nlevels
          ∧ (FMMLib.expansions_level_starts nlevels level_start_box_nrs
              order_to_size level_nterms).getD ℓ 0 ≤ k
          ∧ k < (FMMLib.expansions_level_starts nlevels level_start_box_nrs
              order_to_size level_nterms).getD (ℓ + 1) 0)
    ∧ (∀ (cfg : FMMLib.WranglerConfig) (level : ℕ),
        FMMLib.multipole_expansions_view_bounds cfg nlevels level_start_box_nrs
            level
          = ((FMMLib.multipole_expansions_level_starts cfg nlevels
              level_start_box_nrs).getD level 0,
            (FMMLib.multipole_expansions_level_starts cfg nlevels
              level_start_box_nrs).getD (level + 1) 0)
        ∧ FMMLib.local_expansions_view_bounds cfg nlevels level_start_box_nrs
            level
          = FMMLib.multipole_expansions_view_bounds cfg nlevels
              level_start_box_nrs level) := by
  have hgetD := expansions_level_starts_getD level_start_box_nrs order_to_size
    level_nterms nlevels
  refine ⟨?_, ?_, ?_, ?_, ?_, ?_, ?_, ?_⟩
  · rw [expansions_level_starts_eq_map]
    simp
  · rw [hgetD 0 (by omega)]
    rfl
  · intro ℓ hℓ
    rw [hgetD (ℓ + 1) (by omega), hgetD ℓ (by omega)]
    rfl
  · intro ℓ hℓ
    rw [hgetD (ℓ + 1) (by omega), hgetD ℓ (by omega)]
    exact levelStartFun_mono _ _ _ (by omega)
  · rw [hgetD nlevels (by omega)]
    exact levelStartFun_eq_sum _ _ _ nlevels
  · intro ℓ1 ℓ2 h12 h2 k
    rintro ⟨ha, hb, hc, hd⟩
    rw [hgetD ℓ1 (by omega)] at ha
    rw [hgetD (ℓ1 + 1) (by omega)] at hb
    rw [hgetD ℓ2 (by omega)] at hc
    rw [hgetD (ℓ2 + 1) (by omega)] at hd
    have : FMMLib.levelStartFun level_start_box_nrs order_to_size level_nterms
        (ℓ1 + 1)
        ≤ FMMLib.levelStartFun level_start_box_nrs order_to_size level_nterms
          ℓ2 :=
      levelStartFun_mono _ _ _ (by omega)
    omega
  · intro k hk
    rw [hgetD nlevels (by omega)] at hk
    clear hgetD
    induction nlevels with
    | zero =>
      exact absurd hk (by simp [FMMLib.levelStartFun])
    | succ n ih =>
      by_cases hkn : k < FMMLib.levelStartFun level_start_box_nrs
          order_to_size level_nterms n
      · obtain ⟨ℓ, hℓ, hlo, hhi⟩ := ih (fun ℓ hℓ => hmono ℓ (by omega)) hkn
        exact ⟨ℓ, by omega,
          by rw [expansions_level_starts_getD _ _ _ _ _ (by omega)]
             rw [expansions_level_starts_getD _ _ _ _ _ (by omega)] at hlo
             exact hlo,
          by rw [expansions_level_starts_getD _ _ _ _ _ (by omega)]
             rw [expansions_level_starts_getD _ _ _ _ _ (by omega)] at hhi
             exact hhi⟩
      · refine ⟨n, by omega, ?_, ?_⟩
        · rw [expansions_level_starts_getD _ _ _ _ _ (by omega)]
          omega
        · rw [expansions_level_starts_getD _ _ _ _ _ (by omega)]
          exact hk
  · intro cfg level
    exact ⟨rfl, rfl⟩

theorem C2_witness :
    ((∀ ℓ < 2, (fun ℓ => ℓ * 3) ℓ ≤ (fun ℓ => ℓ * 3) (ℓ + 1))
      ∧ (FMMLib.expansions_level_starts 2 (fun ℓ => ℓ * 3)
          (fun nt => nt + 1) (fun ℓ => ℓ + 4)).getD 2 0
        = ∑ ℓ in Finset.range 2,
            ((fun nt => nt + 1) ((fun ℓ => ℓ + 4) ℓ))
              * ((fun ℓ => ℓ * 3) (ℓ + 1) - (fun ℓ => ℓ * 3) ℓ)) :=
  ⟨by decide,
    (C2_level_starts_partition 2 (fun ℓ => ℓ * 3) (fun nt => nt + 1)
      (fun ℓ => ℓ + 4) (by decide)).2.2.2.2.1⟩

/-- C9 counterexample: constructing a wrangler over a 5-dimensional tree
(with an otherwise valid parameter combination) does *not* raise: `__init__`
performs no dimensionality check, so construction succeeds, contradicting
the claim that an unsupported dimensionality causes construction itself to
raise an error. -/
theorem C9_counterexample :
    (FMMLib.wranglerInit 5 1 0 (some (fun _ => 3)) false none none).isOk
      = true := rfl

/-- C9 (amended): specifying both `nterms` and `fmm_level_to_nterms` raises
at construction, before any pass runs; a dimensionality other than 2 or 3 is
*not* rejected at construction — construction succeeds and the
"unsupported dimensionality" error is raised only later, when
`expansion_shape` (or a routine getter) is invoked. -/
theorem C9_construction_errors :
    (∀ (dims nlevels : ℕ) (k : ℚ) (f : ℕ → ℕ) (ifg : Bool)
        (dv : Option (ℕ → ℕ → ℚ)) (n : ℕ),
      FMMLib.wranglerInit dims nlevels k (some f) ifg dv (some n)
        = Except.error
            "may specify either fmm_level_to_nterms or nterms, but not both")
    ∧ (∀ (dims nlevels : ℕ) (k : ℚ) (f : ℕ → ℕ) (ifg : Bool)
        (dv : Option (ℕ → ℕ → ℚ)),
      dims ≠ 2 → dims ≠ 3 →
      (FMMLib.wranglerInit dims nlevels k (some f) ifg dv none).isOk = true)
    ∧ (∀ (cfg : FMMLib.WranglerConfig) (nterms : ℕ),
      cfg.dim ≠ 2 → cfg.dim ≠ 3 →
      FMMLib.expansion_shape cfg nterms
        = Except.error "unsupported dimensionality") := by
  refine ⟨fun _ _ _ _ _ _ _ => rfl, fun _ _ _ _ _ _ _ _ => rfl, ?_⟩
  intro cfg nterms h2 h3
  unfold FMMLib.expansion_shape
  rw [if_neg (fun hc => h2 hc.1), if_neg (fun hc => h2 hc.1), if_neg h3]

theorem C9_witness :
    ((5:ℕ) ≠ 2)
    ∧ ((5:ℕ) ≠ 3)
    ∧ (FMMLib.wranglerInit 5 1 0 (some (fun _ => 3)) false none none).isOk
        = true :=
  ⟨by decide, by decide,
    C9_construction_errors.2.1 5 1 0 (fun _ => 3) false none
      (by decide) (by decide)⟩

/-- The last entry of the cumulative offsets (`result[-1]`). -/
theorem expansions_level_starts_getLastD (level_start_box_nrs : ℕ → ℕ)
    (order_to_size : ℕ → ℕ) (level_nterms : ℕ → ℕ) (nlevels : ℕ) :
    (FMMLib.expansions_level_starts nlevels level_start_box_nrs order_to_size
      level_nterms).getLastD 0
    = FMMLib.levelStartFun level_start_box_nrs order_to_size level_nterms
        nlevels := by
  rw [expansions_level_starts_eq_map, List.range_succ]
  simp

/-- C8 counterexample: a wrangler constructed for the 2-D Laplace
(non-oscillatory) kernel family (`helmholtz_k = 0`) allocates its expansion
buffers with dtype `complex128`, not a real-valued dtype — `__init__` sets
`self.dtype = np.complex128` unconditionally — contradicting the claim that
the dtype is real-valued for the non-oscillatory family. -/
theorem C8_counterexample :
    (FMMLib.wranglerInit 2 1 0 (some (fun _ => 5)) false none none).map
        (fun cfg => (FMMLib.multipole_expansion_zeros cfg 1
          (fun ℓ => if ℓ = 0 then 0 else 4)).dtype)
      = Except.ok FMMLib.DType.complex128
    ∧ FMMLib.DType.complex128 ≠ FMMLib.DType.float64 :=
  ⟨rfl, by decide⟩

/-- C8 (amended): the expansion-buffer allocators
(`multipole_expansion_zeros`, `local_expansion_zeros`) return a zero-filled
buffer whose length is the last cumulative level offset, with the wrangler's
coefficient dtype — which `__init__` sets to `complex128` for both the
oscillatory (Helmholtz) and the non-oscillatory (Laplace) kernel family
alike. -/
theorem C8_expansion_zeros (dims nlevels : ℕ) (k : ℚ) (f : ℕ → ℕ)
    (ifg : Bool) (dv : Option (ℕ → ℕ → ℚ)) (cfg : FMMLib.WranglerConfig)
    (hcfg : FMMLib.wranglerInit dims nlevels k (some f) ifg dv none
      = Except.ok cfg) (lsb : ℕ → ℕ) :
    (FMMLib.multipole_expansion_zeros cfg nlevels lsb).size
      = (FMMLib.multipole_expansions_level_starts cfg nlevels lsb).getD
          nlevels 0
    ∧ (FMMLib.multipole_expansion_zeros cfg nlevels lsb).dtype
        = FMMLib.DType.complex128
    ∧ (∀ j, (FMMLib.multipole_expansion_zeros cfg nlevels lsb).data j
        = (0, 0))
    ∧ (FMMLib.local_expansion_zeros cfg nlevels lsb).size
        = (FMMLib.local_expansions_level_starts cfg nlevels lsb).getD
            nlevels 0
    ∧ (FMMLib.local_expansion_zeros cfg nlevels lsb).dtype
        = FMMLib.DType.complex128 := by
  have hdtype : cfg.dtype = FMMLib.DType.complex128 := by
    injection hcfg with h
    rw [← h]
  have hsize : (FMMLib.multipole_expansions_level_starts cfg nlevels
      lsb).getLastD 0
      = (FMMLib.multipole_expansions_level_starts cfg nlevels lsb).getD
          nlevels 0 := by
    unfold FMMLib.multipole_expansions_level_starts
    rw [expansions_level_starts_getLastD,
      expansions_level_starts_getD _ _ _ _ _ (by omega)]
  exact ⟨hsize, hdtype, fun j => rfl, hsize, hdtype⟩

/-- Concrete 2-D Laplace wrangler configuration (result of `__init__` with
`helmholtz_k = 0`). -/
def wCfgLaplace : FMMLib.WranglerConfig :=
  { eqn_letter := FMMLib.EqnLetter.l
    helmholtz_k := 0
    level_nterms := [5]
    dtype := FMMLib.DType.complex128
    ifgrad := false
    dim := 2
    dp_suffix := "" }

theorem C8_witness :
    (FMMLib.multipole_expansion_zeros wCfgLaplace 1 (fun _ => 3)).dtype
      = FMMLib.DType.complex128 :=
  (C8_expansion_zeros 2 1 0 (fun _ => 5) false none wCfgLaplace rfl
    (fun _ => 3)).2.1

/-! ## C7/C10: finalize_potentials -/

namespace FMMLib

/-- `finalize_potentials`.  The accumulated potential is an array of complex
values (real/imaginary pairs); `np.pi` is the parameter `piV`;
`raise NotImplementedError` is `Except.error`.  `potential.real` keeps the
real component only; multiplying the array by the real `scale_factor`
scales both components. -/
def finalize_potentials (cfg : WranglerConfig) (piV : ℚ)
    (potential : ℕ → ℚ × ℚ) : Except String (ℕ → ℚ × ℚ) :=
  let scaleE : Except String ℚ :=
    if cfg.eqn_letter = EqnLetter.l ∧ cfg.dim = 2 then
      Except.ok (-1 / (2 * piV))
    else if cfg.eqn_letter = EqnLetter.h ∧ cfg.dim = 2 then
      Except.ok 1
    else if (cfg.eqn_letter = EqnLetter.l ∨ cfg.eqn_letter = EqnLetter.h)
        ∧ cfg.dim = 3 then
      Except.ok (1 / (4 * piV))
    else
      Except.error "NotImplementedError: scale factor"
  match scaleE with
  | Except.error e => Except.error e
  | Except.ok scale_factor =>
    let potential2 : ℕ → ℚ × ℚ :=
      if cfg.eqn_letter = EqnLetter.l ∧ cfg.dim = 2 then
        fun i => ((potential i).1, 0)
      else potential
    Except.ok (fun i =>
      ((potential2 i).1 * scale_factor, (potential2 i).2 * scale_factor))

/-- Call-effect view of `finalize_potentials`: the Python body only rebinds
the local name (`potential = potential.real`) and applies allocating numpy
operations (`.real`, `*`), never an in-place operation, so the caller's
array contents after the call (first component) are the unchanged input. -/
def finalize_potentials_call (cfg : WranglerConfig) (piV : ℚ)
    (potential : ℕ → ℚ × ℚ) :
    (ℕ → ℚ × ℚ) × Except String (ℕ → ℚ × ℚ) :=
  (potential, finalize_potentials cfg piV potential)

end FMMLib

/-- C7: `finalize_potentials` is a pure transform returning the accumulated
potential multiplied by a scalar determined only by kernel family and
dimensionality — `-1/(2π)` for 2-D Laplace (after first discarding the
imaginary part), `1` for 2-D Helmholtz (the array is returned unchanged),
and `1/(4π)` for 3-D (either family); any other dimensionality raises. -/
theorem C7_finalize_scaling (cfg : FMMLib.WranglerConfig) (piV : ℚ)
    (potential : ℕ → ℚ × ℚ) :
    (cfg.eqn_letter = FMMLib.EqnLetter.l → cfg.dim = 2 →
      FMMLib.finalize_potentials cfg piV potential
        = Except.ok (fun i => ((potential i).1 * (-1 / (2 * piV)), 0)))
    ∧ (cfg.eqn_letter = FMMLib.EqnLetter.h → cfg.dim = 2 →
      FMMLib.finalize_potentials cfg piV potential = Except.ok potential)
    ∧ (cfg.dim = 3 →
      FMMLib.finalize_potentials cfg piV potential
        = Except.ok (fun i => ((potential i).1 * (1 / (4 * piV)),
            (potential i).2 * (1 / (4 * piV)))))
    ∧ (cfg.dim ≠ 2 → cfg.dim ≠ 3 →
      FMMLib.finalize_potentials cfg piV potential
        = Except.error "NotImplementedError: scale factor") := by
  refine ⟨?_, ?_, ?_, ?_⟩
  · intro hl h2
    unfold FMMLib.finalize_potentials
    rw [if_pos ⟨hl, h2⟩]
    simp only [if_pos (⟨hl, h2⟩ : cfg.eqn_letter = FMMLib.EqnLetter.l ∧ cfg.dim = 2)]
    refine congrArg Except.ok (funext fun i => ?_)
    simp
  · intro hh h2
    have hnl : ¬ (cfg.eqn_letter = FMMLib.EqnLetter.l ∧ cfg.dim = 2) := by
      rintro ⟨hc, -⟩
      rw [hh] at hc
      exact FMMLib.EqnLetter.noConfusion hc
    unfold FMMLib.finalize_potentials
    rw [if_neg hnl, if_pos ⟨hh, h2⟩]
    simp only [if_neg hnl]
    refine congrArg Except.ok (funext fun i => ?_)
    simp
  · intro h3
    have hnl : ¬ (cfg.eqn_letter = FMMLib.EqnLetter.l ∧ cfg.dim = 2) := by
      rintro ⟨-, hc⟩
      omega
    have hnh : ¬ (cfg.eqn_letter = FMMLib.EqnLetter.h ∧ cfg.dim = 2) := by
      rintro ⟨-, hc⟩
      omega
    have hor : (cfg.eqn_letter = FMMLib.EqnLetter.l
        ∨ cfg.eqn_letter = FMMLib.EqnLetter.h) ∧ cfg.dim = 3 := by
      refine ⟨?_, h3⟩
      cases cfg.eqn_letter
      · exact Or.inl rfl
      · exact Or.inr rfl
    unfold FMMLib.finalize_potentials
    rw [if_neg hnl, if_neg hnh, if_pos hor]
    simp only [if_neg hnl]
  · intro h2 h3
    have hnl : ¬ (cfg.eqn_letter = FMMLib.EqnLetter.l ∧ cfg.dim = 2) :=
      fun hc => h2 hc.2
    have hnh : ¬ (cfg.eqn_letter = FMMLib.EqnLetter.h ∧ cfg.dim = 2) :=
      fun hc => h2 hc.2
    have hn3 : ¬ ((cfg.eqn_letter = FMMLib.EqnLetter.l
        ∨ cfg.eqn_letter = FMMLib.EqnLetter.h) ∧ cfg.dim = 3) :=
      fun hc => h3 hc.2
    unfold FMMLib.finalize_potentials
    rw [if_neg hnl, if_neg hnh, if_neg hn3]

theorem C7_witness :
    FMMLib.finalize_potentials wCfgLaplace 3 (fun i : ℕ => ((i : ℚ), (1:ℚ)))
      = Except.ok (fun i =>
          (((fun i : ℕ => ((i : ℚ), (1:ℚ))) i).1 * (-1 / (2 * 3)), 0)) :=
  (C7_finalize_scaling wCfgLaplace 3 (fun i : ℕ => ((i : ℚ), (1:ℚ)))).1 rfl rfl

/-- C10: `finalize_potentials` never mutates its argument — the caller's
array contents after the call equal the input — and two calls on equal
inputs under the same configuration return equal results. -/
theorem C10_finalize_no_mutation (cfg : FMMLib.WranglerConfig) (piV : ℚ)
    (potential : ℕ → ℚ × ℚ) :
    (FMMLib.finalize_potentials_call cfg piV potential).1 = potential
    ∧ ∀ potential2 : ℕ → ℚ × ℚ, potential = potential2 →
        (FMMLib.finalize_potentials_call cfg piV potential).2
          = (FMMLib.finalize_potentials_call cfg piV potential2).2 :=
  ⟨rfl, fun _ h => by rw [h]⟩

theorem C10_witness :
    (FMMLib.finalize_potentials_call wCfgLaplace 3
      (fun i : ℕ => ((i : ℚ), (1:ℚ)))).1 = (fun i : ℕ => ((i : ℚ), (1:ℚ))) :=
  (C10_finalize_no_mutation wCfgLaplace 3 (fun i : ℕ => ((i : ℚ), (1:ℚ)))).1

/-! ## C4/C6: the pyfmmlib passes over flat buffers -/

namespace FMMLib

/-- The tree attributes read by the pyfmmlib wrangler passes.  `box_centers`
maps a box id to its (dimension-indexed) center column. -/
structure FTree where
  nlevels : ℕ
  nboxes : ℕ
  root_extent : ℚ
  level_start_box_nrs : ℕ → ℕ
  box_centers : ℕ → (ℕ → ℚ)
  box_child_ids : ℕ → List ℕ
  box_parent_ids : ℕ → ℕ
  box_source_starts : ℕ → ℕ
  box_source_counts_nonchild : ℕ → ℕ
  box_target_starts : ℕ → ℕ
  box_target_counts_nonchild : ℕ → ℕ

/-- `level_to_rscale`: `tree.root_extent * 2 ** -level`. -/
def level_to_rscale (t : FTree) (level : ℕ) : ℚ :=
  t.root_extent * (2 : ℚ) ^ (-(level : ℤ))

/-- Arguments passed to the multipole-to-multipole translation routine
(`mpmp`).  `expn1` is the child's coefficient row; the optional `radius`
keyword is passed for the 3-D Helmholtz case. -/
structure MpmpArgs where
  rscale1 : ℚ
  center1 : ℕ → ℚ
  expn1 : ℕ → ℚ × ℚ
  rscale2 : ℚ
  center2 : ℕ → ℚ
  nterms2 : ℕ
  radius : Option ℚ
  level_for_projection : ℕ

/-- In-place `view[rowIdx] += coeffs` on the flat buffer, where the view's
region starts at `expn_start` with per-box stride `sz`. -/
def view_write_add (buf : ℕ → ℚ × ℚ) (expn_start sz rowIdx : ℕ)
    (coeffs : ℕ → ℚ × ℚ) : ℕ → ℚ × ℚ :=
  fun k =>
    if expn_start + rowIdx * sz ≤ k ∧ k < expn_start + rowIdx * sz + sz then
      buf k + coeffs (k - (expn_start + rowIdx * sz))
    else buf k

/-- In-place `view[rowIdx] = coeffs` on the flat buffer. -/
def view_write_set (buf : ℕ → ℚ × ℚ) (expn_start sz rowIdx : ℕ)
    (coeffs : ℕ → ℚ × ℚ) : ℕ → ℚ × ℚ :=
  fun k =>
    if expn_start + rowIdx * sz ≤ k ∧ k < expn_start + rowIdx * sz + sz then
      coeffs (k - (expn_start + rowIdx * sz))
    else buf k

/-- `FMMLibExpansionWrangler.coarsen_multipoles`: walks source levels from
the deepest down to 3 (target level = source level − 1); for every box in
the target level's slice of `source_parent_boxes` and each nonzero child,
calls the multipole-to-multipole translation routine on the child's view
row and accumulates the result into the parent's view row. -/
def coarsen_multipoles (cfg : WranglerConfig) (t : FTree)
    (mpmp : MpmpArgs → (ℕ → ℚ × ℚ))
    (level_start_source_parent_box_nrs : ℕ → ℕ)
    (source_parent_boxes : List ℕ) (mpoles : ℕ → ℚ × ℚ) : ℕ → ℚ × ℚ :=
  (ConstantOne.coarsenSourceLevels t.nlevels).foldl
    (fun mp source_level =>
      let target_level := source_level - 1
      let source_level_start_ibox := t.level_start_box_nrs source_level
      let target_level_start_ibox := t.level_start_box_nrs target_level
      let sourceS := (multipole_expansions_level_starts cfg t.nlevels
        t.level_start_box_nrs).getD source_level 0
      let targetS := (multipole_expansions_level_starts cfg t.nlevels
        t.level_start_box_nrs).getD target_level 0
      let ssz := expansion_size cfg (cfg.level_nterms.getD source_level 0)
      let tsz := expansion_size cfg (cfg.level_nterms.getD target_level 0)
      let source_rscale := level_to_rscale t source_level
      let target_rscale := level_to_rscale t target_level
      (pySlice source_parent_boxes
          (level_start_source_parent_box_nrs target_level)
          (level_start_source_parent_box_nrs (target_level + 1))).foldl
        (fun mp ibox =>
          (t.box_child_ids ibox).foldl
            (fun mp child =>
              if child ≠ 0 then
                let new_mp := mpmp
                  { rscale1 := source_rscale
                    center1 := t.box_centers child
                    expn1 := fun j => mp (sourceS
                      + (child - source_level_start_ibox) * ssz + j)
                    rscale2 := target_rscale
                    center2 := t.box_centers ibox
                    nterms2 := cfg.level_nterms.getD target_level 0
                    radius := if cfg.dim = 3 ∧ cfg.eqn_letter = EqnLetter.h
                      then some (t.root_extent * (2 : ℚ) ^ (-(target_level : ℤ)))
                      else none
                    level_for_projection := source_level }
                view_write_add mp targetS tsz
                  (ibox - target_level_start_ibox) new_mp
              else mp)
            mp)
        mp)
    mpoles

end FMMLib

/-- A fold preserves any invariant its steps preserve. -/
theorem list_foldl_preserves {σ α : Type} (P : σ → Prop) :
    ∀ (l : List α) (f : σ → α → σ),
      (∀ s a, a ∈ l → P s → P (f s a)) → ∀ s, P s → P (l.foldl f s)
  | [], f, _, s, hs => hs
  | a :: as, f, h, s, hs =>
    list_foldl_preserves P as f
      (fun s2 x hx hs2 => h s2 x (List.mem_cons_of_mem _ hx) hs2)
      (f s a) (h s a (List.mem_cons_self _ _) hs)

/-- Monotonicity of the cumulative level offsets in the level index. -/
theorem mp_level_starts_getD_mono (cfg : FMMLib.WranglerConfig) (nlevels : ℕ)
    (lsb : ℕ → ℕ) {i j : ℕ} (hij : i ≤ j) (hj : j ≤ nlevels) :
    (FMMLib.multipole_expansions_level_starts cfg nlevels lsb).getD i 0
      ≤ (FMMLib.multipole_expansions_level_starts cfg nlevels lsb).getD j 0 := by
  unfold FMMLib.multipole_expansions_level_starts
  rw [expansions_level_starts_getD _ _ _ _ _ (by omega),
    expansions_level_starts_getD _ _ _ _ _ (by omega)]
  exact levelStartFun_mono _ _ _ hij

/-- Membership in the coarsening source-level list. -/
theorem mem_coarsenSourceLevels {nlevels s : ℕ}
    (h : s ∈ ConstantOne.coarsenSourceLevels nlevels) :
    3 ≤ s ∧ s + 1 ≤ nlevels := by
  unfold ConstantOne.coarsenSourceLevels at h
  rw [List.mem_reverse, List.mem_range'_1] at h
  omega

/-- C4: `coarsen_multipoles` iterates source levels strictly downward from
the deepest level `nlevels − 1` and stops before source level 2, so the
target level (source level − 1) is never below 2; consequently, for every
input, the multipole coefficients of all boxes at levels 0 and 1 (the flat
indices below the level-2 offset) are left unchanged — every accumulation
adds a translated child expansion into its parent's view at the
next-coarser level, at flat indices at or above the level-2 offset. -/
theorem C4_coarsen_multipoles_frame (cfg : FMMLib.WranglerConfig)
    (t : FMMLib.FTree) (mpmp : FMMLib.MpmpArgs → (ℕ → ℚ × ℚ))
    (level_start_source_parent_box_nrs : ℕ → ℕ)
    (source_parent_boxes : List ℕ) (mpoles : ℕ → ℚ × ℚ) :
    (List.Pairwise (· > ·) (ConstantOne.coarsenSourceLevels t.nlevels)
      ∧ (∀ s ∈ ConstantOne.coarsenSourceLevels t.nlevels,
          3 ≤ s ∧ s + 1 ≤ t.nlevels ∧ 2 ≤ s - 1))
    ∧ ∀ k, k < (FMMLib.multipole_expansions_level_starts cfg t.nlevels
          t.level_start_box_nrs).getD 2 0 →
        FMMLib.coarsen_multipoles cfg t mpmp
          level_start_source_parent_box_nrs source_parent_boxes mpoles k
          = mpoles k := by
  constructor
  · constructor
    · unfold ConstantOne.coarsenSourceLevels
      rw [List.pairwise_reverse]
      exact List.pairwise_lt_range' 3 (t.nlevels - 3)
    · intro s hs
      have := mem_coarsenSourceLevels hs
      omega
  · intro k hk
    unfold FMMLib.coarsen_multipoles
    refine list_foldl_preserves (fun mp : ℕ → ℚ × ℚ => mp k = mpoles k)
      (ConstantOne.coarsenSourceLevels t.nlevels) _ ?_ mpoles rfl
    intro mp s hs hmp
    obtain ⟨h3, hup⟩ := mem_coarsenSourceLevels hs
    have hS2 : (FMMLib.multipole_expansions_level_starts cfg t.nlevels
        t.level_start_box_nrs).getD 2 0
        ≤ (FMMLib.multipole_expansions_level_starts cfg t.nlevels
          t.level_start_box_nrs).getD (s - 1) 0 :=
      mp_level_starts_getD_mono cfg t.nlevels t.level_start_box_nrs
        (by omega) (by omega)
    dsimp only
    refine list_foldl_preserves (fun mp : ℕ → ℚ × ℚ => mp k = mpoles k)
      _ _ ?_ mp hmp
    intro mp2 ibox hibox hmp2
    dsimp only
    refine list_foldl_preserves (fun mp : ℕ → ℚ × ℚ => mp k = mpoles k)
      _ _ ?_ mp2 hmp2
    intro mp3 child hchild hmp3
    dsimp only
    by_cases hc : child ≠ 0
    · rw [if_pos hc]
      show FMMLib.view_write_add mp3 _ _ _ _ k = mpoles k
      unfold FMMLib.view_write_add
      rw [if_neg (by omega)]
      exact hmp3
    · rw [if_neg hc]
      exact hmp3

/-- Concrete 2-D Laplace configuration with four levels. -/
def wCfg4 : FMMLib.WranglerConfig :=
  { eqn_letter := FMMLib.EqnLetter.l
    helmholtz_k := 0
    level_nterms := [3, 3, 3, 3]
    dtype := FMMLib.DType.complex128
    ifgrad := false
    dim := 2
    dp_suffix := "" }

/-- Concrete four-level tree (one box per level) for the coarsening frame
witness. -/
def wFTree4 : FMMLib.FTree :=
  { nlevels := 4
    nboxes := 4
    root_extent := 1
    level_start_box_nrs := fun ℓ => min ℓ 4
    box_centers := fun _ => fun _ => 0
    box_child_ids := fun _ => []
    box_parent_ids := fun _ => 0
    box_source_starts := fun _ => 0
    box_source_counts_nonchild := fun _ => 0
    box_target_starts := fun _ => 0
    box_target_counts_nonchild := fun _ => 0 }

theorem C4_witness :
    FMMLib.coarsen_multipoles wCfg4 wFTree4 (fun _ => fun _ => (1, 0))
      (fun _ => 0) [] (fun _ => ((0:ℚ), (0:ℚ))) 0
      = (fun _ => ((0:ℚ), (0:ℚ))) 0 :=
  (C4_coarsen_multipoles_frame wCfg4 wFTree4 (fun _ => fun _ => (1, 0))
    (fun _ => 0) [] (fun _ => ((0:ℚ), (0:ℚ)))).2 0 (by decide)

namespace FMMLib

/-- `self.kernel_kwargs`: the Helmholtz family passes `zk = helmholtz_k` to
every kernel routine; the Laplace family passes nothing. -/
def kernelZk (cfg : WranglerConfig) : Option ℚ :=
  if cfg.eqn_letter = EqnLetter.h then some cfg.helmholtz_k else none

/-- Arguments of the expansion-forming routines (`formmp`, `formta`): the
level rscale, the source particle slice, the per-slice charges
(`src_weights[pslice]`), the expansion center, the order, and the optional
Helmholtz parameter. -/
structure FormArgs where
  rscale : ℚ
  source_start : ℕ
  source_count : ℕ
  charge : ℕ → ℚ
  center : ℕ → ℚ
  nterms : ℕ
  zk : Option ℚ

/-- Arguments of the point-to-point evaluation routine wrapped by
`get_direct_eval_routine`. -/
structure DirectEvalArgs where
  source_start : ℕ
  source_count : ℕ
  target_start : ℕ
  target_count : ℕ
  charge : ℕ → ℚ
  zk : Option ℚ

/-- Arguments of the expansion-evaluation routines wrapped by
`get_expn_eval_routine` (`mpeval`, `taeval`): the rscale, the expansion
center, the coefficient row read out of the flat buffer, the target
particle slice, and the optional Helmholtz parameter. -/
structure ExpnEvalArgs where
  rscale : ℚ
  center : ℕ → ℚ
  expn : ℕ → ℚ × ℚ
  target_start : ℕ
  target_count : ℕ
  zk : Option ℚ

/-- `add_potgrad_onto_output` in the `ifgrad = False` case:
`output[output_slice] += pot`, with `pot` indexed relative to the slice
start. -/
def addSlicePot (out : ℕ → ℚ × ℚ) (start cnt : ℕ) (pot : ℕ → ℚ × ℚ) :
    ℕ → ℚ × ℚ :=
  fun i => if start ≤ i ∧ i < start + cnt then out i + pot (i - start) else out i

/-- Left fold that aborts at the first `raise` (Except error), threading the
state through otherwise. -/
def foldExcept {σ α : Type} (f : σ → α → Except String σ) :
    List α → σ → Except String σ
  | [], s => Except.ok s
  | a :: as, s =>
    match f s a with
    | Except.error e => Except.error e
    | Except.ok s2 => foldExcept f as s2

/-- `FMMLibExpansionWrangler.form_multipoles`, with the Fortran routine
abstract (returning its `ier` flag and coefficient row).  Starting from the
zero buffer, it walks the levels; an empty level slice is skipped, and each
listed box with a nonempty source slice gets `formmp`'s coefficients
assigned into its view row (a nonzero `ier` raises).  Alongside the buffer
it returns the log of `(level, box)` pairs at which the routine was
invoked. -/
def form_multipoles (cfg : WranglerConfig) (t : FTree)
    (formmp : FormArgs → ℕ × (ℕ → ℚ × ℚ))
    (level_start_source_box_nrs : ℕ → ℕ) (source_boxes : List ℕ)
    (src_weights : ℕ → ℚ) :
    Except String ((ℕ → ℚ × ℚ) × List (ℕ × ℕ)) :=
  foldExcept
    (fun st lev =>
      if level_start_source_box_nrs lev = level_start_source_box_nrs (lev + 1)
      then Except.ok st
      else
        let level_start_ibox := t.level_start_box_nrs lev
        let expnS := (multipole_expansions_level_starts cfg t.nlevels
          t.level_start_box_nrs).getD lev 0
        let sz := expansion_size cfg (cfg.level_nterms.getD lev 0)
        let rscale := level_to_rscale t lev
        foldExcept
          (fun st2 src_ibox =>
            let pstart := t.box_source_starts src_ibox
            let pcnt := t.box_source_counts_nonchild src_ibox
            if pcnt = 0 then Except.ok st2
            else
              let res := formmp
                { rscale := rscale
                  source_start := pstart
                  source_count := pcnt
                  charge := fun j => src_weights (pstart + j)
                  center := t.box_centers src_ibox
                  nterms := cfg.level_nterms.getD lev 0
                  zk := kernelZk cfg }
              if res.1 ≠ 0 then Except.error "formmp failed"
              else Except.ok
                (view_write_set st2.1 expnS sz (src_ibox - level_start_ibox)
                  res.2,
                 st2.2 ++ [(lev, src_ibox)]))
          (pySlice source_boxes (level_start_source_box_nrs lev)
            (level_start_source_box_nrs (lev + 1))) st)
    (List.range t.nlevels)
    ((fun _ => (0, 0)), [])

/-- `FMMLibExpansionWrangler.eval_direct`, with the point-to-point routine
abstract (returning the potential over the target slice).  Starting from the
zero output, a listed target box with an empty target slice is skipped; per
target box the neighbor sources with nonempty source slices are evaluated
and accumulated, then added onto the output slice.  Returns the output and
the log of `(target box, source box)` pairs at which the routine was
invoked. -/
def eval_direct (cfg : WranglerConfig) (t : FTree)
    (ev : DirectEvalArgs → (ℕ → ℚ × ℚ))
    (target_boxes : List ℕ) (neighbor_sources_starts : ℕ → ℕ)
    (neighbor_sources_lists : List ℕ) (src_weights : ℕ → ℚ) :
    (ℕ → ℚ × ℚ) × List (ℕ × ℕ) :=
  target_boxes.enum.foldl
    (fun st p =>
      let tstart := t.box_target_starts p.2
      let tcnt := t.box_target_counts_nonchild p.2
      if tcnt = 0 then st
      else
        let inner := (pySlice neighbor_sources_lists
            (neighbor_sources_starts p.1)
            (neighbor_sources_starts (p.1 + 1))).foldl
          (fun (acc : (ℕ → ℚ × ℚ) × List (ℕ × ℕ)) src_ibox =>
            let sstart := t.box_source_starts src_ibox
            let scnt := t.box_source_counts_nonchild src_ibox
            if scnt = 0 then acc
            else
              let tmp := ev
                { source_start := sstart
                  source_count := scnt
                  target_start := tstart
                  target_count := tcnt
                  charge := fun j => src_weights (sstart + j)
                  zk := kernelZk cfg }
              ((fun j => acc.1 j + tmp j), acc.2 ++ [(p.2, src_ibox)]))
          ((fun _ => ((0 : ℚ), (0 : ℚ))), ([] : List (ℕ × ℕ)))
        (addSlicePot st.1 tstart tcnt inner.1, st.2 ++ inner.2))
    ((fun _ => (0, 0)), [])

/-- `FMMLibExpansionWrangler.eval_multipoles`, with the expansion-evaluation
routine abstract (it may raise, as the 3-D wrapper does on nonzero `ier`).
For each source level's CSR structure, a listed target box with an empty
target slice is skipped; otherwise every source box in its list is
evaluated (no emptiness check on the source side) and the accumulated
potential is added onto the output slice.  Returns the output and the log
of `(target box, source box)` pairs at which the routine was invoked. -/
def eval_multipoles (cfg : WranglerConfig) (t : FTree)
    (mpeval : ExpnEvalArgs → Except String (ℕ → ℚ × ℚ))
    (target_boxes : List ℕ) (sep_smaller_nonsiblings_by_level : List SSN)
    (mpole_exps : ℕ → ℚ × ℚ) :
    Except String ((ℕ → ℚ × ℚ) × List (ℕ × ℕ)) :=
  foldExcept
    (fun st lp =>
      let isrc_level := lp.1
      let ssn := lp.2
      let source_level_start_ibox := t.level_start_box_nrs isrc_level
      let expnS := (multipole_expansions_level_starts cfg t.nlevels
        t.level_start_box_nrs).getD isrc_level 0
      let sz := expansion_size cfg (cfg.level_nterms.getD isrc_level 0)
      let rscale := level_to_rscale t isrc_level
      foldExcept
        (fun st2 p =>
          let tstart := t.box_target_starts p.2
          let tcnt := t.box_target_counts_nonchild p.2
          if tcnt = 0 then Except.ok st2
          else
            match foldExcept
              (fun (acc : (ℕ → ℚ × ℚ) × List (ℕ × ℕ)) src_ibox =>
                match mpeval
                  { rscale := rscale
                    center := t.box_centers src_ibox
                    expn := fun j => mpole_exps (expnS
                      + (src_ibox - source_level_start_ibox) * sz + j)
                    target_start := tstart
                    target_count := tcnt
                    zk := kernelZk cfg } with
                | Except.error e => Except.error e
                | Except.ok tmp =>
                  Except.ok ((fun j => acc.1 j + tmp j),
                    acc.2 ++ [(p.2, src_ibox)]))
              (pySlice ssn.lists (ssn.starts p.1) (ssn.starts (p.1 + 1)))
              ((fun _ => ((0 : ℚ), (0 : ℚ))), ([] : List (ℕ × ℕ))) with
            | Except.error e => Except.error e
            | Except.ok inn =>
              Except.ok (addSlicePot st2.1 tstart tcnt inn.1, st2.2 ++ inn.2))
        target_boxes.enum st)
    sep_smaller_nonsiblings_by_level.enum
    ((fun _ => (0, 0)), [])

/-- `FMMLibExpansionWrangler.form_locals`, with `formta` abstract.  Walks
the levels (empty level slices skipped); per listed target box, every
source box in its CSR list with a nonempty source slice contributes a
`formta` row (a nonzero `ier` raises; empty source boxes are skipped), and
the accumulated contribution is assigned into the box's view row.  Returns
the buffer and the log of `(target box, source box)` pairs at which the
routine was invoked. -/
def form_locals (cfg : WranglerConfig) (t : FTree)
    (formta : FormArgs → ℕ × (ℕ → ℚ × ℚ))
    (level_start_target_or_target_parent_box_nrs : ℕ → ℕ)
    (target_or_target_parent_boxes : List ℕ)
    (starts : ℕ → ℕ) (lists : List ℕ) (src_weights : ℕ → ℚ) :
    Except String ((ℕ → ℚ × ℚ) × List (ℕ × ℕ)) :=
  foldExcept
    (fun st lev =>
      if level_start_target_or_target_parent_box_nrs lev
        = level_start_target_or_target_parent_box_nrs (lev + 1)
      then Except.ok st
      else
        let lev_start := level_start_target_or_target_parent_box_nrs lev
        let target_level_start_ibox := t.level_start_box_nrs lev
        let expnS := (local_expansions_level_starts cfg t.nlevels
          t.level_start_box_nrs).getD lev 0
        let sz := expansion_size cfg (cfg.level_nterms.getD lev 0)
        let rscale := level_to_rscale t lev
        foldExcept
          (fun st2 p =>
            match foldExcept
              (fun (acc : (ℕ → ℚ × ℚ) × List (ℕ × ℕ)) src_ibox =>
                let sstart := t.box_source_starts src_ibox
                let scnt := t.box_source_counts_nonchild src_ibox
                if scnt = 0 then Except.ok acc
                else
                  let res := formta
                    { rscale := rscale
                      source_start := sstart
                      source_count := scnt
                      charge := fun j => src_weights (sstart + j)
                      center := t.box_centers p.2
                      nterms := cfg.level_nterms.getD lev 0
                      zk := kernelZk cfg }
                  if res.1 ≠ 0 then Except.error "formta failed"
                  else Except.ok ((fun j => acc.1 j + res.2 j),
                    acc.2 ++ [(p.2, src_ibox)]))
              (pySlice lists (starts (lev_start + p.1))
                (starts (lev_start + p.1 + 1)))
              ((fun _ => ((0 : ℚ), (0 : ℚ))), ([] : List (ℕ × ℕ))) with
            | Except.error e => Except.error e
            | Except.ok inn =>
              Except.ok (view_write_set st2.1 expnS sz
                (p.2 - target_level_start_ibox) inn.1, st2.2 ++ inn.2))
          (pySlice target_or_target_parent_boxes lev_start
            (level_start_target_or_target_parent_box_nrs (lev + 1))).enum st)
    (List.range t.nlevels)
    ((fun _ => (0, 0)), [])

/-- `FMMLibExpansionWrangler.eval_locals`, with `taeval` abstract (it may
raise, as the 3-D wrapper does on nonzero `ier`).  Walks the levels (empty
level slices skipped); a listed target box with an empty target slice is
skipped, otherwise its local-expansion row is evaluated and added onto the
output slice.  Returns the output and the log of `(level, target box)`
pairs at which the routine was invoked. -/
def eval_locals (cfg : WranglerConfig) (t : FTree)
    (taeval : ExpnEvalArgs → Except String (ℕ → ℚ × ℚ))
    (level_start_target_box_nrs : ℕ → ℕ) (target_boxes : List ℕ)
    (local_exps : ℕ → ℚ × ℚ) :
    Except String ((ℕ → ℚ × ℚ) × List (ℕ × ℕ)) :=
  foldExcept
    (fun st lev =>
      if level_start_target_box_nrs lev = level_start_target_box_nrs (lev + 1)
      then Except.ok st
      else
        let source_level_start_ibox := t.level_start_box_nrs lev
        let expnS := (local_expansions_level_starts cfg t.nlevels
          t.level_start_box_nrs).getD lev 0
        let sz := expansion_size cfg (cfg.level_nterms.getD lev 0)
        let rscale := level_to_rscale t lev
        foldExcept
          (fun st2 tgt_ibox =>
            let tstart := t.box_target_starts tgt_ibox
            let tcnt := t.box_target_counts_nonchild tgt_ibox
            if tcnt = 0 then Except.ok st2
            else
              match taeval
                { rscale := rscale
                  center := t.box_centers tgt_ibox
                  expn := fun j => local_exps (expnS
                    + (tgt_ibox - source_level_start_ibox) * sz + j)
                  target_start := tstart
                  target_count := tcnt
                  zk := kernelZk cfg } with
              | Except.error e => Except.error e
              | Except.ok tmp =>
                Except.ok (addSlicePot st2.1 tstart tcnt tmp,
                  st2.2 ++ [(lev, tgt_ibox)]))
          (pySlice target_boxes (level_start_target_box_nrs lev)
            (level_start_target_box_nrs (lev + 1))) st)
    (List.range t.nlevels)
    ((fun _ => (0, 0)), [])

end FMMLib

/-- `foldExcept` preserves any invariant that each successful step
preserves. -/
theorem foldExcept_preserves {σ α : Type} (P : σ → Prop) :
    ∀ (l : List α) (f : σ → α → Except String σ),
      (∀ s a, a ∈ l → P s → ∀ s2, f s a = Except.ok s2 → P s2) →
      ∀ s s2, P s → FMMLib.foldExcept f l s = Except.ok s2 → P s2
  | [], f, _, s, s2, hs, heq => by
    have h0 : FMMLib.foldExcept f ([] : List α) s = Except.ok s := rfl
    rw [h0] at heq
    injection heq with h2
    rw [← h2]
    exact hs
  | a :: as, f, h, s, s2, hs, heq => by
    unfold FMMLib.foldExcept at heq
    cases hfa : f s a with
    | error e =>
      rw [hfa] at heq
      simp at heq
    | ok s1 =>
      rw [hfa] at heq
      exact foldExcept_preserves P as f
        (fun s3 x hx hP s4 h4 => h s3 x (List.mem_cons_of_mem _ hx) hP s4 h4)
        s1 s2 (h s a (List.mem_cons_self _ _) hs s1 hfa) heq

theorem addSlicePot_not_mem (out : ℕ → ℚ × ℚ) (start cnt : ℕ)
    (pot : ℕ → ℚ × ℚ) {i : ℕ} (h : ¬ (start ≤ i ∧ i < start + cnt)) :
    FMMLib.addSlicePot out start cnt pot i = out i := by
  unfold FMMLib.addSlicePot
  rw [if_neg h]

theorem view_write_set_not_mem (buf : ℕ → ℚ × ℚ) (expn_start sz rowIdx : ℕ)
    (coeffs : ℕ → ℚ × ℚ) {k : ℕ}
    (h : ¬ (expn_start + rowIdx * sz ≤ k
            ∧ k < expn_start + rowIdx * sz + sz)) :
    FMMLib.view_write_set buf expn_start sz rowIdx coeffs k = buf k := by
  unfold FMMLib.view_write_set
  rw [if_neg h]

/-- A coefficient index of a valid (level, box) pair lies strictly below
the next level's cumulative offset. -/
theorem region_index_lt (lsb : ℕ → ℕ) (ots : ℕ → ℕ) (lnt : ℕ → ℕ)
    {ℓ b j : ℕ} (hb1 : lsb ℓ ≤ b) (hb2 : b < lsb (ℓ + 1))
    (hj : j < ots (lnt ℓ)) :
    FMMLib.levelStartFun lsb ots lnt ℓ + (b - lsb ℓ) * ots (lnt ℓ) + j
      < FMMLib.levelStartFun lsb ots lnt (ℓ + 1) := by
  have hstep : FMMLib.levelStartFun lsb ots lnt (ℓ + 1)
      = FMMLib.levelStartFun lsb ots lnt ℓ
        + ots (lnt ℓ) * (lsb (ℓ + 1) - lsb ℓ) := rfl
  have h1 : (b - lsb ℓ + 1) * ots (lnt ℓ)
      ≤ (lsb (ℓ + 1) - lsb ℓ) * ots (lnt ℓ) :=
    Nat.mul_le_mul_right _ (by omega)
  have h2 : (b - lsb ℓ + 1) * ots (lnt ℓ)
      = (b - lsb ℓ) * ots (lnt ℓ) + ots (lnt ℓ) := by ring
  have h3 : (lsb (ℓ + 1) - lsb ℓ) * ots (lnt ℓ)
      = ots (lnt ℓ) * (lsb (ℓ + 1) - lsb ℓ) := by ring
  omega

/-- Coefficient regions of distinct valid (level, box) pairs in the flat
per-level layout never collide. -/
theorem region_disjoint (lsb : ℕ → ℕ) (ots : ℕ → ℕ) (lnt : ℕ → ℕ)
    {ℓ1 b1 j1 ℓ2 b2 j2 : ℕ}
    (hb1 : lsb ℓ1 ≤ b1) (hb1s : b1 < lsb (ℓ1 + 1)) (hj1 : j1 < ots (lnt ℓ1))
    (hb2 : lsb ℓ2 ≤ b2) (hb2s : b2 < lsb (ℓ2 + 1)) (hj2 : j2 < ots (lnt ℓ2))
    (hne : ℓ1 ≠ ℓ2 ∨ b1 ≠ b2) :
    FMMLib.levelStartFun lsb ots lnt ℓ1 + (b1 - lsb ℓ1) * ots (lnt ℓ1) + j1
      ≠ FMMLib.levelStartFun lsb ots lnt ℓ2
        + (b2 - lsb ℓ2) * ots (lnt ℓ2) + j2 := by
  rcases Nat.lt_trichotomy ℓ1 ℓ2 with hlt | heq | hgt
  · have h1 := region_index_lt lsb ots lnt hb1 hb1s hj1
    have h2 := levelStartFun_mono lsb ots lnt
      (show ℓ1 + 1 ≤ ℓ2 by omega)
    omega
  · subst heq
    have hbne : b1 ≠ b2 := by
      rcases hne with h | h
      · exact absurd rfl h
      · exact h
    rcases Nat.lt_or_ge b1 b2 with hb | hb
    · have h1 : (b1 - lsb ℓ1 + 1) * ots (lnt ℓ1)
          ≤ (b2 - lsb ℓ1) * ots (lnt ℓ1) :=
        Nat.mul_le_mul_right _ (by omega)
      have h2 : (b1 - lsb ℓ1 + 1) * ots (lnt ℓ1)
          = (b1 - lsb ℓ1) * ots (lnt ℓ1) + ots (lnt ℓ1) := by ring
      omega
    · have h1 : (b2 - lsb ℓ1 + 1) * ots (lnt ℓ1)
          ≤ (b1 - lsb ℓ1) * ots (lnt ℓ1) :=
        Nat.mul_le_mul_right _ (by omega)
      have h2 : (b2 - lsb ℓ1 + 1) * ots (lnt ℓ1)
          = (b2 - lsb ℓ1) * ots (lnt ℓ1) + ots (lnt ℓ1) := by ring
      omega
  · have h1 := region_index_lt lsb ots lnt hb2 hb2s hj2
    have h2 := levelStartFun_mono lsb ots lnt
      (show ℓ2 + 1 ≤ ℓ1 by omega)
    omega

/-- A coefficient index of the valid pair `(lev0, b0)` never falls into the
coefficient row that the multipole layout reserves for a different valid
pair `(lev2, b2)`. -/
theorem mp_region_no_overlap (cfg : FMMLib.WranglerConfig) (nlevels : ℕ)
    (lsb : ℕ → ℕ) {lev0 b0 j lev2 b2 : ℕ}
    (hlev0 : lev0 ≤ nlevels) (hlev2 : lev2 ≤ nlevels)
    (hb0l : lsb lev0 ≤ b0) (hb0r : b0 < lsb (lev0 + 1))
    (hj : j < FMMLib.expansion_size cfg (cfg.level_nterms.getD lev0 0))
    (hb2l : lsb lev2 ≤ b2) (hb2r : b2 < lsb (lev2 + 1))
    (hne : lev0 ≠ lev2 ∨ b0 ≠ b2) :
    ¬ ((FMMLib.multipole_expansions_level_starts cfg nlevels lsb).getD lev2 0
          + (b2 - lsb lev2)
            * FMMLib.expansion_size cfg (cfg.level_nterms.getD lev2 0)
        ≤ (FMMLib.multipole_expansions_level_starts cfg nlevels lsb).getD
            lev0 0
          + (b0 - lsb lev0)
            * FMMLib.expansion_size cfg (cfg.level_nterms.getD lev0 0) + j
       ∧ (FMMLib.multipole_expansions_level_starts cfg nlevels lsb).getD
            lev0 0
          + (b0 - lsb lev0)
            * FMMLib.expansion_size cfg (cfg.level_nterms.getD lev0 0) + j
        < (FMMLib.multipole_expansions_level_starts cfg nlevels lsb).getD
            lev2 0
          + (b2 - lsb lev2)
            * FMMLib.expansion_size cfg (cfg.level_nterms.getD lev2 0)
          + FMMLib.expansion_size cfg (cfg.level_nterms.getD lev2 0)) := by
  intro hmem
  obtain ⟨hm1, hm2⟩ := hmem
  have hgd0 : (FMMLib.multipole_expansions_level_starts cfg nlevels
      lsb).getD lev0 0
      = FMMLib.levelStartFun lsb (fun n => FMMLib.expansion_size cfg n)
          (fun ℓ => cfg.level_nterms.getD ℓ 0) lev0 := by
    unfold FMMLib.multipole_expansions_level_starts
    exact expansions_level_starts_getD _ _ _ _ _ hlev0
  have hgd2 : (FMMLib.multipole_expansions_level_starts cfg nlevels
      lsb).getD lev2 0
      = FMMLib.levelStartFun lsb (fun n => FMMLib.expansion_size cfg n)
          (fun ℓ => cfg.level_nterms.getD ℓ 0) lev2 := by
    unfold FMMLib.multipole_expansions_level_starts
    exact expansions_level_starts_getD _ _ _ _ _ hlev2
  rw [hgd0, hgd2] at hm1
  rw [hgd0, hgd2] at hm2
  have hj2lt : FMMLib.levelStartFun lsb
        (fun n => FMMLib.expansion_size cfg n)
        (fun ℓ => cfg.level_nterms.getD ℓ 0) lev0
      + (b0 - lsb lev0)
        * FMMLib.expansion_size cfg (cfg.level_nterms.getD lev0 0) + j
      - (FMMLib.levelStartFun lsb (fun n => FMMLib.expansion_size cfg n)
          (fun ℓ => cfg.level_nterms.getD ℓ 0) lev2
        + (b2 - lsb lev2)
          * FMMLib.expansion_size cfg (cfg.level_nterms.getD lev2 0))
      < FMMLib.expansion_size cfg (cfg.level_nterms.getD lev2 0) := by
    omega
  have hkey := region_disjoint lsb (fun n => FMMLib.expansion_size cfg n)
    (fun ℓ => cfg.level_nterms.getD ℓ 0) hb0l hb0r hj hb2l hb2r hj2lt hne
  beta_reduce at hkey
  exact hkey (by omega)

/-- The `(level, box)` log of `form_multipoles` only names boxes with a
nonempty source slice: an empty source box triggers no `formmp` call. -/
theorem form_multipoles_log_sources (cfg : FMMLib.WranglerConfig)
    (t : FMMLib.FTree) (formmp : FMMLib.FormArgs → ℕ × (ℕ → ℚ × ℚ))
    (lssb : ℕ → ℕ) (source_boxes : List ℕ) (w : ℕ → ℚ)
    (buf : ℕ → ℚ × ℚ) (log : List (ℕ × ℕ))
    (heq : FMMLib.form_multipoles cfg t formmp lssb source_boxes w
      = Except.ok (buf, log)) :
    ∀ r ∈ log, t.box_source_counts_nonchild r.2 ≠ 0 := by
  unfold FMMLib.form_multipoles at heq
  refine foldExcept_preserves
    (fun st : (ℕ → ℚ × ℚ) × List (ℕ × ℕ) =>
      ∀ r ∈ st.2, t.box_source_counts_nonchild r.2 ≠ 0)
    (List.range t.nlevels) _ ?_ ((fun _ => (0, 0)), []) (buf, log)
    (fun r hr => absurd hr (List.not_mem_nil r)) heq
  intro s lev hlevmem hP s2 h2
  dsimp only at h2
  by_cases hc : lssb lev = lssb (lev + 1)
  · rw [if_pos hc] at h2
    injection h2 with h3
    rw [← h3]
    exact hP
  · rw [if_neg hc] at h2
    refine foldExcept_preserves
      (fun st : (ℕ → ℚ × ℚ) × List (ℕ × ℕ) =>
        ∀ r ∈ st.2, t.box_source_counts_nonchild r.2 ≠ 0)
      _ _ ?_ s s2 hP h2
    intro s3 src hsrc hP3 s4 h4
    by_cases hpc : t.box_source_counts_nonchild src = 0
    · rw [if_pos hpc] at h4
      injection h4 with h5
      rw [← h5]
      exact hP3
    · rw [if_neg hpc] at h4
      split at h4
      · simp at h4
      · injection h4 with h5
        rw [← h5]
        intro r hr
        rcases List.mem_append.1 hr with hr2 | hr2
        · exact hP3 r hr2
        · have hrr : r = (lev, src) := List.mem_singleton.1 hr2
          rw [hrr]
          exact hpc

/-- After `form_multipoles`, the multipole view row of an in-range box with
an empty source slice is still identically zero (provided, as the traversal
guarantees, every listed box of a level lies in that level's box-id
range). -/
theorem form_multipoles_empty_box_zero (cfg : FMMLib.WranglerConfig)
    (t : FMMLib.FTree) (formmp : FMMLib.FormArgs → ℕ × (ℕ → ℚ × ℚ))
    (lssb : ℕ → ℕ) (source_boxes : List ℕ) (w : ℕ → ℚ)
    (hlisted : ∀ lev, lev < t.nlevels →
      ∀ b ∈ pySlice source_boxes (lssb lev) (lssb (lev + 1)),
        t.level_start_box_nrs lev ≤ b ∧ b < t.level_start_box_nrs (lev + 1))
    (buf : ℕ → ℚ × ℚ) (log : List (ℕ × ℕ))
    (heq : FMMLib.form_multipoles cfg t formmp lssb source_boxes w
      = Except.ok (buf, log))
    (lev0 b0 : ℕ) (hlev0 : lev0 < t.nlevels)
    (hb0l : t.level_start_box_nrs lev0 ≤ b0)
    (hb0r : b0 < t.level_start_box_nrs (lev0 + 1))
    (hempty : t.box_source_counts_nonchild b0 = 0)
    (j : ℕ)
    (hj : j < FMMLib.expansion_size cfg (cfg.level_nterms.getD lev0 0)) :
    buf ((FMMLib.multipole_expansions_level_starts cfg t.nlevels
        t.level_start_box_nrs).getD lev0 0
      + (b0 - t.level_start_box_nrs lev0)
        * FMMLib.expansion_size cfg (cfg.level_nterms.getD lev0 0) + j)
      = (0, 0) := by
  unfold FMMLib.form_multipoles at heq
  refine foldExcept_preserves
    (fun st : (ℕ → ℚ × ℚ) × List (ℕ × ℕ) =>
      st.1 ((FMMLib.multipole_expansions_level_starts cfg t.nlevels
          t.level_start_box_nrs).getD lev0 0
        + (b0 - t.level_start_box_nrs lev0)
          * FMMLib.expansion_size cfg (cfg.level_nterms.getD lev0 0) + j)
        = (0, 0))
    (List.range t.nlevels) _ ?_ ((fun _ => (0, 0)), []) (buf, log) rfl heq
  intro s lev hlevmem hP s2 h2
  have hlev : lev < t.nlevels := List.mem_range.1 hlevmem
  dsimp only at h2
  by_cases hc : lssb lev = lssb (lev + 1)
  · rw [if_pos hc] at h2
    injection h2 with h3
    rw [← h3]
    exact hP
  · rw [if_neg hc] at h2
    refine foldExcept_preserves
      (fun st : (ℕ → ℚ × ℚ) × List (ℕ × ℕ) =>
        st.1 ((FMMLib.multipole_expansions_level_starts cfg t.nlevels
            t.level_start_box_nrs).getD lev0 0
          + (b0 - t.level_start_box_nrs lev0)
            * FMMLib.expansion_size cfg (cfg.level_nterms.getD lev0 0) + j)
          = (0, 0))
      _ _ ?_ s s2 hP h2
    intro s3 src hsrc hP3 s4 h4
    by_cases hpc : t.box_source_counts_nonchild src = 0
    · rw [if_pos hpc] at h4
      injection h4 with h5
      rw [← h5]
      exact hP3
    · rw [if_neg hpc] at h4
      split at h4
      · simp at h4
      · injection h4 with h5
        rw [← h5]
        dsimp only
        have hsr := hlisted lev hlev src hsrc
        have hne : lev0 ≠ lev ∨ b0 ≠ src := by
          by_cases hll : lev0 = lev
          · right
            intro hbb
            apply hpc
            rw [← hbb]
            exact hempty
          · left
            exact hll
        rw [view_write_set_not_mem]
        · exact hP3
        · exact mp_region_no_overlap cfg t.nlevels t.level_start_box_nrs
            (by omega) (by omega) hb0l hb0r hj hsr.1 hsr.2 hne

/-- The `(target, source)` log of `eval_direct` only names pairs where both
particle slices are nonempty: an empty target box or an empty source box
triggers no call of the point-to-point routine. -/
theorem eval_direct_log_nonempty (cfg : FMMLib.WranglerConfig)
    (t : FMMLib.FTree) (ev : FMMLib.DirectEvalArgs → (ℕ → ℚ × ℚ))
    (target_boxes : List ℕ) (nss : ℕ → ℕ) (nsl : List ℕ) (w : ℕ → ℚ) :
    ∀ r ∈ (FMMLib.eval_direct cfg t ev target_boxes nss nsl w).2,
      t.box_target_counts_nonchild r.1 ≠ 0
      ∧ t.box_source_counts_nonchild r.2 ≠ 0 := by
  unfold FMMLib.eval_direct
  refine list_foldl_preserves
    (fun st : (ℕ → ℚ × ℚ) × List (ℕ × ℕ) =>
      ∀ r ∈ st.2, t.box_target_counts_nonchild r.1 ≠ 0
        ∧ t.box_source_counts_nonchild r.2 ≠ 0)
    target_boxes.enum _ ?_ _ (fun r hr => absurd hr (List.not_mem_nil r))
  intro s p hp hP
  dsimp only
  by_cases htc : t.box_target_counts_nonchild p.2 = 0
  · rw [if_pos htc]
    exact hP
  · rw [if_neg htc]
    intro r hr
    dsimp only at hr
    rcases List.mem_append.1 hr with hr2 | hr2
    · exact hP r hr2
    · refine list_foldl_preserves
        (fun acc : (ℕ → ℚ × ℚ) × List (ℕ × ℕ) =>
          ∀ r2 ∈ acc.2, t.box_target_counts_nonchild r2.1 ≠ 0
            ∧ t.box_source_counts_nonchild r2.2 ≠ 0)
        _ _ ?_ _ (fun r2 hr2b => absurd hr2b (List.not_mem_nil r2)) r hr2
      intro acc q hq hQ
      dsimp only
      by_cases hsc : t.box_source_counts_nonchild q = 0
      · rw [if_pos hsc]
        exact hQ
      · rw [if_neg hsc]
        intro r2 hr2b
        dsimp only at hr2b
        rcases List.mem_append.1 hr2b with hr3 | hr3
        · exact hQ r2 hr3
        · have hrr : r2 = (p.2, q) := List.mem_singleton.1 hr3
          rw [hrr]
          exact ⟨htc, hsc⟩

/-- The output of `eval_direct` is still zero at any particle index that
no listed nonempty target box's slice contains; in particular an empty
target box's slice is untouched. -/
theorem eval_direct_pot_zero (cfg : FMMLib.WranglerConfig)
    (t : FMMLib.FTree) (ev : FMMLib.DirectEvalArgs → (ℕ → ℚ × ℚ))
    (target_boxes : List ℕ) (nss : ℕ → ℕ) (nsl : List ℕ) (w : ℕ → ℚ)
    (i : ℕ)
    (hout : ∀ tgt ∈ target_boxes, t.box_target_counts_nonchild tgt = 0
      ∨ ¬ (t.box_target_starts tgt ≤ i
           ∧ i < t.box_target_starts tgt
             + t.box_target_counts_nonchild tgt)) :
    (FMMLib.eval_direct cfg t ev target_boxes nss nsl w).1 i = (0, 0) := by
  unfold FMMLib.eval_direct
  refine list_foldl_preserves
    (fun st : (ℕ → ℚ × ℚ) × List (ℕ × ℕ) => st.1 i = (0, 0))
    target_boxes.enum _ ?_ _ rfl
  intro s p hp hP
  dsimp only
  by_cases htc : t.box_target_counts_nonchild p.2 = 0
  · rw [if_pos htc]
    exact hP
  · rw [if_neg htc]
    dsimp only
    rw [addSlicePot_not_mem]
    · exact hP
    · rcases hout p.2 (snd_mem_of_mem_enum hp) with h | h
      · exact absurd h htc
      · exact h

/-- The `(target, source)` log of `eval_multipoles` only names target boxes
with a nonempty target slice: an empty target box triggers no call of the
multipole-evaluation routine. -/
theorem eval_multipoles_log_targets (cfg : FMMLib.WranglerConfig)
    (t : FMMLib.FTree)
    (mpeval : FMMLib.ExpnEvalArgs → Except String (ℕ → ℚ × ℚ))
    (target_boxes : List ℕ) (ssns : List SSN) (mpole_exps : ℕ → ℚ × ℚ)
    (pot : ℕ → ℚ × ℚ) (log : List (ℕ × ℕ))
    (heq : FMMLib.eval_multipoles cfg t mpeval target_boxes ssns mpole_exps
      = Except.ok (pot, log)) :
    ∀ r ∈ log, t.box_target_counts_nonchild r.1 ≠ 0 := by
  unfold FMMLib.eval_multipoles at heq
  refine foldExcept_preserves
    (fun st : (ℕ → ℚ × ℚ) × List (ℕ × ℕ) =>
      ∀ r ∈ st.2, t.box_target_counts_nonchild r.1 ≠ 0)
    ssns.enum _ ?_ ((fun _ => (0, 0)), []) (pot, log)
    (fun r hr => absurd hr (List.not_mem_nil r)) heq
  intro s lp hlp hP s2 h2
  refine foldExcept_preserves
    (fun st : (ℕ → ℚ × ℚ) × List (ℕ × ℕ) =>
      ∀ r ∈ st.2, t.box_target_counts_nonchild r.1 ≠ 0)
    _ _ ?_ s s2 hP h2
  intro s3 p hp hP3 s4 h4
  by_cases htc : t.box_target_counts_nonchild p.2 = 0
  · rw [if_pos htc] at h4
    injection h4 with h5
    rw [← h5]
    exact hP3
  · rw [if_neg htc] at h4
    split at h4
    · simp at h4
    · rename_i inn hinn
      injection h4 with h5
      rw [← h5]
      intro r hr
      dsimp only at hr
      rcases List.mem_append.1 hr with hr2 | hr2
      · exact hP3 r hr2
      · refine foldExcept_preserves
          (fun acc : (ℕ → ℚ × ℚ) × List (ℕ × ℕ) =>
            ∀ r2 ∈ acc.2, t.box_target_counts_nonchild r2.1 ≠ 0)
          _ _ ?_ _ inn (fun r2 hr2b => absurd hr2b (List.not_mem_nil r2))
          hinn r hr2
        intro acc q hq hQ acc2 hacc2
        split at hacc2
        · simp at hacc2
        · injection hacc2 with h6
          rw [← h6]
          intro r2 hr2b
          dsimp only at hr2b
          rcases List.mem_append.1 hr2b with hr3 | hr3
          · exact hQ r2 hr3
          · have hrr : r2 = (p.2, q) := List.mem_singleton.1 hr3
            rw [hrr]
            exact htc

/-- The output of `eval_multipoles` is still zero at any particle index
that no listed nonempty target box's slice contains; in particular an
empty target box's slice is untouched. -/
theorem eval_multipoles_pot_zero (cfg : FMMLib.WranglerConfig)
    (t : FMMLib.FTree)
    (mpeval : FMMLib.ExpnEvalArgs → Except String (ℕ → ℚ × ℚ))
    (target_boxes : List ℕ) (ssns : List SSN) (mpole_exps : ℕ → ℚ × ℚ)
    (pot : ℕ → ℚ × ℚ) (log : List (ℕ × ℕ))
    (heq : FMMLib.eval_multipoles cfg t mpeval target_boxes ssns mpole_exps
      = Except.ok (pot, log))
    (i : ℕ)
    (hout : ∀ tgt ∈ target_boxes, t.box_target_counts_nonchild tgt = 0
      ∨ ¬ (t.box_target_starts tgt ≤ i
           ∧ i < t.box_target_starts tgt
             + t.box_target_counts_nonchild tgt)) :
    pot i = (0, 0) := by
  unfold FMMLib.eval_multipoles at heq
  refine foldExcept_preserves
    (fun st : (ℕ → ℚ × ℚ) × List (ℕ × ℕ) => st.1 i = (0, 0))
    ssns.enum _ ?_ ((fun _ => (0, 0)), []) (pot, log) rfl heq
  intro s lp hlp hP s2 h2
  refine foldExcept_preserves
    (fun st : (ℕ → ℚ × ℚ) × List (ℕ × ℕ) => st.1 i = (0, 0))
    _ _ ?_ s s2 hP h2
  intro s3 p hp hP3 s4 h4
  by_cases htc : t.box_target_counts_nonchild p.2 = 0
  · rw [if_pos htc] at h4
    injection h4 with h5
    rw [← h5]
    exact hP3
  · rw [if_neg htc] at h4
    split at h4
    · simp at h4
    · injection h4 with h5
      rw [← h5]
      dsimp only
      rw [addSlicePot_not_mem]
      · exact hP3
      · rcases hout p.2 (snd_mem_of_mem_enum hp) with h | h
        · exact absurd h htc
        · exact h

/-- The `(level, target)` log of `eval_locals` only names target boxes with
a nonempty target slice: an empty target box triggers no call of the
local-evaluation routine. -/
theorem eval_locals_log_targets (cfg : FMMLib.WranglerConfig)
    (t : FMMLib.FTree)
    (taeval : FMMLib.ExpnEvalArgs → Except String (ℕ → ℚ × ℚ))
    (lstb : ℕ → ℕ) (target_boxes : List ℕ) (local_exps : ℕ → ℚ × ℚ)
    (pot : ℕ → ℚ × ℚ) (log : List (ℕ × ℕ))
    (heq : FMMLib.eval_locals cfg t taeval lstb target_boxes local_exps
      = Except.ok (pot, log)) :
    ∀ r ∈ log, t.box_target_counts_nonchild r.2 ≠ 0 := by
  unfold FMMLib.eval_locals at heq
  refine foldExcept_preserves
    (fun st : (ℕ → ℚ × ℚ) × List (ℕ × ℕ) =>
      ∀ r ∈ st.2, t.box_target_counts_nonchild r.2 ≠ 0)
    (List.range t.nlevels) _ ?_ ((fun _ => (0, 0)), []) (pot, log)
    (fun r hr => absurd hr (List.not_mem_nil r)) heq
  intro s lev hlev hP s2 h2
  dsimp only at h2
  by_cases hc : lstb lev = lstb (lev + 1)
  · rw [if_pos hc] at h2
    injection h2 with h3
    rw [← h3]
    exact hP
  · rw [if_neg hc] at h2
    refine foldExcept_preserves
      (fun st : (ℕ → ℚ × ℚ) × List (ℕ × ℕ) =>
        ∀ r ∈ st.2, t.box_target_counts_nonchild r.2 ≠ 0)
      _ _ ?_ s s2 hP h2
    intro s3 tgt htgt hP3 s4 h4
    by_cases htc : t.box_target_counts_nonchild tgt = 0
    · rw [if_pos htc] at h4
      injection h4 with h5
      rw [← h5]
      exact hP3
    · rw [if_neg htc] at h4
      split at h4
      · simp at h4
      · injection h4 with h5
        rw [← h5]
        intro r hr
        dsimp only at hr
        rcases List.mem_append.1 hr with hr2 | hr2
        · exact hP3 r hr2
        · have hrr : r = (lev, tgt) := List.mem_singleton.1 hr2
          rw [hrr]
          exact htc

/-- The output of `eval_locals` is still zero at any particle index that no
listed nonempty target box's slice contains; in particular an empty target
box's slice is untouched. -/
theorem eval_locals_pot_zero (cfg : FMMLib.WranglerConfig)
    (t : FMMLib.FTree)
    (taeval : FMMLib.ExpnEvalArgs → Except String (ℕ → ℚ × ℚ))
    (lstb : ℕ → ℕ) (target_boxes : List ℕ) (local_exps : ℕ → ℚ × ℚ)
    (pot : ℕ → ℚ × ℚ) (log : List (ℕ × ℕ))
    (heq : FMMLib.eval_locals cfg t taeval lstb target_boxes local_exps
      = Except.ok (pot, log))
    (i : ℕ)
    (hout : ∀ tgt ∈ target_boxes, t.box_target_counts_nonchild tgt = 0
      ∨ ¬ (t.box_target_starts tgt ≤ i
           ∧ i < t.box_target_starts tgt
             + t.box_target_counts_nonchild tgt)) :
    pot i = (0, 0) := by
  unfold FMMLib.eval_locals at heq
  refine foldExcept_preserves
    (fun st : (ℕ → ℚ × ℚ) × List (ℕ × ℕ) => st.1 i = (0, 0))
    (List.range t.nlevels) _ ?_ ((fun _ => (0, 0)), []) (pot, log) rfl heq
  intro s lev hlev hP s2 h2
  dsimp only at h2
  by_cases hc : lstb lev = lstb (lev + 1)
  · rw [if_pos hc] at h2
    injection h2 with h3
    rw [← h3]
    exact hP
  · rw [if_neg hc] at h2
    refine foldExcept_preserves
      (fun st : (ℕ → ℚ × ℚ) × List (ℕ × ℕ) => st.1 i = (0, 0))
      _ _ ?_ s s2 hP h2
    intro s3 tgt htgt hP3 s4 h4
    by_cases htc : t.box_target_counts_nonchild tgt = 0
    · rw [if_pos htc] at h4
      injection h4 with h5
      rw [← h5]
      exact hP3
    · rw [if_neg htc] at h4
      split at h4
      · simp at h4
      · injection h4 with h5
        rw [← h5]
        dsimp only
        rw [addSlicePot_not_mem]
        · exact hP3
        · rcases hout tgt (mem_of_mem_pySlice htgt) with h | h
          · exact absurd h htc
          · exact h

/-- The `(target, source)` log of `form_locals` only names source boxes
with a nonempty source slice: an empty source box triggers no `formta`
call. -/
theorem form_locals_log_sources (cfg : FMMLib.WranglerConfig)
    (t : FMMLib.FTree) (formta : FMMLib.FormArgs → ℕ × (ℕ → ℚ × ℚ))
    (lstpb : ℕ → ℕ) (tpb : List ℕ) (starts : ℕ → ℕ) (lists : List ℕ)
    (w : ℕ → ℚ) (buf : ℕ → ℚ × ℚ) (log : List (ℕ × ℕ))
    (heq : FMMLib.form_locals cfg t formta lstpb tpb starts lists w
      = Except.ok (buf, log)) :
    ∀ r ∈ log, t.box_source_counts_nonchild r.2 ≠ 0 := by
  unfold FMMLib.form_locals at heq
  refine foldExcept_preserves
    (fun st : (ℕ → ℚ × ℚ) × List (ℕ × ℕ) =>
      ∀ r ∈ st.2, t.box_source_counts_nonchild r.2 ≠ 0)
    (List.range t.nlevels) _ ?_ ((fun _ => (0, 0)), []) (buf, log)
    (fun r hr => absurd hr (List.not_mem_nil r)) heq
  intro s lev hlev hP s2 h2
  dsimp only at h2
  by_cases hc : lstpb lev = lstpb (lev + 1)
  · rw [if_pos hc] at h2
    injection h2 with h3
    rw [← h3]
    exact hP
  · rw [if_neg hc] at h2
    refine foldExcept_preserves
      (fun st : (ℕ → ℚ × ℚ) × List (ℕ × ℕ) =>
        ∀ r ∈ st.2, t.box_source_counts_nonchild r.2 ≠ 0)
      _ _ ?_ s s2 hP h2
    intro s3 p hp hP3 s4 h4
    split at h4
    · simp at h4
    · rename_i inn hinn
      injection h4 with h5
      rw [← h5]
      intro r hr
      dsimp only at hr
      rcases List.mem_append.1 hr with hr2 | hr2
      · exact hP3 r hr2
      · refine foldExcept_preserves
          (fun acc : (ℕ → ℚ × ℚ) × List (ℕ × ℕ) =>
            ∀ r2 ∈ acc.2, t.box_source_counts_nonchild r2.2 ≠ 0)
          _ _ ?_ _ inn (fun r2 hr2b => absurd hr2b (List.not_mem_nil r2))
          hinn r hr2
        intro acc q hq hQ acc2 hacc2
        by_cases hsc : t.box_source_counts_nonchild q = 0
        · rw [if_pos hsc] at hacc2
          injection hacc2 with h6
          rw [← h6]
          exact hQ
        · rw [if_neg hsc] at hacc2
          split at hacc2
          · simp at hacc2
          · injection hacc2 with h6
            rw [← h6]
            intro r2 hr2b
            dsimp only at hr2b
            rcases List.mem_append.1 hr2b with hr3 | hr3
            · exact hQ r2 hr3
            · have hrr : r2 = (p.2, q) := List.mem_singleton.1 hr3
              rw [hrr]
              exact hsc

/-- C6: a box whose source particle range is empty (in `form_multipoles`,
`eval_direct`, `form_locals`) or whose target particle range is empty (in
`eval_direct`, `eval_multipoles`, `eval_locals`) triggers no kernel-routine
invocation and alters no output.  The call logs of the five passes only
ever name boxes with the corresponding nonempty particle slice; an in-range
box with an empty source slice keeps an identically zero multipole view
after `form_multipoles`; and the outputs of the three evaluation passes are
still zero at every particle index not covered by a listed nonempty target
box's slice — in particular over an empty target box's slice. -/
theorem C6_empty_range_noop (cfg : FMMLib.WranglerConfig) (t : FMMLib.FTree)
    (formmp formta : FMMLib.FormArgs → ℕ × (ℕ → ℚ × ℚ))
    (ev : FMMLib.DirectEvalArgs → (ℕ → ℚ × ℚ))
    (mpeval taeval : FMMLib.ExpnEvalArgs → Except String (ℕ → ℚ × ℚ))
    (lssb lstpb lstb nss starts : ℕ → ℕ)
    (source_boxes target_boxes tpb lists nsl : List ℕ)
    (ssns : List SSN) (w : ℕ → ℚ) (mpole_exps local_exps : ℕ → ℚ × ℚ) :
    (∀ buf log,
      FMMLib.form_multipoles cfg t formmp lssb source_boxes w
        = Except.ok (buf, log) →
      (∀ r ∈ log, t.box_source_counts_nonchild r.2 ≠ 0)
      ∧ ((∀ lev, lev < t.nlevels →
            ∀ b ∈ pySlice source_boxes (lssb lev) (lssb (lev + 1)),
              t.level_start_box_nrs lev ≤ b
              ∧ b < t.level_start_box_nrs (lev + 1)) →
          ∀ lev0 b0, lev0 < t.nlevels →
            t.level_start_box_nrs lev0 ≤ b0 →
            b0 < t.level_start_box_nrs (lev0 + 1) →
            t.box_source_counts_nonchild b0 = 0 →
            ∀ j, j < FMMLib.expansion_size cfg (cfg.level_nterms.getD lev0 0) →
              buf ((FMMLib.multipole_expansions_level_starts cfg t.nlevels
                  t.level_start_box_nrs).getD lev0 0
                + (b0 - t.level_start_box_nrs lev0)
                  * FMMLib.expansion_size cfg (cfg.level_nterms.getD lev0 0)
                + j) = (0, 0)))
    ∧ ((∀ r ∈ (FMMLib.eval_direct cfg t ev target_boxes nss nsl w).2,
          t.box_target_counts_nonchild r.1 ≠ 0
          ∧ t.box_source_counts_nonchild r.2 ≠ 0)
       ∧ ∀ i, (∀ tgt ∈ target_boxes,
            t.box_target_counts_nonchild tgt = 0
            ∨ ¬ (t.box_target_starts tgt ≤ i
                 ∧ i < t.box_target_starts tgt
                   + t.box_target_counts_nonchild tgt)) →
          (FMMLib.eval_direct cfg t ev target_boxes nss nsl w).1 i = (0, 0))
    ∧ (∀ pot log,
        FMMLib.eval_multipoles cfg t mpeval target_boxes ssns mpole_exps
          = Except.ok (pot, log) →
        (∀ r ∈ log, t.box_target_counts_nonchild r.1 ≠ 0)
        ∧ ∀ i, (∀ tgt ∈ target_boxes,
            t.box_target_counts_nonchild tgt = 0
            ∨ ¬ (t.box_target_starts tgt ≤ i
                 ∧ i < t.box_target_starts tgt
                   + t.box_target_counts_nonchild tgt)) →
          pot i = (0, 0))
    ∧ (∀ pot log,
        FMMLib.eval_locals cfg t taeval lstb target_boxes local_exps
          = Except.ok (pot, log) →
        (∀ r ∈ log, t.box_target_counts_nonchild r.2 ≠ 0)
        ∧ ∀ i, (∀ tgt ∈ target_boxes,
            t.box_target_counts_nonchild tgt = 0
            ∨ ¬ (t.box_target_starts tgt ≤ i
                 ∧ i < t.box_target_starts tgt
                   + t.box_target_counts_nonchild tgt)) →
          pot i = (0, 0))
    ∧ (∀ buf log,
        FMMLib.form_locals cfg t formta lstpb tpb starts lists w
          = Except.ok (buf, log) →
        ∀ r ∈ log, t.box_source_counts_nonchild r.2 ≠ 0) := by
  refine ⟨?_, ⟨?_, ?_⟩, ?_, ?_, ?_⟩
  · intro buf log heq
    exact ⟨form_multipoles_log_sources cfg t formmp lssb source_boxes w
        buf log heq,
      fun hlisted lev0 b0 hlev0 hb0l hb0r hempty j hj =>
        form_multipoles_empty_box_zero cfg t formmp lssb source_boxes w
          hlisted buf log heq lev0 b0 hlev0 hb0l hb0r hempty j hj⟩
  · exact eval_direct_log_nonempty cfg t ev target_boxes nss nsl w
  · intro i hcond
    exact eval_direct_pot_zero cfg t ev target_boxes nss nsl w i hcond
  · intro pot log heq
    exact ⟨eval_multipoles_log_targets cfg t mpeval target_boxes ssns
        mpole_exps pot log heq,
      fun i hcond => eval_multipoles_pot_zero cfg t mpeval target_boxes
        ssns mpole_exps pot log heq i hcond⟩
  · intro pot log heq
    exact ⟨eval_locals_log_targets cfg t taeval lstb target_boxes
        local_exps pot log heq,
      fun i hcond => eval_locals_pot_zero cfg t taeval lstb target_boxes
        local_exps pot log heq i hcond⟩
  · intro buf log heq
    exact form_locals_log_sources cfg t formta lstpb tpb starts lists w
      buf log heq

theorem C6_witness :
    (FMMLib.eval_direct wCfg4 wFTree4
      (fun _ => fun _ => ((1 : ℚ), (0 : ℚ))) [] (fun _ => 0) []
      (fun _ => (1 : ℚ))).1 0 = (0, 0) :=
  (C6_empty_range_noop wCfg4 wFTree4
    (fun _ => (0, fun _ => ((0 : ℚ), (0 : ℚ))))
    (fun _ => (0, fun _ => ((0 : ℚ), (0 : ℚ))))
    (fun _ => fun _ => ((1 : ℚ), (0 : ℚ)))
    (fun _ => Except.ok (fun _ => ((0 : ℚ), (0 : ℚ))))
    (fun _ => Except.ok (fun _ => ((0 : ℚ), (0 : ℚ))))
    (fun _ => 0) (fun _ => 0) (fun _ => 0) (fun _ => 0) (fun _ => 0)
    [] [] [] [] [] ([] : List SSN) (fun _ => (1 : ℚ))
    (fun _ => ((0 : ℚ), (0 : ℚ))) (fun _ => ((0 : ℚ), (0 : ℚ)))).2.1.2 0
    (fun tgt h => absurd h (List.not_mem_nil tgt))

end Boxtree
